import Mathlib

/-!
# Island segmentation pipeline (`src/main.cpp`)

A shallow embedding of the five routines of `main.cpp`

* `createHistogram`, `convertToBinary` (adaptive thresholding),
* `createIslandMask` (single raster pass connected-component labelling with a
  disjoint-set table),
* `extractIslands` (per-label areas, ranked by area),
* `filterImageByIslands` (mask of the largest islands),

followed by the properties proved about them.

Conventions of the embedding.

* A `cv::Mat` is a record of its dimensions and a cell function.  Cells outside
  `rows × cols` are never read or written by the code and carry no meaning.
* `uchar` intensities, `int` labels, areas and loop counters are natural
  numbers: none of them is ever negative in the code.  Neighbour coordinates
  are computed in `Int`, as the code does, because `i + dy[k]` can be `-1`.
* `double` quantities are exact rationals.
* `createHistogram` allocates 255 bins and indexes them with intensities up to 255.  The
  histogram is therefore modelled as the memory at `histogram`: the 255 allocated bins,
  followed by the cell at index 255, whose content before the call is the parameter
  `stray` of `createHistogram` and `convertToBinary`.
* `for (int k = 0; k < n; ++k)` is `forN n` (total bodies) or `forNM n` (bodies
  that may fail).
* Reading or writing `dSets[x]` with `x` outside the 2048 allocated slots is a
  failure (`none`), and so is a `while` loop that exhausts its fuel.
-/

set_option linter.unusedVariables false

namespace IslandSeg

/-! ## Data model -/

/-- A `cv::Mat`: dimensions and cell contents. -/
structure Mat (α : Type) where
  rows : Nat
  cols : Nat
  at_ : Nat → Nat → α

/-- The assignment `m.at(i, j) = v`. -/
def Mat.set {α : Type} (m : Mat α) (i j : Nat) (v : α) : Mat α :=
  { m with at_ := fun a b => if a = i ∧ b = j then v else m.at_ a b }

/-- A fresh `Mat(rows, cols, type)` with every cell zero (`result *= 0`). -/
def Mat.zeros (rows cols : Nat) : Mat Nat :=
  ⟨rows, cols, fun _ _ => 0⟩

/-- The record `struct Island { int index; int area; }`. -/
structure Island where
  index : Nat
  area : Nat
deriving DecidableEq

/-! ## Loops -/

/-- The loop `for (int k = 0; k < n; ++k) s = body(k, s)`. -/
def forN {σ : Type} (body : Nat → σ → σ) : Nat → σ → σ
  | 0, s => s
  | n + 1, s => body n (forN body n s)

/-- The loop `for (int k = 0; k < n; ++k)` with a body that may fail. -/
def forNM {σ : Type} (body : Nat → σ → Option σ) : Nat → σ → Option σ
  | 0, s => some s
  | n + 1, s => (forNM body n s).bind (body n)

/-- The nested loops `for i < rows, for j < cols`, in raster order. -/
def forRaster {σ : Type} (rows cols : Nat) (body : Nat → Nat → σ → σ) (s : σ) : σ :=
  forN (fun i => forN (fun j => body i j) cols) rows s

/-- The nested loops `for i < rows, for j < cols` with a body that may fail. -/
def forRasterM {σ : Type} (rows cols : Nat) (body : Nat → Nat → σ → Option σ) (s : σ) :
    Option σ :=
  forNM (fun i => forNM (fun j => body i j) cols) rows s

/-! ## `createHistogram` and `convertToBinary` -/

/-- The constant `BINARIZATION_AREA_PERCENTAGE = 0.04`. -/
def BINARIZATION_AREA_PERCENTAGE : ℚ := 4 / 100

/-- The number of bins allocated by `new double[255]`. -/
def HISTOGRAM_SIZE : Nat := 255

/-- The memory at `histogram` after `memset(histogram, 0, 255 * sizeof(double))`:
the 255 allocated bins (indices `0 .. 254`) are zero; the cell at index 255, just
past the allocation, holds whatever value `stray` was there before. -/
def histogramInit (stray : ℚ) : Nat → ℚ :=
  fun b => if b < HISTOGRAM_SIZE then 0 else stray

/-- The routine `createHistogram`: every pixel adds `1.0 / (rows * cols)` to the
cell indexed by its intensity.  The result is the memory at `histogram`, indexed
from the start of the allocation. -/
def createHistogram (source : Mat Nat) (stray : ℚ) : Nat → ℚ :=
  forRaster source.rows source.cols
    (fun i j histogram =>
      Function.update histogram (source.at_ i j)
        (histogram (source.at_ i j) + 1 / ((source.rows * source.cols : Nat) : ℚ)))
    (histogramInit stray)

/-- The loop `while (threshold > 0 && acc < BINARIZATION_AREA_PERCENTAGE)
{ acc += histogram[threshold]; threshold -= 1; }`, by recursion on `threshold`;
the value is the final `threshold`. -/
def thresholdLoop (histogram : Nat → ℚ) : Nat → ℚ → Nat
  | 0, _ => 0
  | t + 1, acc =>
    if acc < BINARIZATION_AREA_PERCENTAGE then
      thresholdLoop histogram t (acc + histogram (t + 1))
    else t + 1

/-- The local variable `threshold` of `convertToBinary` after its `while` loop. -/
def convertToBinary.threshold (source : Mat Nat) (areaPercent : ℚ) (stray : ℚ) : Nat :=
  thresholdLoop (createHistogram source stray) 255 0

/-- The routine `convertToBinary`.  The parameter `areaPercent` is not used by the
body, which compares against `BINARIZATION_AREA_PERCENTAGE`.  The image
`Mat(source.rows, source.cols, CV_8U)` starts uninitialised in the code; every one of its
cells is then assigned, so its initial content (zeros here) does not show. -/
def convertToBinary (source : Mat Nat) (areaPercent : ℚ) (stray : ℚ) : Mat Nat :=
  forRaster source.rows source.cols
    (fun i j binaryImage =>
      if source.at_ i j > convertToBinary.threshold source areaPercent stray then
        binaryImage.set i j 255
      else
        binaryImage.set i j 0)
    (Mat.zeros source.rows source.cols)

/-! ## `createIslandMask` -/

/-- The number of slots of `int dSets[2048]`. -/
def DSETS_SIZE : Nat := 2048

/-- The read `dSets[set]`, defined only inside the table. -/
def readSet (dSets : Nat → Nat) (set : Nat) : Option Nat :=
  if set < DSETS_SIZE then some (dSets set) else none

/-- The write `dSets[set] = v`, defined only inside the table. -/
def writeSet (dSets : Nat → Nat) (set v : Nat) : Option (Nat → Nat) :=
  if set < DSETS_SIZE then some (Function.update dSets set v) else none

/-- The lambda `dsParent`: `while (dSets[set] != 0) set = dSets[set]; return set;`.
Each unit of fuel pays for one evaluation of the loop condition. -/
def dsParentFuel (dSets : Nat → Nat) : Nat → Nat → Option Nat
  | 0, _ => none
  | fuel + 1, set =>
    (readSet dSets set).bind fun parent =>
      if parent ≠ 0 then dsParentFuel dSets fuel parent else some set

/-- The lambda `dsParent`, with as much fuel as the table has slots. -/
def dsParent (dSets : Nat → Nat) (set : Nat) : Option Nat :=
  dsParentFuel dSets DSETS_SIZE set

/-- The lambda `dsMerge`: `dSets[dsParent(left)] = dsParent(right)`. -/
def dsMerge (dSets : Nat → Nat) (left right : Nat) : Option (Nat → Nat) :=
  (dsParent dSets left).bind fun pLeft =>
    (dsParent dSets right).bind fun pRight =>
      writeSet dSets pLeft pRight

/-- The table `int dx[4] = { 1, 0, -1, -1 }`. -/
def dx : Nat → Int
  | 0 => 1
  | 1 => 0
  | 2 => -1
  | _ => -1

/-- The table `int dy[4] = { -1, -1, -1, 0 }`. -/
def dy : Nat → Int
  | 0 => -1
  | 1 => -1
  | 2 => -1
  | _ => 0

/-- The lambda `clamp`: `max(min(a, right), left)`. -/
def clamp (a left right : Int) : Int :=
  max (min a right) left

/-- Row of the `k`-th neighbour examined at row `i`:
`clamp(i + dy[k], 0, source.rows - 1)`. -/
def nbrRow (rows i k : Nat) : Nat :=
  (clamp ((i : Int) + dy k) 0 ((rows : Int) - 1)).toNat

/-- Column of the `k`-th neighbour examined at column `j`:
`clamp(j + dx[k], 0, source.cols - 1)`. -/
def nbrCol (cols j k : Nat) : Nat :=
  (clamp ((j : Int) + dx k) 0 ((cols : Int) - 1)).toNat

/-- The variables mutated by the raster pass of `createIslandMask`. -/
structure LabelState where
  dSets : Nat → Nat
  lastSet : Nat
  result : Mat Nat

/-- One iteration of the loop `for (int k = 0; k < 4; ++k)` at pixel `(i, j)`. -/
def visitNeighbour (source : Mat Nat) (i j k : Nat) (st : LabelState) : Option LabelState :=
  let dstValNeighbour :=
    st.result.at_ (nbrRow source.rows i k) (nbrCol source.cols j k)
  if dstValNeighbour ≠ 0 then
    let dstVal := st.result.at_ i j
    if st.result.at_ i j = 0 then
      (dsParent st.dSets dstValNeighbour).bind fun p =>
        some { st with result := st.result.set i j p }
    else
      (dsParent st.dSets dstVal).bind fun pVal =>
        (dsParent st.dSets dstValNeighbour).bind fun pNeighbour =>
          if pVal ≠ pNeighbour then
            (dsMerge st.dSets dstVal dstValNeighbour).bind fun dSets =>
              some { st with dSets := dSets }
          else some st
  else some st

/-- The statement `if (result.at(i, j) == 0) result.at(i, j) = lastSet++;`. -/
def beginIsland (i j : Nat) (st : LabelState) : LabelState :=
  if st.result.at_ i j = 0 then
    { st with result := st.result.set i j st.lastSet, lastSet := st.lastSet + 1 }
  else st

/-- The body of the raster loops of `createIslandMask` at pixel `(i, j)`. -/
def labelPixel (source : Mat Nat) (i j : Nat) (st : LabelState) : Option LabelState :=
  if source.at_ i j ≠ 0 then
    (forNM (visitNeighbour source i j) 4 st).map (beginIsland i j)
  else some st

/-- The first pair of loops of `createIslandMask`: the labelling pass. -/
def labelPass (source : Mat Nat) : Option LabelState :=
  forRasterM source.rows source.cols (labelPixel source)
    { dSets := fun _ => 0, lastSet := 1, result := Mat.zeros source.rows source.cols }

/-- The second pair of loops of `createIslandMask`, over `rows × cols` cells:
`result.at(i, j) = dsParent(result.at(i, j))`. -/
def resolvePass (rows cols : Nat) (dSets : Nat → Nat) (result : Mat Nat) : Option (Mat Nat) :=
  forRasterM rows cols
    (fun i j result => (dsParent dSets (result.at_ i j)).map (result.set i j))
    result

/-- The routine `createIslandMask`. -/
def createIslandMask (source : Mat Nat) : Option (Mat Nat) :=
  (labelPass source).bind fun st => resolvePass source.rows source.cols st.dSets st.result

/-! ## `extractIslands` -/

/-- The statements `if (islandMap.count(v) == 0) islandMap[v] = Island(v, 0);
islandMap[v].area += 1;` on a `std::map<int, Island>` kept as the list of its
values in ascending key order. -/
def mapIncrement (srcValue : Nat) : List Island → List Island
  | [] => [⟨srcValue, 0 + 1⟩]
  | isl :: rest =>
    if srcValue = isl.index then ⟨isl.index, isl.area + 1⟩ :: rest
    else if srcValue < isl.index then ⟨srcValue, 0 + 1⟩ :: isl :: rest
    else isl :: mapIncrement srcValue rest

/-- The comparator of the `std::sort` call: `left.area > right.area`. -/
def areaGreater (left right : Island) : Prop :=
  left.area > right.area

/-- The order in which `std::sort` may leave two islands with that comparator:
`left` may precede `right` unless `right` compares before `left`. -/
def mayPrecede (left right : Island) : Prop :=
  ¬ areaGreater right left

instance : DecidableRel mayPrecede := fun left right =>
  inferInstanceAs (Decidable (¬ right.area > left.area))

instance : IsTotal Island mayPrecede :=
  ⟨fun a b => by
    unfold mayPrecede areaGreater
    omega⟩

instance : IsTrans Island mayPrecede :=
  ⟨fun a b c => by
    unfold mayPrecede areaGreater
    omega⟩

/-- The call `std::sort(result.begin(), result.end(), cmp)`, as an insertion
sort.  Only its contract is used below: the output is a rearrangement of the
input in which no element compares before an earlier one. -/
def stdSort (islands : List Island) : List Island :=
  islands.insertionSort mayPrecede

/-- The loops of `extractIslands` that fill `islandMap`. -/
def islandMap (source : Mat Nat) : List Island :=
  forRaster source.rows source.cols
    (fun i j islandMap =>
      if source.at_ i j ≠ 0 then mapIncrement (source.at_ i j) islandMap else islandMap)
    []

/-- The routine `extractIslands`. -/
def extractIslands (source : Mat Nat) : List Island :=
  stdSort (islandMap source)

/-! ## `filterImageByIslands` -/

/-- The loop `for (k = 0; k < bound; ++k) if (label == islands[k].index)
{ hit; break; }`, started at the head of `islands` with `bound` iterations to
go; the value tells whether the `break` was reached. -/
def matchesIsland (label : Nat) : List Island → Nat → Bool
  | [], _ => false
  | _ :: _, 0 => false
  | isl :: rest, bound + 1 =>
    if label = isl.index then true else matchesIsland label rest bound

/-- The loop bound `min((int)islands.size(), islandCount)`, as the number of
iterations it allows. -/
def filterBound (islands : List Island) (islandCount : Int) : Nat :=
  (min (islands.length : Int) islandCount).toNat

/-- The routine `filterImageByIslands`. -/
def filterImageByIslands (islandMask : Mat Nat) (islands : List Island) (islandCount : Int) :
    Mat Nat :=
  forRaster islandMask.rows islandMask.cols
    (fun i j result =>
      if islandMask.at_ i j = 0 then result
      else if matchesIsland (islandMask.at_ i j) islands (filterBound islands islandCount) then
        result.set i j 255
      else result)
    (Mat.zeros islandMask.rows islandMask.cols)

/-! ## Vocabulary of the statements -/

/-- The number of cells of the grid whose content satisfies `p`. -/
def Mat.count {α : Type} (m : Mat α) (p : α → Prop) [DecidablePred p] : Nat :=
  ((Finset.range m.rows ×ˢ Finset.range m.cols).filter fun c => p (m.at_ c.1 c.2)).card

/-- The sum of the areas of a list of islands. -/
def totalArea (islands : List Island) : Nat :=
  (islands.map Island.area).sum

/-- The sum of the allocated bins `0 .. HISTOGRAM_SIZE - 1` of a histogram. -/
def histogramSum (histogram : Nat → ℚ) : ℚ :=
  ∑ b in Finset.range HISTOGRAM_SIZE, histogram b

/-- `RootIn dSets n x r`: following the parent entries from label `x` reaches, after
`n` steps, the label `r` whose entry is 0. -/
inductive RootIn (dSets : Nat → Nat) : Nat → Nat → Nat → Prop
  | root {r : Nat} : dSets r = 0 → RootIn dSets 0 r r
  | step {n x r : Nat} : dSets x ≠ 0 → RootIn dSets n (dSets x) r → RootIn dSets (n + 1) x r

/-- `RootOf dSets x r`: `r` is the disjoint-set root of label `x`. -/
def RootOf (dSets : Nat → Nat) (x r : Nat) : Prop :=
  ∃ n, RootIn dSets n x r

/-- Pixel `p` lies inside the grid and is foreground (nonzero). -/
def Mat.fg (m : Mat Nat) (p : Nat × Nat) : Prop :=
  p.1 < m.rows ∧ p.2 < m.cols ∧ m.at_ p.1 p.2 ≠ 0

instance (m : Mat Nat) (p : Nat × Nat) : Decidable (m.fg p) := by
  unfold Mat.fg
  infer_instance

/-- The `k`-th neighbour examined by `createIslandMask` at pixel `p`: the causal
offset `(dy[k], dx[k])` with both coordinates clamped to the grid. -/
def nbr (m : Mat Nat) (p : Nat × Nat) (k : Nat) : Nat × Nat :=
  (nbrRow m.rows p.1 k, nbrCol m.cols p.2 k)

/-- Raster order: pixel `p` is visited before pixel `q`. -/
def Before (p q : Nat × Nat) : Prop :=
  p.1 < q.1 ∨ (p.1 = q.1 ∧ p.2 < q.2)

instance (p q : Nat × Nat) : Decidable (Before p q) := by
  unfold Before
  infer_instance

/-- Two foreground pixels are linked when the second is one of the four clamped causal
neighbours of the first. -/
def CausalLink (m : Mat Nat) (p q : Nat × Nat) : Prop :=
  m.fg p ∧ m.fg q ∧ ∃ k, k < 4 ∧ q = nbr m p k

/-- Two pixels are connected when a chain of foreground pixels joins them, each
consecutive pair being linked in one direction or the other. -/
def Connected (m : Mat Nat) : Nat × Nat → Nat × Nat → Prop :=
  Relation.EqvGen (CausalLink m)

/-- A pixel starts a new island: it is foreground and none of its four clamped causal
neighbours is a foreground pixel visited before it. -/
def isSeed (m : Mat Nat) (p : Nat × Nat) : Prop :=
  m.fg p ∧ ∀ k, k < 4 → ¬ (m.fg (nbr m p k) ∧ Before (nbr m p k) p)

instance (m : Mat Nat) (p : Nat × Nat) : Decidable (isSeed m p) := by
  unfold isSeed
  infer_instance

/-- The number of pixels that start a new island, i.e. of fresh labels that
`createIslandMask` allocates. -/
def seedCount (m : Mat Nat) : Nat :=
  ((Finset.range m.rows ×ˢ Finset.range m.cols).filter fun p => isSeed m p).card

/-- The number of fresh labels allocated before pixel `q` is visited. -/
def seedsBefore (m : Mat Nat) (q : Nat × Nat) : Nat :=
  ((Finset.range m.rows ×ˢ Finset.range m.cols).filter
    fun p => isSeed m p ∧ Before p q).card

/-- Pixels `p` and `q` are both labelled and their labels have the same root. -/
def Same (st : LabelState) (p q : Nat × Nat) : Prop :=
  st.result.at_ p.1 p.2 ≠ 0 ∧ st.result.at_ q.1 q.2 ≠ 0 ∧
    ∃ r, RootOf st.dSets (st.result.at_ p.1 p.2) r ∧ RootOf st.dSets (st.result.at_ q.1 q.2) r

/-- The facts about the labelling state that hold at every point of the raster pass. -/
structure Inv (source : Mat Nat) (st : LabelState) : Prop where
  rows_eq : st.result.rows = source.rows
  cols_eq : st.result.cols = source.cols
  lastSet_pos : 1 ≤ st.lastSet
  entry_lt : ∀ x, st.dSets x < st.lastSet
  entry_zero : st.dSets 0 = 0
  entry_fresh : ∀ x, st.lastSet ≤ x → st.dSets x = 0
  forest : ∀ x, ∃ r, RootOf st.dSets x r
  label_lt : ∀ a b, st.result.at_ a b < st.lastSet
  label_fg : ∀ a b, st.result.at_ a b ≠ 0 → source.fg (a, b)
  sound : ∀ p q, Same st p q → Connected source p q

/-- The facts that hold when the raster pass is about to visit pixel `c`: exactly the
foreground pixels before `c` are labelled, each is in the same set as every foreground
neighbour visited before it, and `lastSet` counts the islands started so far. -/
structure InvAt (source : Mat Nat) (c : Nat × Nat) (st : LabelState) extends
    Inv source st : Prop where
  labelled : ∀ p, st.result.at_ p.1 p.2 ≠ 0 ↔ source.fg p ∧ Before p c
  complete : ∀ p k, source.fg p → Before p c → k < 4 → source.fg (nbr source p k) →
    Before (nbr source p k) p → Same st p (nbr source p k)
  count : st.lastSet = 1 + seedsBefore source c

/-- The facts that hold inside the visit of the foreground pixel `c`, after `k` of its
neighbours have been examined. -/
structure InvIn (source : Mat Nat) (c : Nat × Nat) (k : Nat) (st : LabelState) extends
    Inv source st : Prop where
  labelled : ∀ p, p ≠ c → (st.result.at_ p.1 p.2 ≠ 0 ↔ source.fg p ∧ Before p c)
  current : st.result.at_ c.1 c.2 = 0 ↔
    ∀ k', k' < k → ¬ (source.fg (nbr source c k') ∧ Before (nbr source c k') c)
  complete : ∀ p k', source.fg p → Before p c → k' < 4 → source.fg (nbr source p k') →
    Before (nbr source p k') p → Same st p (nbr source p k')
  completeCurrent : ∀ k', k' < k → source.fg (nbr source c k') →
    Before (nbr source c k') c → Same st c (nbr source c k')
  count : st.lastSet = 1 + seedsBefore source c

/-- The labels (map keys) of a list of islands. -/
def keys (islands : List Island) : List Nat :=
  islands.map Island.index

/-- The total area recorded under label `l` in a list of islands. -/
def areaOf (islands : List Island) (l : Nat) : Nat :=
  ((islands.filter fun isl => isl.index = l).map Island.area).sum

/-- Two distinct pixels touch: they are horizontal, vertical or diagonal neighbours. -/
def Adjacent8 (p q : Nat × Nat) : Prop :=
  p ≠ q ∧ p.1 ≤ q.1 + 1 ∧ q.1 ≤ p.1 + 1 ∧ p.2 ≤ q.2 + 1 ∧ q.2 ≤ p.2 + 1

/-- Pixel `p` of the grey grid `g` belongs to the blob of value 220. -/
def InBlob (g : Mat Nat) (p : Nat × Nat) : Prop :=
  p.1 < g.rows ∧ p.2 < g.cols ∧ g.at_ p.1 p.2 = 220

/-- The grids of the example scenario: `5 × 5`, zero except for a 3-pixel diagonal of
value 200 starting in one of the four corners and a connected 5-pixel blob of value 220
that touches no pixel of the diagonal. -/
structure Scenario (g : Mat Nat) : Prop where
  rows_eq : g.rows = 5
  cols_eq : g.cols = 5
  values : ∀ i j, i < 5 → j < 5 → g.at_ i j = 0 ∨ g.at_ i j = 200 ∨ g.at_ i j = 220
  diagonal :
    (∀ i j, i < 5 → j < 5 → (g.at_ i j = 200 ↔ i = j ∧ i ≤ 2)) ∨
    (∀ i j, i < 5 → j < 5 → (g.at_ i j = 200 ↔ i + j = 4 ∧ i ≤ 2)) ∨
    (∀ i j, i < 5 → j < 5 → (g.at_ i j = 200 ↔ i + j = 4 ∧ 2 ≤ i)) ∨
    (∀ i j, i < 5 → j < 5 → (g.at_ i j = 200 ↔ i = j ∧ 2 ≤ i))
  blob_size : g.count (fun v => v = 220) = 5
  blob_connected : ∀ p q, InBlob g p → InBlob g q →
    Relation.EqvGen (fun a b => InBlob g a ∧ InBlob g b ∧ Adjacent8 a b) p q
  separate : ∀ p q : Nat × Nat, p.1 < 5 → p.2 < 5 → q.1 < 5 → q.2 < 5 →
    g.at_ p.1 p.2 = 200 → g.at_ q.1 q.2 = 220 → ¬ Adjacent8 p q

instance (m : Mat Nat) (p q : Nat × Nat) : Decidable (CausalLink m p q) := by
  unfold CausalLink
  infer_instance

/-- Two pixels touch under the adjacency rule of the labelling: one is a clamped causal
neighbour of the other. -/
def Touch (m : Mat Nat) (p q : Nat × Nat) : Prop :=
  CausalLink m p q ∨ CausalLink m q p

instance (m : Mat Nat) (p q : Nat × Nat) : Decidable (Touch m p q) := by
  unfold Touch
  infer_instance

/-- One round of a brute-force flood fill: add every pixel of the grid that touches a
pixel already reached. -/
def floodStep (m : Mat Nat) (reached : Finset (Nat × Nat)) : Finset (Nat × Nat) :=
  reached ∪ (Finset.range m.rows ×ˢ Finset.range m.cols).filter
    fun q => ∃ p ∈ reached, Touch m p q

/-- The brute-force flood fill from pixel `p`, the reference the labelling is compared
with: as many rounds as the grid has cells. -/
def floodFill (m : Mat Nat) (p : Nat × Nat) : Finset (Nat × Nat) :=
  (floodStep m)^[m.rows * m.cols] {p}

/-- The bin indices written by `createHistogram` (`histogram[source.at(i, j)] += ...`),
in the order of the writes. -/
def histogramWrites (source : Mat Nat) : List Nat :=
  forRaster source.rows source.cols (fun i j written => written ++ [source.at_ i j]) []

/-- The bin indices read by the scan of `convertToBinary` (`acc += histogram[threshold]`),
in the order of the reads: the companion of `thresholdLoop`. -/
def thresholdReads (histogram : Nat → ℚ) : Nat → ℚ → List Nat
  | 0, _ => []
  | t + 1, acc =>
    if acc < BINARIZATION_AREA_PERCENTAGE then
      (t + 1) :: thresholdReads histogram t (acc + histogram (t + 1))
    else []

/-- The state of the labelling pass of `createIslandMask` at the point where the rows
before `i` and the pixels before `j` of row `i` have been visited and `k` neighbours of
pixel `(i, j)` have been examined: the run of the loops cut off there. -/
def stateAt (source : Mat Nat) (i j k : Nat) : Option LabelState :=
  ((forRasterM i source.cols (labelPixel source)
      { dSets := fun _ => 0, lastSet := 1, result := Mat.zeros source.rows source.cols }).bind
    (forNM (labelPixel source i) j)).bind (forNM (visitNeighbour source i j) k)

/-- The points of the labelling pass: before a pixel of the grid or at the end of a row
(`k = 0`), inside the neighbour loop of a foreground pixel (`k ≤ 4`), and at the end of
the pass (`i = rows`). -/
def PassPoint (source : Mat Nat) (i j k : Nat) : Prop :=
  (i < source.rows ∧ j ≤ source.cols ∧
    (k = 0 ∨ (k ≤ 4 ∧ j < source.cols ∧ source.at_ i j ≠ 0))) ∨
  (i = source.rows ∧ j = 0 ∧ k = 0)

instance (source : Mat Nat) (i j k : Nat) : Decidable (PassPoint source i j k) := by
  unfold PassPoint
  infer_instance

/-- The parent table `dSets` is a forest over the labels below `lastSet`: slot 0 is 0; a
nonzero entry belongs to an allocated label, is itself an allocated label and differs
from its child; the chain of parents from an allocated label passes through pairwise
distinct labels and ends at a label whose entry is 0; and `dsParent` returns that label. -/
structure Forest (dSets : Nat → Nat) (lastSet : Nat) : Prop where
  slot_zero : dSets 0 = 0
  parent_allocated : ∀ x, dSets x ≠ 0 →
    0 < x ∧ x < lastSet ∧ 0 < dSets x ∧ dSets x < lastSet ∧ dSets x ≠ x
  chain : ∀ x, x < lastSet → ∃ n r, RootIn dSets n x r ∧
    ∀ a b, a ≤ n → b ≤ n → dSets^[a] x = dSets^[b] x → a = b
  terminates : ∀ x, x < lastSet → ∃ r, dsParent dSets x = some r ∧ dSets r = 0

/-- The facts about the parent table alone that the labelling pass maintains. -/
structure TableInv (dSets : Nat → Nat) (lastSet : Nat) : Prop where
  lastSet_pos : 1 ≤ lastSet
  entry_lt : ∀ x, dSets x < lastSet
  entry_zero : dSets 0 = 0
  entry_fresh : ∀ x, lastSet ≤ x → dSets x = 0
  forest : ∀ x, ∃ r, RootOf dSets x r

/-- The body of the neighbour loop of `createIslandMask` at pixel `(i, j)`, as a function
of the label `dstValNeighbour` read from the neighbour. -/
def visitWith (i j : Nat) (dstValNeighbour : Nat) (st : LabelState) : Option LabelState :=
  if dstValNeighbour ≠ 0 then
    let dstVal := st.result.at_ i j
    if st.result.at_ i j = 0 then
      (dsParent st.dSets dstValNeighbour).bind fun p =>
        some { st with result := st.result.set i j p }
    else
      (dsParent st.dSets dstVal).bind fun pVal =>
        (dsParent st.dSets dstValNeighbour).bind fun pNeighbour =>
          if pVal ≠ pNeighbour then
            (dsMerge st.dSets dstVal dstValNeighbour).bind fun dSets =>
              some { st with dSets := dSets }
          else some st
  else some st

/-- The `k`-th causal neighbour of pixel `(i, j)` lies inside the grid, without clamping. -/
def inGrid (rows cols i j k : Nat) : Prop :=
  0 ≤ (i : Int) + dy k ∧ (i : Int) + dy k ≤ (rows : Int) - 1 ∧
    0 ≤ (j : Int) + dx k ∧ (j : Int) + dx k ≤ (cols : Int) - 1

instance (rows cols i j k : Nat) : Decidable (inGrid rows cols i j k) := by
  unfold inGrid
  infer_instance

/-- The label read from the `k`-th causal neighbour when neighbours outside the grid are
treated as background: the cell at `(i + dy[k], j + dx[k])` if it lies inside the grid,
and 0 otherwise. -/
def unclampedLabel (source : Mat Nat) (i j k : Nat) (st : LabelState) : Nat :=
  if inGrid source.rows source.cols i j k then
    st.result.at_ ((i : Int) + dy k).toNat ((j : Int) + dx k).toNat
  else 0

/-- One iteration of the neighbour loop, neighbours outside the grid being background. -/
def visitNeighbourUnclamped (source : Mat Nat) (i j k : Nat) (st : LabelState) :
    Option LabelState :=
  visitWith i j (unclampedLabel source i j k st) st

/-- The body of the raster loops, neighbours outside the grid being background. -/
def labelPixelUnclamped (source : Mat Nat) (i j : Nat) (st : LabelState) : Option LabelState :=
  if source.at_ i j ≠ 0 then
    (forNM (visitNeighbourUnclamped source i j) 4 st).map (beginIsland i j)
  else some st

/-- The labelling pass, neighbours outside the grid being background. -/
def labelPassUnclamped (source : Mat Nat) : Option LabelState :=
  forRasterM source.rows source.cols (labelPixelUnclamped source)
    { dSets := fun _ => 0, lastSet := 1, result := Mat.zeros source.rows source.cols }

/-- The algorithm of `createIslandMask` with neighbours outside the grid treated as
background instead of being clamped to the grid edge. -/
def createIslandMaskUnclamped (source : Mat Nat) : Option (Mat Nat) :=
  (labelPassUnclamped source).bind fun st =>
    resolvePass source.rows source.cols st.dSets st.result

/-! ## Sample inputs -/

/-- A `3 × 4` binary grid with three islands: two pixels side by side, two pixels joined
diagonally, and one isolated pixel. -/
def sampleBinary : Mat Nat :=
  ⟨3, 4, fun i j => if (i, j) ∈ [(0, 0), (0, 1), (1, 3), (2, 0), (2, 2)] then 255 else 0⟩

/-- A `2 × 3` label grid with labels 1 (three cells) and 2 (one cell). -/
def sampleLabels : Mat Nat :=
  ⟨2, 3, fun i j => if (i, j) ∈ [(0, 0), (0, 1), (1, 1)] then 1 else if (i, j) = (1, 2) then 2 else 0⟩

/-- A `1 × 2` grey grid with intensities 254 and 253. -/
def samplePair : Mat Nat :=
  ⟨1, 2, fun _ j => if j = 0 then 254 else 253⟩

/-- A `1 × 1` grey grid whose only pixel has intensity 255. -/
def sampleWhite : Mat Nat :=
  ⟨1, 1, fun _ _ => 255⟩

/-- A grid of the example scenario: the diagonal `(0,0), (1,1), (2,2)` of value 200 and
the right-hand column of value 220. -/
def sampleScene : Mat Nat :=
  ⟨5, 5, fun i j => if j = 4 then 220 else if i = j ∧ i ≤ 2 then 200 else 0⟩

/-! ## Loop lemmas -/

theorem forN_rows {α : Type} (body : Nat → Mat α → Mat α)
    (hdim : ∀ k m, (body k m).rows = m.rows) (n : Nat) (m : Mat α) :
    (forN body n m).rows = m.rows := by
  induction n with
  | zero => rfl
  | succ n ih => simp [forN, hdim, ih]

theorem forN_cols {α : Type} (body : Nat → Mat α → Mat α)
    (hdim : ∀ k m, (body k m).cols = m.cols) (n : Nat) (m : Mat α) :
    (forN body n m).cols = m.cols := by
  induction n with
  | zero => rfl
  | succ n ih => simp [forN, hdim, ih]

theorem forRaster_rows {α : Type} (rows cols : Nat) (body : Nat → Nat → Mat α → Mat α)
    (hdim : ∀ i j m, (body i j m).rows = m.rows) (m : Mat α) :
    (forRaster rows cols body m).rows = m.rows :=
  forN_rows _ (fun i m => forN_rows _ (fun j m => hdim i j m) cols m) rows m

theorem forRaster_cols {α : Type} (rows cols : Nat) (body : Nat → Nat → Mat α → Mat α)
    (hdim : ∀ i j m, (body i j m).cols = m.cols) (m : Mat α) :
    (forRaster rows cols body m).cols = m.cols :=
  forN_cols _ (fun i m => forN_cols _ (fun j m => hdim i j m) cols m) rows m

/-- A row loop whose body rewrites only cell `(i, j)`, as a function of its old content. -/
theorem forN_row_cell {α : Type} (i : Nat) (body : Nat → Mat α → Mat α) (F : Nat → α → α)
    (hbody : ∀ j m a b,
      (body j m).at_ a b = if a = i ∧ b = j then F j (m.at_ i j) else m.at_ a b)
    (n : Nat) (m : Mat α) (a b : Nat) :
    (forN body n m).at_ a b = if a = i ∧ b < n then F b (m.at_ i b) else m.at_ a b := by
  induction n generalizing a b with
  | zero => simp [forN]
  | succ n ih =>
    simp only [forN, hbody]
    by_cases ha : a = i
    · subst ha
      rcases Nat.lt_trichotomy b n with hb | hb | hb
      · have h1 : ¬ b = n := by omega
        have h2 : b < n + 1 := by omega
        simp [h1, h2, hb, ih]
      · subst hb
        simp [ih]
      · have h1 : ¬ b = n := by omega
        have h2 : ¬ b < n + 1 := by omega
        have h3 : ¬ b < n := by omega
        simp [h1, h2, h3, ih]
    · simp [ha, ih]

/-- A raster loop whose body rewrites only cell `(i, j)`, as a function of its old content. -/
theorem forRaster_cell {α : Type} (rows cols : Nat) (body : Nat → Nat → Mat α → Mat α)
    (F : Nat → Nat → α → α)
    (hbody : ∀ i j m a b,
      (body i j m).at_ a b = if a = i ∧ b = j then F i j (m.at_ i j) else m.at_ a b)
    (m : Mat α) (a b : Nat) :
    (forRaster rows cols body m).at_ a b =
      if a < rows ∧ b < cols then F a b (m.at_ a b) else m.at_ a b := by
  unfold forRaster
  induction rows generalizing a b with
  | zero => simp [forN]
  | succ n ih =>
    simp only [forN]
    rw [forN_row_cell n (fun j => body n j) (F n) (hbody n) cols]
    rw [ih, ih]
    by_cases ha : a = n
    · subst ha
      by_cases hb : b < cols <;> simp [hb]
    · by_cases hb : b < cols
      · by_cases han : a < n
        · have : a < n + 1 := by omega
          simp [ha, han, hb, this]
        · have : ¬ a < n + 1 := by omega
          simp [ha, han, this]
      · simp [ha, hb]

/-! ## Accumulating loops -/

theorem forN_sum {σ M : Type} [AddCommMonoid M] (μ : σ → M) (w : Nat → M)
    (body : Nat → σ → σ) (h : ∀ k s, μ (body k s) = μ s + w k) (n : Nat) (s : σ) :
    μ (forN body n s) = μ s + ∑ k in Finset.range n, w k := by
  induction n with
  | zero => simp [forN]
  | succ n ih => simp [forN, h, ih, Finset.sum_range_succ, add_assoc]

theorem forRaster_sum {σ M : Type} [AddCommMonoid M] (μ : σ → M) (w : Nat → Nat → M)
    (body : Nat → Nat → σ → σ) (h : ∀ i j s, μ (body i j s) = μ s + w i j)
    (rows cols : Nat) (s : σ) :
    μ (forRaster rows cols body s) =
      μ s + ∑ i in Finset.range rows, ∑ j in Finset.range cols, w i j :=
  forN_sum μ (fun i => ∑ j in Finset.range cols, w i j) _
    (fun i s => forN_sum μ (w i) _ (h i) cols s) rows s

theorem Mat.count_eq_sum {α : Type} (m : Mat α) (p : α → Prop) [DecidablePred p] :
    m.count p =
      ∑ i in Finset.range m.rows, ∑ j in Finset.range m.cols,
        if p (m.at_ i j) then 1 else 0 := by
  unfold Mat.count
  rw [Finset.card_filter, Finset.sum_product]

/-- A grid has a cell satisfying `p` exactly when the count of such cells is positive. -/
theorem Mat.count_pos_iff {α : Type} (m : Mat α) (p : α → Prop) [DecidablePred p] :
    0 < m.count p ↔ ∃ i j, i < m.rows ∧ j < m.cols ∧ p (m.at_ i j) := by
  unfold Mat.count
  rw [Finset.card_pos]
  constructor
  · rintro ⟨⟨i, j⟩, hc⟩
    simp only [Finset.mem_filter, Finset.mem_product, Finset.mem_range] at hc
    exact ⟨i, j, hc.1.1, hc.1.2, hc.2⟩
  · rintro ⟨i, j, hi, hj, hp⟩
    exact ⟨(i, j), by simp [hi, hj, hp]⟩

/-! ## `createHistogram`: content of each cell -/

theorem createHistogram_apply (source : Mat Nat) (stray : ℚ) (b : Nat) :
    createHistogram source stray b =
      histogramInit stray b +
        (source.count (fun v => v = b) : ℚ) * (1 / ((source.rows * source.cols : Nat) : ℚ)) := by
  unfold createHistogram
  rw [forRaster_sum (fun h : Nat → ℚ => h b)
    (fun i j => if source.at_ i j = b then 1 / ((source.rows * source.cols : Nat) : ℚ) else 0)]
  · rw [Mat.count_eq_sum]
    push_cast
    rw [Finset.sum_mul]
    congr 1
    apply Finset.sum_congr rfl
    intro i _
    rw [Finset.sum_mul]
    apply Finset.sum_congr rfl
    intro j _
    split <;> simp
  · intro i j h
    by_cases hb : source.at_ i j = b
    · subst hb
      simp
    · have hb2 : b ≠ source.at_ i j := fun h => hb h.symm
      simp [Function.update_noteq hb2, hb]

/-- The allocated bins hold the mass of the pixels whose intensity is below
`HISTOGRAM_SIZE`; the mass of a pixel of intensity 255 is not among them. -/
theorem histogramSum_createHistogram (source : Mat Nat) (stray : ℚ) :
    histogramSum (createHistogram source stray) =
      (source.count (fun v => v < HISTOGRAM_SIZE) : ℚ) *
        (1 / ((source.rows * source.cols : Nat) : ℚ)) := by
  unfold histogramSum
  have hbin : ∀ b ∈ Finset.range HISTOGRAM_SIZE, createHistogram source stray b =
      (source.count (fun v => v = b) : ℚ) * (1 / ((source.rows * source.cols : Nat) : ℚ)) := by
    intro b hb
    rw [createHistogram_apply]
    simp only [Finset.mem_range] at hb
    simp [histogramInit, hb]
  have hnat : ∑ b in Finset.range HISTOGRAM_SIZE, source.count (fun v => v = b) =
      source.count (fun v => v < HISTOGRAM_SIZE) := by
    unfold Mat.count
    rw [Finset.card_eq_sum_card_fiberwise (f := fun c : Nat × Nat => source.at_ c.1 c.2)
      (t := Finset.range HISTOGRAM_SIZE)]
    · apply Finset.sum_congr rfl
      intro b hb
      simp only [Finset.mem_range] at hb
      congr 1
      ext c
      simp only [Finset.mem_filter]
      constructor
      · rintro ⟨hc, e⟩
        exact ⟨⟨hc, by rw [e]; exact hb⟩, e⟩
      · rintro ⟨⟨hc, _⟩, e⟩
        exact ⟨hc, e⟩
    · intro c hc
      simp only [Finset.mem_filter] at hc
      simpa using hc.2
  rw [Finset.sum_congr rfl hbin, ← Finset.sum_mul, ← Nat.cast_sum, hnat]

/-- On a non-empty grid without a pixel of intensity 255 (or more) the bins sum to 1. -/
theorem histogramSum_eq_one (source : Mat Nat) (stray : ℚ) (h0 : 0 < source.rows * source.cols)
    (hlt : ∀ i j, i < source.rows → j < source.cols → source.at_ i j < HISTOGRAM_SIZE) :
    histogramSum (createHistogram source stray) = 1 := by
  rw [histogramSum_createHistogram]
  have hall : source.count (fun v => v < HISTOGRAM_SIZE) = source.rows * source.cols := by
    unfold Mat.count
    rw [Finset.filter_true_of_mem]
    · simp
    · intro c hc
      simp only [Finset.mem_product, Finset.mem_range] at hc
      exact hlt c.1 c.2 hc.1 hc.2
  rw [hall]
  have : ((source.rows * source.cols : Nat) : ℚ) ≠ 0 := by
    exact_mod_cast (Nat.pos_iff_ne_zero.1 h0)
  rw [mul_one_div, div_self this]

/-! ## Loops with a body that may fail -/

/-- A loop whose body succeeds and advances the invariant at every iteration succeeds
and establishes the invariant at the end. -/
theorem forNM_inv {σ : Type} (P : Nat → σ → Prop) (body : Nat → σ → Option σ) (n : Nat)
    (s : σ) (h0 : P 0 s)
    (hstep : ∀ k, k < n → ∀ t, P k t → ∃ t', body k t = some t' ∧ P (k + 1) t') :
    ∃ t, forNM body n s = some t ∧ P n t := by
  induction n with
  | zero => exact ⟨s, rfl, h0⟩
  | succ n ih =>
    obtain ⟨t, ht, hP⟩ := ih (fun k hk => hstep k (by omega))
    obtain ⟨t', ht', hP'⟩ := hstep n (by omega) t hP
    exact ⟨t', by simp [forNM, ht, ht'], hP'⟩

/-! ## `convertToBinary`: shape of the output -/

theorem convertToBinary_at (source : Mat Nat) (areaPercent stray : ℚ) (a b : Nat) :
    (convertToBinary source areaPercent stray).at_ a b =
      if a < source.rows ∧ b < source.cols then
        (if source.at_ a b > convertToBinary.threshold source areaPercent stray then 255 else 0)
      else 0 := by
  unfold convertToBinary
  rw [forRaster_cell source.rows source.cols _
    (fun i j _ =>
      if source.at_ i j > convertToBinary.threshold source areaPercent stray then 255 else 0)]
  · rfl
  · intro i j m a b
    by_cases h : source.at_ i j > convertToBinary.threshold source areaPercent stray <;>
      simp [h, Mat.set]

theorem convertToBinary_rows (source : Mat Nat) (areaPercent stray : ℚ) :
    (convertToBinary source areaPercent stray).rows = source.rows := by
  unfold convertToBinary
  rw [forRaster_rows]
  · rfl
  · intro i j m
    split <;> rfl

theorem convertToBinary_cols (source : Mat Nat) (areaPercent stray : ℚ) :
    (convertToBinary source areaPercent stray).cols = source.cols := by
  unfold convertToBinary
  rw [forRaster_cols]
  · rfl
  · intro i j m
    split <;> rfl

/-! ## `filterImageByIslands`: shape of the output -/

theorem matchesIsland_iff (label : Nat) (islands : List Island) (bound : Nat) :
    matchesIsland label islands bound = true ↔
      ∃ n isl, n < bound ∧ islands[n]? = some isl ∧ isl.index = label := by
  induction islands generalizing bound with
  | nil => simp [matchesIsland]
  | cons isl rest ih =>
    cases bound with
    | zero => simp [matchesIsland]
    | succ bound =>
      simp only [matchesIsland]
      by_cases h : label = isl.index
      · simp only [h, if_true, true_iff]
        exact ⟨0, isl, by omega, by simp, rfl⟩
      · simp only [h, if_false, ih]
        constructor
        · rintro ⟨n, x, hn, hx, hl⟩
          exact ⟨n + 1, x, by omega, by simpa using hx, hl⟩
        · rintro ⟨n, x, hn, hx, hl⟩
          cases n with
          | zero =>
            simp at hx
            subst hx
            exact absurd hl.symm h
          | succ n => exact ⟨n, x, by omega, by simpa using hx, hl⟩

theorem filterImageByIslands_at (islandMask : Mat Nat) (islands : List Island)
    (islandCount : Int) (a b : Nat) :
    (filterImageByIslands islandMask islands islandCount).at_ a b =
      if a < islandMask.rows ∧ b < islandMask.cols ∧ islandMask.at_ a b ≠ 0 ∧
          matchesIsland (islandMask.at_ a b) islands (filterBound islands islandCount) = true
      then 255 else 0 := by
  unfold filterImageByIslands
  rw [forRaster_cell islandMask.rows islandMask.cols _
    (fun i j old =>
      if islandMask.at_ i j ≠ 0 ∧
          matchesIsland (islandMask.at_ i j) islands (filterBound islands islandCount) = true
      then 255 else old)]
  · by_cases h1 : a < islandMask.rows <;> by_cases h2 : b < islandMask.cols <;>
      simp [h1, h2, Mat.zeros]
  · intro i j m a b
    by_cases h0 : islandMask.at_ i j = 0
    · simp only [h0, if_true, ne_eq, not_true_eq_false, false_and, if_false]
      by_cases hab : a = i ∧ b = j
      · simp [hab]
      · simp [hab]
    · by_cases hm :
        matchesIsland (islandMask.at_ i j) islands (filterBound islands islandCount) = true
      · simp [h0, hm, Mat.set]
      · simp only [h0, hm, if_false, ne_eq, not_false_eq_true, and_false]
        by_cases hab : a = i ∧ b = j
        · simp [hab]
        · simp [hab]

theorem filterImageByIslands_rows (islandMask : Mat Nat) (islands : List Island)
    (islandCount : Int) :
    (filterImageByIslands islandMask islands islandCount).rows = islandMask.rows := by
  unfold filterImageByIslands
  rw [forRaster_rows]
  · rfl
  · intro i j m
    split
    · rfl
    · split <;> rfl

theorem filterImageByIslands_cols (islandMask : Mat Nat) (islands : List Island)
    (islandCount : Int) :
    (filterImageByIslands islandMask islands islandCount).cols = islandMask.cols := by
  unfold filterImageByIslands
  rw [forRaster_cols]
  · rfl
  · intro i j m
    split
    · rfl
    · split <;> rfl

/-! ## The threshold scan -/

theorem thresholdLoop_step (histogram : Nat → ℚ) (t : Nat) (acc : ℚ)
    (h : acc < BINARIZATION_AREA_PERCENTAGE) :
    thresholdLoop histogram (t + 1) acc = thresholdLoop histogram t (acc + histogram (t + 1)) := by
  simp [thresholdLoop, h]

theorem thresholdLoop_stop (histogram : Nat → ℚ) (t : Nat) (acc : ℚ)
    (h : ¬ acc < BINARIZATION_AREA_PERCENTAGE) :
    thresholdLoop histogram (t + 1) acc = t + 1 := by
  simp [thresholdLoop, h]

/-- The scan passes over a run of empty cells without changing the accumulated mass. -/
theorem thresholdLoop_skip (histogram : Nat → ℚ) (t : Nat) (acc : ℚ)
    (h : acc < BINARIZATION_AREA_PERCENTAGE) :
    ∀ n, (∀ b, t < b → b ≤ t + n → histogram b = 0) →
      thresholdLoop histogram (t + n) acc = thresholdLoop histogram t acc := by
  intro n
  induction n with
  | zero => intro _; rfl
  | succ n ih =>
    intro hz
    have hstep := thresholdLoop_step histogram (t + n) acc h
    rw [hz (t + n + 1) (by omega) (by omega), add_zero] at hstep
    rw [← add_assoc, hstep]
    exact ih (fun b hb hb' => hz b hb (by omega))

theorem thresholdReads_step (histogram : Nat → ℚ) (t : Nat) (acc : ℚ)
    (h : acc < BINARIZATION_AREA_PERCENTAGE) :
    thresholdReads histogram (t + 1) acc =
      (t + 1) :: thresholdReads histogram t (acc + histogram (t + 1)) := by
  rw [thresholdReads, if_pos h]

/-! ## The disjoint-set table -/

theorem RootIn.in_entry_zero {d : Nat → Nat} {n x r : Nat} (h : RootIn d n x r) : d r = 0 := by
  induction h with
  | root h0 => exact h0
  | step _ _ ih => exact ih

theorem RootIn.in_unique {d : Nat → Nat} {n x r : Nat} (h : RootIn d n x r) :
    ∀ {n' r' : Nat}, RootIn d n' x r' → n = n' ∧ r = r' := by
  induction h with
  | root h0 =>
    intro n' r' h'
    cases h' with
    | root _ => exact ⟨rfl, rfl⟩
    | step hne _ => exact absurd h0 hne
  | step hne _ ih =>
    intro n' r' h'
    cases h' with
    | root h0 => exact absurd h0 hne
    | step _ hrest =>
      obtain ⟨h1, h2⟩ := ih hrest
      exact ⟨by omega, h2⟩

theorem RootIn.in_root_ne_zero {d : Nat → Nat} {n x r : Nat} (h : RootIn d n x r) (hx : x ≠ 0) :
    r ≠ 0 := by
  induction h with
  | root _ => exact hx
  | step hne _ ih => exact ih hne

theorem RootIn.in_root_lt {d : Nat → Nat} {N : Nat} (hd : ∀ y, d y < N) {n x r : Nat}
    (h : RootIn d n x r) (hx : x < N) : r < N := by
  induction h with
  | root _ => exact hx
  | step _ _ ih => exact ih (hd _)

/-- The labels met on the way to the root: the `m`-th one still has `n - m` steps to go. -/
theorem RootIn.iterate {d : Nat → Nat} {n x r : Nat} (h : RootIn d n x r) :
    ∀ m, m ≤ n → RootIn d (n - m) (d^[m] x) r := by
  induction h with
  | root h0 =>
    intro m hm
    have : m = 0 := by omega
    subst this
    exact RootIn.root h0
  | @step n x r hne hrest ih =>
    intro m hm
    cases m with
    | zero => exact RootIn.step hne hrest
    | succ m =>
      have := ih m (by omega)
      simpa [Function.iterate_succ_apply] using this

theorem RootIn.iterate_ne_zero {d : Nat → Nat} {n x r : Nat} (h : RootIn d n x r)
    (hx : x ≠ 0) : ∀ m, m ≤ n → d^[m] x ≠ 0 := by
  induction h with
  | root _ =>
    intro m hm
    have : m = 0 := by omega
    subst this
    simpa using hx
  | step hne _ ih =>
    intro m hm
    cases m with
    | zero => simpa using hx
    | succ m => simpa [Function.iterate_succ_apply] using ih hne m (by omega)

theorem iterate_lt {d : Nat → Nat} {N : Nat} (hd : ∀ y, d y < N) {x : Nat} (hx : x < N) :
    ∀ m, d^[m] x < N := by
  intro m
  cases m with
  | zero => simpa using hx
  | succ m =>
    rw [Function.iterate_succ_apply']
    exact hd _

/-- A chain to the root passes through distinct nonzero labels below the bound of the
table entries, so it is shorter than the number of such labels. -/
theorem RootIn.length_lt {d : Nat → Nat} {N : Nat} (hd : ∀ y, d y < N) {n x r : Nat}
    (h : RootIn d n x r) (hx : x < N) (hx0 : x ≠ 0) : n + 1 < N := by
  have hinj : Set.InjOn (fun m => d^[m] x) (Finset.range (n + 1) : Set Nat) := by
    intro a ha b hb hab
    simp only [Finset.coe_range, Set.mem_Iio] at ha hb
    have h1 := h.iterate a (by omega)
    have h2 := h.iterate b (by omega)
    simp only at hab
    rw [hab] at h1
    have := (h1.in_unique h2).1
    omega
  have hmaps : ∀ m ∈ Finset.range (n + 1), (fun m => d^[m] x) m ∈ Finset.Ico 1 N := by
    intro m hm
    simp only [Finset.mem_range] at hm
    simp only [Finset.mem_Ico]
    have := h.iterate_ne_zero hx0 m (by omega)
    have := iterate_lt hd hx m
    omega
  have := Finset.card_le_card_of_injOn _ hmaps hinj
  simp at this
  omega

theorem RootOf.unique {d : Nat → Nat} {x r r' : Nat} (h : RootOf d x r) (h' : RootOf d x r') :
    r = r' := by
  obtain ⟨n, hn⟩ := h
  obtain ⟨n', hn'⟩ := h'
  exact (hn.in_unique hn').2

theorem RootOf.entry_zero {d : Nat → Nat} {x r : Nat} (h : RootOf d x r) : d r = 0 := by
  obtain ⟨n, hn⟩ := h
  exact hn.in_entry_zero

theorem RootOf.root_ne_zero {d : Nat → Nat} {x r : Nat} (h : RootOf d x r) (hx : x ≠ 0) :
    r ≠ 0 := by
  obtain ⟨n, hn⟩ := h
  exact hn.in_root_ne_zero hx

theorem RootOf.root_lt {d : Nat → Nat} {N : Nat} (hd : ∀ y, d y < N) {x r : Nat}
    (h : RootOf d x r) (hx : x < N) : r < N := by
  obtain ⟨n, hn⟩ := h
  exact hn.in_root_lt hd hx

theorem RootOf.of_entry_zero {d : Nat → Nat} {r : Nat} (h : d r = 0) : RootOf d r r :=
  ⟨0, RootIn.root h⟩

/-- The root of a root is itself. -/
theorem RootOf.root_self {d : Nat → Nat} {x r : Nat} (h : RootOf d x r) : RootOf d r r :=
  RootOf.of_entry_zero h.entry_zero

/-- What `dsParent` returns is the root, and it lies inside the table. -/
theorem dsParentFuel_sound (d : Nat → Nat) :
    ∀ (fuel x r : Nat), dsParentFuel d fuel x = some r → RootOf d x r ∧ r < DSETS_SIZE := by
  intro fuel
  induction fuel with
  | zero => intro x r h; simp [dsParentFuel] at h
  | succ fuel ih =>
    intro x r h
    simp only [dsParentFuel, readSet] at h
    by_cases hx : x < DSETS_SIZE
    · simp only [hx, if_true, Option.some_bind] at h
      by_cases hp : d x = 0
      · simp only [hp, ne_eq, not_true_eq_false, if_false, Option.some.injEq] at h
        subst h
        exact ⟨RootOf.of_entry_zero hp, hx⟩
      · simp only [ne_eq, hp, not_false_eq_true, if_true] at h
        obtain ⟨⟨n, hn⟩, hr⟩ := ih _ _ h
        exact ⟨⟨n + 1, RootIn.step hp hn⟩, hr⟩
    · simp [hx] at h

/-- More fuel never changes what `dsParent` returns. -/
theorem dsParentFuel_mono (d : Nat → Nat) :
    ∀ (fuel fuel' x r : Nat), fuel ≤ fuel' → dsParentFuel d fuel x = some r →
      dsParentFuel d fuel' x = some r := by
  intro fuel
  induction fuel with
  | zero => intro fuel' x r _ h; simp [dsParentFuel] at h
  | succ fuel ih =>
    intro fuel' x r hle h
    cases fuel' with
    | zero => omega
    | succ fuel' =>
      simp only [dsParentFuel, readSet] at h ⊢
      by_cases hx : x < DSETS_SIZE
      · simp only [hx, if_true, Option.some_bind] at h ⊢
        by_cases hp : d x = 0
        · simpa [hp] using h
        · simp only [ne_eq, hp, not_false_eq_true, if_true] at h ⊢
          exact ih fuel' _ r (by omega) h
      · simp [hx] at h

/-- With the chain inside the table and more fuel than its length, `dsParent`
returns the root. -/
theorem dsParentFuel_of_rootIn {d : Nat → Nat} (hd : ∀ y, d y < DSETS_SIZE) {n x r : Nat}
    (h : RootIn d n x r) :
    ∀ fuel, n < fuel → x < DSETS_SIZE → dsParentFuel d fuel x = some r := by
  induction h with
  | root h0 =>
    intro fuel hf hx
    cases fuel with
    | zero => omega
    | succ fuel => simp [dsParentFuel, readSet, hx, h0]
  | step hne _ ih =>
    intro fuel hf hx
    cases fuel with
    | zero => omega
    | succ fuel =>
      simp only [dsParentFuel, readSet, hx, if_true, Option.some_bind, ne_eq, hne,
        not_false_eq_true]
      exact ih fuel (by omega) (hd _)

/-- Attaching the root `pL` under a different root `pR` redirects exactly the labels
whose root was `pL`. -/
theorem RootIn.in_merge {d : Nat → Nat} {pL pR : Nat} (hL : d pL = 0) (hR : d pR = 0)
    (hR0 : pR ≠ 0) (hne : pL ≠ pR) {n x r : Nat} (h : RootIn d n x r) :
    RootOf (Function.update d pL pR) x (if r = pL then pR else r) := by
  induction h with
  | @root r h0 =>
    by_cases hr : r = pL
    · subst hr
      simp only [if_true]
      refine ⟨1, RootIn.step (by simpa using hR0) ?_⟩
      simp only [Function.update_same]
      exact RootIn.root (by rw [Function.update_noteq (Ne.symm hne)]; exact hR)
    · simp only [hr, if_false]
      exact ⟨0, RootIn.root (by rw [Function.update_noteq hr]; exact h0)⟩
  | @step n x r hx _ ih =>
    obtain ⟨m, hm⟩ := ih
    have hxL : x ≠ pL := by
      intro hxl
      subst hxl
      exact hx hL
    refine ⟨m + 1, RootIn.step ?_ ?_⟩
    · rw [Function.update_noteq hxL]; exact hx
    · rw [Function.update_noteq hxL]; exact hm

theorem RootOf.merge {d : Nat → Nat} {pL pR : Nat} (hL : d pL = 0) (hR : d pR = 0)
    (hR0 : pR ≠ 0) (hne : pL ≠ pR) {x r : Nat} (h : RootOf d x r) :
    RootOf (Function.update d pL pR) x (if r = pL then pR else r) := by
  obtain ⟨n, hn⟩ := h
  exact hn.in_merge hL hR hR0 hne

/-! ## The labelling state: sets of pixels -/

theorem Same.same_symm {st : LabelState} {p q : Nat × Nat} (h : Same st p q) : Same st q p := by
  obtain ⟨hp, hq, r, h1, h2⟩ := h
  exact ⟨hq, hp, r, h2, h1⟩

theorem Same.same_trans {st : LabelState} {p q s : Nat × Nat} (h : Same st p q) (h' : Same st q s) :
    Same st p s := by
  obtain ⟨hp, _, r, h1, h2⟩ := h
  obtain ⟨_, hs, r', h3, h4⟩ := h'
  have := h2.unique h3
  subst this
  exact ⟨hp, hs, r, h1, h4⟩

theorem Same.of_labelled {source : Mat Nat} {st : LabelState} (h : Inv source st)
    {p : Nat × Nat} (hp : st.result.at_ p.1 p.2 ≠ 0) : Same st p p := by
  obtain ⟨r, hr⟩ := h.forest (st.result.at_ p.1 p.2)
  exact ⟨hp, hp, r, hr, hr⟩

theorem Connected.refl (m : Mat Nat) (p : Nat × Nat) : Connected m p p :=
  Relation.EqvGen.refl p

theorem Connected.symm {m : Mat Nat} {p q : Nat × Nat} (h : Connected m p q) :
    Connected m q p :=
  Relation.EqvGen.symm p q h

theorem Connected.trans {m : Mat Nat} {p q s : Nat × Nat} (h : Connected m p q)
    (h' : Connected m q s) : Connected m p s :=
  Relation.EqvGen.trans p q s h h'

theorem Connected.of_link {m : Mat Nat} {p q : Nat × Nat} (h : CausalLink m p q) :
    Connected m p q :=
  Relation.EqvGen.rel p q h

/-- While `lastSet` is within the table, `dsParent` succeeds on every allocated label
and returns its root. -/
theorem Inv.dsParent_ok {source : Mat Nat} {st : LabelState} (h : Inv source st)
    (hcap : st.lastSet ≤ DSETS_SIZE) {x : Nat} (hx : x < st.lastSet) :
    ∃ r, dsParent st.dSets x = some r ∧ RootOf st.dSets x r ∧ r < st.lastSet ∧
      (x ≠ 0 → r ≠ 0) := by
  obtain ⟨r, n, hn⟩ := h.forest x
  have hd : ∀ y, st.dSets y < DSETS_SIZE := fun y => lt_of_lt_of_le (h.entry_lt y) hcap
  refine ⟨r, ?_, ⟨n, hn⟩, hn.in_root_lt h.entry_lt hx, hn.in_root_ne_zero⟩
  unfold dsParent
  apply dsParentFuel_of_rootIn hd hn
  · by_cases hx0 : x = 0
    · subst hx0
      have := (hn.in_unique (RootIn.root h.entry_zero)).1
      simp [DSETS_SIZE, this]
    · have := hn.length_lt h.entry_lt hx hx0
      omega
  · omega

theorem Mat.set_at {α : Type} (m : Mat α) (i j : Nat) (v : α) (a b : Nat) :
    (m.set i j v).at_ a b = if a = i ∧ b = j then v else m.at_ a b := rfl

theorem Mat.set_at_self {α : Type} (m : Mat α) (i j : Nat) (v : α) :
    (m.set i j v).at_ i j = v := by
  simp [Mat.set]

theorem Mat.set_at_ne {α : Type} (m : Mat α) (c : Nat × Nat) (v : α) (p : Nat × Nat)
    (h : p ≠ c) : (m.set c.1 c.2 v).at_ p.1 p.2 = m.at_ p.1 p.2 := by
  have : ¬ (p.1 = c.1 ∧ p.2 = c.2) := fun ⟨h1, h2⟩ => h (Prod.ext h1 h2)
  simp [Mat.set, this]

/-- Giving the unlabelled pixel `c` the root label `r`, possibly allocating it: the
state facts survive when every pixel already in the set of `r` is connected to `c`. -/
theorem Inv.set_label {source : Mat Nat} {st : LabelState} (h : Inv source st)
    (c : Nat × Nat) (r N : Nat) (hc : source.fg c) (hc0 : st.result.at_ c.1 c.2 = 0)
    (hN : st.lastSet ≤ N) (hrN : r < N) (hr0 : r ≠ 0) (hroot : st.dSets r = 0)
    (hconn : ∀ q, st.result.at_ q.1 q.2 ≠ 0 → RootOf st.dSets (st.result.at_ q.1 q.2) r →
      Connected source c q) :
    Inv source { st with result := st.result.set c.1 c.2 r, lastSet := N } := by
  have hset : ∀ q, q ≠ c → (st.result.set c.1 c.2 r).at_ q.1 q.2 = st.result.at_ q.1 q.2 :=
    fun q hq => Mat.set_at_ne _ c r q hq
  have hself : (st.result.set c.1 c.2 r).at_ c.1 c.2 = r := Mat.set_at_self _ _ _ _
  have key : ∀ q, q ≠ c →
      Same { st with result := st.result.set c.1 c.2 r, lastSet := N } c q →
      Connected source c q := by
    intro q hq hs
    obtain ⟨_, hq0, r', h1, h2⟩ := hs
    simp only [hself, hset q hq] at h1 h2 hq0
    have := h1.unique (RootOf.of_entry_zero hroot)
    subst this
    exact hconn q hq0 h2
  refine ⟨h.rows_eq, h.cols_eq, le_trans h.lastSet_pos hN,
    fun x => lt_of_lt_of_le (h.entry_lt x) hN, h.entry_zero,
    fun x hx => h.entry_fresh x (le_trans hN hx), h.forest, ?_, ?_, ?_⟩
  · intro a b
    by_cases hab : (a, b) = c
    · subst hab
      simpa [hself] using hrN
    · have := hset (a, b) hab
      simp only at this
      simp only [this]
      exact lt_of_lt_of_le (h.label_lt a b) hN
  · intro a b hne
    by_cases hab : (a, b) = c
    · subst hab
      exact hc
    · have := hset (a, b) hab
      simp only at this
      simp only [this] at hne
      exact h.label_fg a b hne
  · intro p q hs
    by_cases hp : p = c
    · by_cases hq : q = c
      · rw [hp, hq]
        exact Connected.refl _ _
      · rw [hp] at hs ⊢
        exact key q hq hs
    · by_cases hq : q = c
      · rw [hq] at hs ⊢
        exact (key p hp hs.same_symm).symm
      · obtain ⟨hp0, hq0, r', h1, h2⟩ := hs
        simp only [hset p hp, hset q hq] at h1 h2 hp0 hq0
        exact h.sound p q ⟨hp0, hq0, r', h1, h2⟩

/-- Labelling the unlabelled pixel `c` leaves every existing set as it was. -/
theorem Same.same_set_label {st : LabelState} (c : Nat × Nat) (r N : Nat)
    (hc0 : st.result.at_ c.1 c.2 = 0) {p q : Nat × Nat} (h : Same st p q) :
    Same { st with result := st.result.set c.1 c.2 r, lastSet := N } p q := by
  obtain ⟨hp0, hq0, r', h1, h2⟩ := h
  have hp : p ≠ c := by
    intro hpc
    rw [hpc] at hp0
    exact hp0 hc0
  have hq : q ≠ c := by
    intro hqc
    rw [hqc] at hq0
    exact hq0 hc0
  refine ⟨?_, ?_, r', ?_, ?_⟩ <;>
    simp only [Mat.set_at_ne _ c r p hp, Mat.set_at_ne _ c r q hq] <;> assumption

/-- Merging the set of pixel `c` into the set of pixel `n` keeps every existing set
together. -/
theorem Same.same_merge {source : Mat Nat} {st : LabelState} (h : Inv source st) {pV pN : Nat}
    (hV : st.dSets pV = 0) (hN : st.dSets pN = 0) (hN0 : pN ≠ 0) (hne : pV ≠ pN)
    {p q : Nat × Nat} (hs : Same st p q) :
    Same { st with dSets := Function.update st.dSets pV pN } p q := by
  obtain ⟨hp0, hq0, r, h1, h2⟩ := hs
  exact ⟨hp0, hq0, _, h1.merge hV hN hN0 hne, h2.merge hV hN hN0 hne⟩

/-- After the merge the two pixels are in the same set. -/
theorem Same.merged {st : LabelState} {c n : Nat × Nat} {pV pN : Nat}
    (hc0 : st.result.at_ c.1 c.2 ≠ 0) (hn0 : st.result.at_ n.1 n.2 ≠ 0)
    (hV : RootOf st.dSets (st.result.at_ c.1 c.2) pV)
    (hN : RootOf st.dSets (st.result.at_ n.1 n.2) pN) (hN0 : pN ≠ 0) (hne : pV ≠ pN) :
    Same { st with dSets := Function.update st.dSets pV pN } c n := by
  refine ⟨hc0, hn0, pN, ?_, ?_⟩
  · simpa using hV.merge hV.entry_zero hN.entry_zero hN0 hne
  · have := hN.merge hV.entry_zero hN.entry_zero hN0 hne
    simpa [Ne.symm hne] using this

/-- The state facts survive the merge of the sets of two connected pixels. -/
theorem Inv.inv_merge {source : Mat Nat} {st : LabelState} (h : Inv source st) {c n : Nat × Nat}
    {pV pN : Nat} (hc0 : st.result.at_ c.1 c.2 ≠ 0) (hn0 : st.result.at_ n.1 n.2 ≠ 0)
    (hV : RootOf st.dSets (st.result.at_ c.1 c.2) pV)
    (hN : RootOf st.dSets (st.result.at_ n.1 n.2) pN) (hne : pV ≠ pN)
    (hconn : Connected source c n) :
    Inv source { st with dSets := Function.update st.dSets pV pN } := by
  have hV0 : pV ≠ 0 := hV.root_ne_zero hc0
  have hN0 : pN ≠ 0 := hN.root_ne_zero hn0
  have hVlt : pV < st.lastSet := hV.root_lt h.entry_lt (h.label_lt _ _)
  have hNlt : pN < st.lastSet := hN.root_lt h.entry_lt (h.label_lt _ _)
  have hVz := hV.entry_zero
  have hNz := hN.entry_zero
  refine ⟨h.rows_eq, h.cols_eq, h.lastSet_pos, ?_, ?_, ?_, ?_, h.label_lt, h.label_fg, ?_⟩
  · intro x
    by_cases hx : x = pV
    · subst hx
      simpa using hNlt
    · simp only [Function.update_noteq hx]
      exact h.entry_lt x
  · simp only [Function.update_noteq (Ne.symm hV0)]
    exact h.entry_zero
  · intro x hx
    simp only at hx
    have : x ≠ pV := by omega
    simp only [Function.update_noteq this]
    exact h.entry_fresh x hx
  · intro x
    obtain ⟨r, hr⟩ := h.forest x
    exact ⟨_, hr.merge hVz hNz hN0 hne⟩
  · intro p q hs
    obtain ⟨hp0, hq0, r', h1, h2⟩ := hs
    simp only at hp0 hq0 h1 h2
    obtain ⟨rp, hrp⟩ := h.forest (st.result.at_ p.1 p.2)
    obtain ⟨rq, hrq⟩ := h.forest (st.result.at_ q.1 q.2)
    have e1 := (hrp.merge hVz hNz hN0 hne).unique h1
    have e2 := (hrq.merge hVz hNz hN0 hne).unique h2
    by_cases hpq : rp = rq
    · subst hpq
      exact h.sound p q ⟨hp0, hq0, rp, hrp, hrq⟩
    · by_cases hpV : rp = pV
      · have hqN : rq = pN := by
          by_cases hqV : rq = pV
          · exact absurd (hpV.trans hqV.symm) hpq
          · simp only [hpV, if_true, hqV, if_false] at e1 e2
            rw [e2, ← e1]
        subst hpV hqN
        have c1 : Connected source p c := h.sound p c ⟨hp0, hc0, rp, hrp, hV⟩
        have c2 : Connected source n q := h.sound n q ⟨hn0, hq0, rq, hN, hrq⟩
        exact (c1.trans hconn).trans c2
      · have hqV : rq = pV := by
          by_contra hqV
          simp only [hpV, if_false, hqV] at e1 e2
          exact hpq (e1.trans e2.symm)
        have hpN : rp = pN := by
          simp only [hpV, if_false, hqV, if_true] at e1 e2
          rw [e1, ← e2]
        subst hqV hpN
        have c1 : Connected source p n := h.sound p n ⟨hp0, hn0, rp, hrp, hN⟩
        have c2 : Connected source c q := h.sound c q ⟨hc0, hq0, rq, hV, hrq⟩
        exact (c1.trans hconn.symm).trans c2

/-! ## One neighbour visit -/

theorem Before.irrefl (p : Nat × Nat) : ¬ Before p p := by
  unfold Before
  omega

/-- One iteration of the neighbour loop succeeds and keeps the facts of the pixel visit. -/
theorem visitNeighbour_inv (source : Mat Nat) (c : Nat × Nat) (k : Nat) (hk : k < 4)
    (st : LabelState) (hc : source.fg c) (hcap : st.lastSet ≤ DSETS_SIZE)
    (h : InvIn source c k st) :
    ∃ st', visitNeighbour source c.1 c.2 k st = some st' ∧ InvIn source c (k + 1) st' := by
  have hnbr : ∀ k', nbr source c k' = (nbrRow source.rows c.1 k', nbrCol source.cols c.2 k') :=
    fun _ => rfl
  by_cases hln : st.result.at_ (nbr source c k).1 (nbr source c k).2 = 0
  · -- the neighbour carries no label
    have hno : ¬ (source.fg (nbr source c k) ∧ Before (nbr source c k) c) := by
      by_cases hnc : nbr source c k = c
      · rw [hnc]
        exact fun hh => Before.irrefl c hh.2
      · rw [← h.labelled _ hnc]
        simpa using hln
    refine ⟨st, ?_, h.toInv, h.labelled, ?_, h.complete, ?_, h.count⟩
    · simp only [hnbr] at hln
      simp [visitNeighbour, hln]
    · rw [h.current]
      constructor
      · intro hall k' hk'
        by_cases hkk : k' = k
        · subst hkk
          exact hno
        · exact hall k' (by omega)
      · intro hall k' hk'
        exact hall k' (by omega)
    · intro k' hk' hfg hbef
      by_cases hkk : k' = k
      · subst hkk
        exact absurd ⟨hfg, hbef⟩ hno
      · exact h.completeCurrent k' (by omega) hfg hbef
  · have hfgn : source.fg (nbr source c k) := h.label_fg _ _ hln
    have hlink : Connected source c (nbr source c k) :=
      Connected.of_link ⟨hc, hfgn, k, hk, rfl⟩
    obtain ⟨pN, hpN, hrootN, hNlt, hNimp⟩ := h.dsParent_ok hcap (h.label_lt _ _)
    have hN0 : pN ≠ 0 := hNimp hln
    clear hNimp
    by_cases hcur : st.result.at_ c.1 c.2 = 0
    · -- the pixel adopts the root of the neighbour
      have hnc : nbr source c k ≠ c := by
        intro hnc
        rw [hnc] at hln
        exact hln hcur
      have hbef : Before (nbr source c k) c := ((h.labelled _ hnc).1 hln).2
      have hinv : Inv source { st with result := st.result.set c.1 c.2 pN } :=
        h.toInv.set_label c pN st.lastSet hc hcur (le_refl _) hNlt hN0 hrootN.entry_zero
          (fun q hq0 hq =>
            hlink.trans (h.sound _ q ⟨hln, hq0, pN, hrootN, hq⟩))
      refine ⟨{ st with result := st.result.set c.1 c.2 pN }, ?_, hinv, ?_, ?_, ?_, ?_, h.count⟩
      · simp only [hnbr] at hln hpN
        simp [visitNeighbour, hln, hcur, hpN]
      · intro p hp
        simp only [Mat.set_at_ne _ c pN p hp]
        exact h.labelled p hp
      · simp only [Mat.set_at_self]
        constructor
        · intro h0
          exact absurd h0 hN0
        · intro hall
          exact absurd ⟨hfgn, hbef⟩ (hall k (by omega))
      · intro p k' hp hb hk' hf hb'
        exact (h.complete p k' hp hb hk' hf hb').same_set_label c pN st.lastSet hcur
      · intro k' hk' hfg' hbef'
        by_cases hkk : k' = k
        · subst hkk
          refine ⟨?_, ?_, pN, ?_, ?_⟩
          · simpa [Mat.set_at_self] using hN0
          · simpa [Mat.set_at_ne _ c pN _ hnc] using hln
          · simpa [Mat.set_at_self] using RootOf.of_entry_zero hrootN.entry_zero
          · simpa [Mat.set_at_ne _ c pN _ hnc] using hrootN
        · exact absurd ⟨hfg', hbef'⟩ ((h.current.1 hcur) k' (by omega))
    · obtain ⟨pV, hpV, hrootV, hVlt, -⟩ := h.dsParent_ok hcap (h.label_lt c.1 c.2)
      have hcurrent : ∀ st' : LabelState, st'.result = st.result →
          (st'.result.at_ c.1 c.2 = 0 ↔
            ∀ k', k' < k + 1 → ¬ (source.fg (nbr source c k') ∧ Before (nbr source c k') c)) := by
        intro st' hst'
        rw [hst']
        constructor
        · intro h0
          exact absurd h0 hcur
        · intro hall
          exact h.current.2 (fun k' hk' => hall k' (by omega))
      by_cases hroots : pV = pN
      · -- both already in the same set
        refine ⟨st, ?_, h.toInv, h.labelled, hcurrent st rfl, h.complete, ?_, h.count⟩
        · simp only [hnbr] at hln hpN
          simp [visitNeighbour, hln, hcur, hpN, hpV, hroots]
        · intro k' hk' hfg' hbef'
          by_cases hkk : k' = k
          · subst hkk
            exact ⟨hcur, hln, pN, hroots ▸ hrootV, hrootN⟩
          · exact h.completeCurrent k' (by omega) hfg' hbef'
      · -- the two sets are merged
        have hVcap : pV < DSETS_SIZE := by omega
        have hinv : Inv source { st with dSets := Function.update st.dSets pV pN } :=
          h.toInv.inv_merge hcur hln hrootV hrootN hroots hlink
        refine ⟨{ st with dSets := Function.update st.dSets pV pN }, ?_, hinv, h.labelled,
          hcurrent _ rfl, ?_, ?_, h.count⟩
        · simp only [hnbr] at hln hpN
          simp [visitNeighbour, hln, hcur, hpN, hpV, hroots, dsMerge, writeSet, hVcap]
        · intro p k' hp hb hk' hf hb'
          exact (h.complete p k' hp hb hk' hf hb').same_merge h.toInv hrootV.entry_zero
            hrootN.entry_zero hN0 hroots
        · intro k' hk' hfg' hbef'
          by_cases hkk : k' = k
          · subst hkk
            exact Same.merged hcur hln hrootV hrootN hN0 hroots
          · exact (h.completeCurrent k' (by omega) hfg' hbef').same_merge h.toInv
              hrootV.entry_zero hrootN.entry_zero hN0 hroots

/-! ## One pixel of the raster pass -/

theorem Before.succ_iff (p c : Nat × Nat) : Before p (c.1, c.2 + 1) ↔ Before p c ∨ p = c := by
  unfold Before
  rw [Prod.ext_iff]
  simp only
  omega

theorem Before.next_row_iff (p : Nat × Nat) (i cols : Nat) (hp : p.2 < cols) :
    Before p (i, cols) ↔ Before p (i + 1, 0) := by
  unfold Before
  simp only
  omega

theorem isSeed.fg {m : Mat Nat} {p : Nat × Nat} (h : isSeed m p) : m.fg p := h.1

theorem seedsBefore_le (m : Mat Nat) (q : Nat × Nat) : seedsBefore m q ≤ seedCount m := by
  unfold seedsBefore seedCount
  apply Finset.card_le_card
  intro p hp
  simp only [Finset.mem_filter] at hp ⊢
  exact ⟨hp.1, hp.2.1⟩

theorem seedsBefore_succ (m : Mat Nat) (c : Nat × Nat) (h1 : c.1 < m.rows) (h2 : c.2 < m.cols) :
    seedsBefore m (c.1, c.2 + 1) = seedsBefore m c + if isSeed m c then 1 else 0 := by
  unfold seedsBefore
  have hsplit : (Finset.range m.rows ×ˢ Finset.range m.cols).filter
      (fun p => isSeed m p ∧ Before p (c.1, c.2 + 1)) =
      (Finset.range m.rows ×ˢ Finset.range m.cols).filter (fun p => isSeed m p ∧ Before p c) ∪
        (if isSeed m c then {c} else ∅) := by
    ext p
    simp only [Finset.mem_filter, Finset.mem_union, Finset.mem_product, Finset.mem_range,
      Before.succ_iff]
    by_cases hs : isSeed m c
    · simp only [hs, if_true, Finset.mem_singleton]
      constructor
      · rintro ⟨hin, hseed, hb | hb⟩
        · exact Or.inl ⟨hin, hseed, hb⟩
        · exact Or.inr hb
      · rintro (⟨hin, hseed, hb⟩ | hb)
        · exact ⟨hin, hseed, Or.inl hb⟩
        · subst hb
          exact ⟨⟨h1, h2⟩, hs, Or.inr rfl⟩
    · simp only [hs, if_false, Finset.not_mem_empty, or_false]
      constructor
      · rintro ⟨hin, hseed, hb | hb⟩
        · exact ⟨hin, hseed, hb⟩
        · subst hb
          exact absurd hseed hs
      · rintro ⟨hin, hseed, hb⟩
        exact ⟨hin, hseed, Or.inl hb⟩
  rw [hsplit, Finset.card_union_of_disjoint]
  · by_cases hs : isSeed m c <;> simp [hs]
  · rw [Finset.disjoint_left]
    intro p hp hp'
    simp only [Finset.mem_filter] at hp
    by_cases hs : isSeed m c
    · simp only [hs, if_true, Finset.mem_singleton] at hp'
      subst hp'
      exact Before.irrefl _ hp.2.2
    · simp [hs] at hp'

theorem seedsBefore_next_row (m : Mat Nat) (i : Nat) :
    seedsBefore m (i, m.cols) = seedsBefore m (i + 1, 0) := by
  unfold seedsBefore
  congr 1
  apply Finset.filter_congr
  intro p hp
  simp only [Finset.mem_product, Finset.mem_range] at hp
  rw [Before.next_row_iff p i m.cols hp.2]

theorem InvAt.cap {source : Mat Nat} {c : Nat × Nat} {st : LabelState}
    (h : InvAt source c st) (hseeds : seedCount source < DSETS_SIZE) :
    st.lastSet ≤ DSETS_SIZE := by
  have := h.count
  have := seedsBefore_le source c
  omega

/-- Entering the visit of a foreground pixel. -/
theorem InvAt.enter {source : Mat Nat} {c : Nat × Nat} {st : LabelState}
    (h : InvAt source c st) : InvIn source c 0 st := by
  refine ⟨h.toInv, fun p _ => h.labelled p, ?_, h.complete, ?_, h.count⟩
  · constructor
    · intro _ k' hk'
      omega
    · intro _
      by_contra hne
      exact Before.irrefl c ((h.labelled c).1 hne).2
  · intro k' hk'
    omega

/-- Leaving the visit of a foreground pixel through `beginIsland`. -/
theorem InvIn.leave {source : Mat Nat} {c : Nat × Nat} {st : LabelState}
    (h : InvIn source c 4 st) (hc : source.fg c) :
    InvAt source (c.1, c.2 + 1) (beginIsland c.1 c.2 st) := by
  unfold beginIsland
  by_cases hcur : st.result.at_ c.1 c.2 = 0
  · have hseed : isSeed source c := ⟨hc, h.current.1 hcur⟩
    have hinv : Inv source
        { st with result := st.result.set c.1 c.2 st.lastSet, lastSet := st.lastSet + 1 } :=
      h.toInv.set_label c st.lastSet (st.lastSet + 1) hc hcur (by omega) (by omega)
        (by have := h.lastSet_pos; omega) (h.entry_fresh _ (le_refl _))
        (fun q _ hq => by
          have := hq.root_lt h.entry_lt (h.label_lt _ _)
          omega)
    simp only [hcur, if_true]
    refine ⟨hinv, ?_, ?_, ?_⟩
    · intro p
      rw [Before.succ_iff]
      by_cases hp : p = c
      · subst hp
        have := h.lastSet_pos
        simp only [Mat.set_at_self]
        constructor
        · intro _
          exact ⟨hc, Or.inr trivial⟩
        · intro _
          omega
      · simp only [Mat.set_at_ne _ c _ p hp, h.labelled p hp, hp, or_false]
    · intro p k hp hb hk hf hb'
      rw [Before.succ_iff] at hb
      by_cases hpc : p = c
      · subst hpc
        exact absurd ⟨hf, hb'⟩ (hseed.2 k hk)
      · have hb := hb.resolve_right hpc
        exact (h.complete p k hp hb hk hf hb').same_set_label c _ _ hcur
    · simp only
      rw [seedsBefore_succ source c hc.1 hc.2.1, h.count]
      simp [hseed]
      omega
  · have hnseed : ¬ isSeed source c := fun hs => hcur (h.current.2 hs.2)
    simp only [hcur, if_false]
    refine ⟨h.toInv, ?_, ?_, ?_⟩
    · intro p
      rw [Before.succ_iff]
      by_cases hp : p = c
      · subst hp
        constructor
        · intro _
          exact ⟨hc, Or.inr rfl⟩
        · intro _
          exact hcur
      · simp only [h.labelled p hp, hp, or_false]
    · intro p k hp hb hk hf hb'
      rw [Before.succ_iff] at hb
      by_cases hpc : p = c
      · subst hpc
        exact h.completeCurrent k hk hf hb'
      · exact h.complete p k hp (hb.resolve_right hpc) hk hf hb'
    · rw [seedsBefore_succ source c hc.1 hc.2.1, h.count]
      simp [hnseed]

/-- Passing over a background pixel. -/
theorem InvAt.skip {source : Mat Nat} {c : Nat × Nat} {st : LabelState}
    (h : InvAt source c st) (h1 : c.1 < source.rows) (h2 : c.2 < source.cols)
    (hc : source.at_ c.1 c.2 = 0) : InvAt source (c.1, c.2 + 1) st := by
  have hnfg : ¬ source.fg c := fun hf => hf.2.2 hc
  have hnseed : ¬ isSeed source c := fun hs => hnfg hs.1
  refine ⟨h.toInv, ?_, ?_, ?_⟩
  · intro p
    rw [Before.succ_iff, h.labelled p]
    constructor
    · rintro ⟨hf, hb⟩
      exact ⟨hf, Or.inl hb⟩
    · rintro ⟨hf, hb | hb⟩
      · exact ⟨hf, hb⟩
      · subst hb
        exact absurd hf hnfg
  · intro p k hp hb hk hf hb'
    rw [Before.succ_iff] at hb
    rcases hb with hb | hb
    · exact h.complete p k hp hb hk hf hb'
    · subst hb
      exact absurd hp hnfg
  · rw [seedsBefore_succ source c h1 h2, h.count]
    simp [hnseed]

/-- The body of the raster loops succeeds at every pixel of the grid and advances the
facts to the next pixel of the row. -/
theorem labelPixel_inv (source : Mat Nat) (hseeds : seedCount source < DSETS_SIZE)
    (c : Nat × Nat) (h1 : c.1 < source.rows) (h2 : c.2 < source.cols) (st : LabelState)
    (h : InvAt source c st) :
    ∃ st', labelPixel source c.1 c.2 st = some st' ∧ InvAt source (c.1, c.2 + 1) st' := by
  unfold labelPixel
  by_cases hc : source.at_ c.1 c.2 = 0
  · exact ⟨st, by simp [hc], h.skip h1 h2 hc⟩
  · have hfg : source.fg c := ⟨h1, h2, hc⟩
    have hcap := h.cap hseeds
    obtain ⟨st', hst', hin, hlast⟩ :=
      forNM_inv (fun k t => InvIn source c k t ∧ t.lastSet = st.lastSet)
        (visitNeighbour source c.1 c.2) 4 st ⟨h.enter, rfl⟩
        (fun k hk t ht => by
          obtain ⟨t', ht', hin'⟩ := visitNeighbour_inv source c k hk t hfg (ht.2 ▸ hcap) ht.1
          refine ⟨t', ht', hin', ?_⟩
          have e1 := hin'.count
          have e2 := ht.1.count
          omega)
    exact ⟨beginIsland c.1 c.2 st', by simp [hc, hst'], hin.leave hfg⟩

/-! ## The labelling pass and the resolution pass -/

/-- Where a clamped causal neighbour can lie: it is the pixel itself, or a pixel visited
before it, or (first row only) the pixel to its right, of which it is the left
neighbour. -/
theorem nbr_cases (m : Mat Nat) (p : Nat × Nat) (k : Nat) (hk : k < 4) (h1 : p.1 < m.rows)
    (h2 : p.2 < m.cols) :
    nbr m p k = p ∨ Before (nbr m p k) p ∨
      (Before p (nbr m p k) ∧ p = nbr m (nbr m p k) 3) := by
  obtain ⟨i, j⟩ := p
  simp only at h1 h2
  unfold Before
  simp only [nbr, nbrRow, nbrCol, clamp, Prod.mk.injEq]
  interval_cases k <;> simp only [dx, dy] <;> omega

theorem nbr_lt_rows (m : Mat Nat) (p : Nat × Nat) (k : Nat) (h1 : p.1 < m.rows) :
    (nbr m p k).1 < m.rows := by
  simp only [nbr, nbrRow, clamp]
  omega

theorem nbr_lt_cols (m : Mat Nat) (p : Nat × Nat) (k : Nat) (h2 : p.2 < m.cols) :
    (nbr m p k).2 < m.cols := by
  simp only [nbr, nbrCol, clamp]
  omega

theorem InvAt.init (source : Mat Nat) :
    InvAt source (0, 0)
      { dSets := fun _ => 0, lastSet := 1, result := Mat.zeros source.rows source.cols } := by
  have hb : ∀ p : Nat × Nat, ¬ Before p (0, 0) := by
    intro p
    unfold Before
    simp
  refine ⟨⟨rfl, rfl, le_refl _, fun _ => by simp, rfl, fun _ _ => rfl,
    fun x => ⟨x, RootOf.of_entry_zero rfl⟩, fun _ _ => by simp [Mat.zeros],
    fun _ _ hne => absurd rfl hne, fun p q hs => absurd rfl hs.1⟩, ?_, ?_, ?_⟩
  · intro p
    constructor
    · intro hne
      exact absurd rfl hne
    · intro hfb
      exact absurd hfb.2 (hb p)
  · intro p k _ hbef
    exact absurd hbef (hb p)
  · unfold seedsBefore
    have : (Finset.range source.rows ×ˢ Finset.range source.cols).filter
        (fun p => isSeed source p ∧ Before p (0, 0)) = ∅ := by
      apply Finset.filter_false_of_mem
      intro p _ hp
      exact hb p hp.2
    rw [this]
    rfl

theorem InvAt.next_row {source : Mat Nat} {i : Nat} {st : LabelState}
    (h : InvAt source (i, source.cols) st) : InvAt source (i + 1, 0) st := by
  refine ⟨h.toInv, ?_, ?_, ?_⟩
  · intro p
    rw [h.labelled p]
    constructor
    · rintro ⟨hf, hb⟩
      exact ⟨hf, (Before.next_row_iff p i source.cols hf.2.1).1 hb⟩
    · rintro ⟨hf, hb⟩
      exact ⟨hf, (Before.next_row_iff p i source.cols hf.2.1).2 hb⟩
  · intro p k hp hb hk hf hb'
    exact h.complete p k hp ((Before.next_row_iff p i source.cols hp.2.1).2 hb) hk hf hb'
  · rw [← seedsBefore_next_row]
    exact h.count

/-- Within the label capacity the labelling pass succeeds, and its final state satisfies
the facts for "every pixel visited". -/
theorem labelPass_inv (source : Mat Nat) (hseeds : seedCount source < DSETS_SIZE) :
    ∃ st, labelPass source = some st ∧ InvAt source (source.rows, 0) st := by
  unfold labelPass forRasterM
  apply forNM_inv (fun i t => InvAt source (i, 0) t)
  · exact InvAt.init source
  · intro i hi t ht
    obtain ⟨t', ht', hinv⟩ :=
      forNM_inv (fun j t => InvAt source (i, j) t) (fun j => labelPixel source i j)
        source.cols t ht
        (fun j hj u hu => labelPixel_inv source hseeds (i, j) hi hj u hu)
    exact ⟨t', ht', hinv.next_row⟩

/-- The resolution pass succeeds when `dsParent` succeeds on every cell, and replaces
each cell of the grid by what `dsParent` returns for it. -/
theorem resolvePass_spec (rows cols : Nat) (dSets : Nat → Nat) (result : Mat Nat)
    (g : Nat → Nat → Nat)
    (hg : ∀ a b, a < rows → b < cols → dsParent dSets (result.at_ a b) = some (g a b)) :
    ∃ L, resolvePass rows cols dSets result = some L ∧ L.rows = result.rows ∧
      L.cols = result.cols ∧
      ∀ a b, L.at_ a b = if a < rows ∧ b < cols then g a b else result.at_ a b := by
  unfold resolvePass forRasterM
  obtain ⟨L, hL, hr, hc, hat⟩ :=
    forNM_inv
      (fun i (t : Mat Nat) => t.rows = result.rows ∧ t.cols = result.cols ∧
        ∀ a b, t.at_ a b = if a < i ∧ b < cols then g a b else result.at_ a b)
      (fun i => forNM (fun j (t : Mat Nat) => (dsParent dSets (t.at_ i j)).map (t.set i j))
        cols)
      rows result ⟨rfl, rfl, fun a b => by simp⟩
      (fun i hi t ht => by
        obtain ⟨t', ht', hr', hc', hat'⟩ :=
          forNM_inv
            (fun j (u : Mat Nat) => u.rows = result.rows ∧ u.cols = result.cols ∧
              ∀ a b, u.at_ a b =
                if (a < i ∧ b < cols) ∨ (a = i ∧ b < j) then g a b else result.at_ a b)
            (fun j (t : Mat Nat) => (dsParent dSets (t.at_ i j)).map (t.set i j))
            cols t ⟨ht.1, ht.2.1, fun a b => by simpa using ht.2.2 a b⟩
            (fun j hj u hu => by
              have hcell : u.at_ i j = result.at_ i j := by
                rw [hu.2.2]
                have : ¬ ((i < i ∧ j < cols) ∨ (i = i ∧ j < j)) := by omega
                rw [if_neg this]
              refine ⟨u.set i j (g i j), by simp [hcell, hg i j hi hj], hu.1, hu.2.1, ?_⟩
              intro a b
              rw [Mat.set_at, hu.2.2]
              by_cases hab : a = i ∧ b = j
              · obtain ⟨ha, hb⟩ := hab
                subst ha hb
                have : (a < a ∧ b < cols) ∨ (a = a ∧ b < b + 1) := by omega
                simp [this]
              · have : ((a < i ∧ b < cols) ∨ (a = i ∧ b < j + 1)) ↔
                    ((a < i ∧ b < cols) ∨ (a = i ∧ b < j)) := by omega
                simp only [hab, if_false, this])
        refine ⟨t', ht', hr', hc', ?_⟩
        intro a b
        rw [hat']
        have : ((a < i ∧ b < cols) ∨ (a = i ∧ b < cols)) ↔
            (a < i + 1 ∧ b < cols) := by omega
        simp only [this])
  exact ⟨L, hL, hr, hc, hat⟩

/-- Within the label capacity `createIslandMask` returns a grid of the dimensions of
its input whose every cell holds the root of the label given by the labelling pass. -/
theorem createIslandMask_root (source : Mat Nat) (hseeds : seedCount source < DSETS_SIZE) :
    ∃ st L, labelPass source = some st ∧ InvAt source (source.rows, 0) st ∧
      createIslandMask source = some L ∧ L.rows = source.rows ∧ L.cols = source.cols ∧
      ∀ a b, RootOf st.dSets (st.result.at_ a b) (L.at_ a b) := by
  obtain ⟨st, hst, hinv⟩ := labelPass_inv source hseeds
  have hcap := hinv.cap hseeds
  have hroot : ∀ a b, ∃ r, dsParent st.dSets (st.result.at_ a b) = some r ∧
      RootOf st.dSets (st.result.at_ a b) r := by
    intro a b
    obtain ⟨r, h1, h2, -, -⟩ := hinv.dsParent_ok hcap (hinv.label_lt a b)
    exact ⟨r, h1, h2⟩
  choose g hg1 hg2 using hroot
  obtain ⟨L, hL, hr, hc, hat⟩ :=
    resolvePass_spec source.rows source.cols st.dSets st.result g (fun a b _ _ => hg1 a b)
  refine ⟨st, L, hst, hinv, by simp [createIslandMask, hst, hL], hr.trans hinv.rows_eq,
    hc.trans hinv.cols_eq, ?_⟩
  intro a b
  rw [hat]
  by_cases hab : a < source.rows ∧ b < source.cols
  · simp only [hab, and_self, if_true]
    exact hg2 a b
  · simp only [hab, if_false]
    have h0 : st.result.at_ a b = 0 := by
      by_contra hne
      have := hinv.label_fg a b hne
      exact hab ⟨this.1, this.2.1⟩
    rw [h0]
    exact RootOf.of_entry_zero hinv.entry_zero

/-! ## `createIslandMask`: the returned grid -/

theorem seedsBefore_end (m : Mat Nat) : seedsBefore m (m.rows, 0) = seedCount m := by
  unfold seedsBefore seedCount
  congr 1
  apply Finset.filter_congr
  intro p hp
  simp only [Finset.mem_product, Finset.mem_range] at hp
  unfold Before
  simp only [hp.1, true_or, and_true]

/-- Within the label capacity `createIslandMask` returns a grid of the dimensions of its
input, nonzero exactly on the foreground pixels, in which two foreground pixels hold the
same label exactly when they are connected; the labelling pass ends with
`lastSet = seedCount + 1`. -/
theorem createIslandMask_spec (source : Mat Nat) (hseeds : seedCount source < DSETS_SIZE) :
    ∃ st L, labelPass source = some st ∧ st.lastSet = seedCount source + 1 ∧
      createIslandMask source = some L ∧ L.rows = source.rows ∧ L.cols = source.cols ∧
      (∀ p : Nat × Nat, L.at_ p.1 p.2 ≠ 0 ↔ source.fg p) ∧
      (∀ p q : Nat × Nat, source.fg p → source.fg q →
        (L.at_ p.1 p.2 = L.at_ q.1 q.2 ↔ Connected source p q)) := by
  obtain ⟨st, L, hst, hinv, hL, hr, hc, hroot⟩ := createIslandMask_root source hseeds
  have hend : ∀ p : Nat × Nat, source.fg p → Before p (source.rows, 0) := by
    intro p hp
    exact Or.inl hp.1
  have hlab : ∀ p : Nat × Nat, source.fg p → st.result.at_ p.1 p.2 ≠ 0 :=
    fun p hp => (hinv.labelled p).2 ⟨hp, hend p hp⟩
  have hsame : ∀ p q : Nat × Nat, source.fg p → source.fg q →
      (L.at_ p.1 p.2 = L.at_ q.1 q.2 ↔ Same st p q) := by
    intro p q hp hq
    constructor
    · intro e
      exact ⟨hlab p hp, hlab q hq, L.at_ p.1 p.2, hroot p.1 p.2, e ▸ hroot q.1 q.2⟩
    · rintro ⟨_, _, r, h1, h2⟩
      rw [(hroot p.1 p.2).unique h1, (hroot q.1 q.2).unique h2]
  have hfgsame : ∀ p q : Nat × Nat, Same st p q → source.fg p ∧ source.fg q :=
    fun p q hs => ⟨hinv.label_fg _ _ hs.1, hinv.label_fg _ _ hs.2.1⟩
  have hcomplete : ∀ p q : Nat × Nat, Connected source p q →
      (source.fg p ∨ source.fg q) → Same st p q := by
    intro p q hconn
    induction hconn with
    | rel p q hlink =>
      intro _
      obtain ⟨hp, hq, k, hk, hqk⟩ := hlink
      rcases nbr_cases source p k hk hp.1 hp.2.1 with hcase | hcase | hcase
      · rw [hqk, hcase]
        exact Same.of_labelled hinv.toInv (hlab p hp)
      · rw [hqk]
        exact hinv.complete p k hp (hend p hp) hk (hqk ▸ hq) hcase
      · rw [← hqk] at hcase
        have hp3 : source.fg (nbr source q 3) := hcase.2 ▸ hp
        have hb3 : Before (nbr source q 3) q := by
          rw [← hcase.2]
          exact hcase.1
        have := hinv.complete q 3 hq (hend q hq) (by omega) hp3 hb3
        rw [← hcase.2] at this
        exact this.same_symm
    | refl p =>
      intro h
      exact Same.of_labelled hinv.toInv (hlab p (h.elim id id))
    | symm p q _ ih =>
      intro h
      exact (ih h.symm).same_symm
    | trans p q s _ _ ih1 ih2 =>
      intro h
      rcases h with h | h
      · have h1 := ih1 (Or.inl h)
        exact h1.same_trans (ih2 (Or.inl (hfgsame _ _ h1).2))
      · have h2 := ih2 (Or.inr h)
        exact (ih1 (Or.inr (hfgsame _ _ h2).1)).same_trans h2
  refine ⟨st, L, hst, ?_, hL, hr, hc, ?_, ?_⟩
  · rw [hinv.count, seedsBefore_end]
    omega
  · intro p
    constructor
    · intro hne
      apply hinv.label_fg
      intro h0
      have := hroot p.1 p.2
      rw [h0] at this
      exact hne (this.unique (RootOf.of_entry_zero hinv.entry_zero))
    · intro hp
      exact (hroot p.1 p.2).root_ne_zero (hlab p hp)
  · intro p q hp hq
    rw [hsame p q hp hq]
    exact ⟨hinv.sound p q, fun hconn => hcomplete p q hconn (Or.inl hp)⟩

/-- Two grids of the same dimensions that are nonzero at the same cells have the same
number of nonzero cells. -/
theorem Mat.count_ne_zero_congr (m m' : Mat Nat) (hr : m.rows = m'.rows) (hc : m.cols = m'.cols)
    (h : ∀ a b, a < m.rows → b < m.cols → (m.at_ a b ≠ 0 ↔ m'.at_ a b ≠ 0)) :
    m.count (fun v => v ≠ 0) = m'.count (fun v => v ≠ 0) := by
  unfold Mat.count
  rw [hr, hc]
  congr 1
  apply Finset.filter_congr
  intro c hcell
  simp only [Finset.mem_product, Finset.mem_range] at hcell
  exact h c.1 c.2 (hr ▸ hcell.1) (hc ▸ hcell.2)

/-! ## The brute-force flood fill -/

theorem Touch.touch_symm {m : Mat Nat} {p q : Nat × Nat} (h : Touch m p q) : Touch m q p :=
  Or.symm h

theorem Touch.connected {m : Mat Nat} {p q : Nat × Nat} (h : Touch m p q) : Connected m p q := by
  rcases h with h | h
  · exact Connected.of_link h
  · exact (Connected.of_link h).symm

theorem subset_floodStep (m : Mat Nat) (S : Finset (Nat × Nat)) : S ⊆ floodStep m S :=
  Finset.subset_union_left

theorem mem_floodStep {m : Mat Nat} {S : Finset (Nat × Nat)} {q : Nat × Nat} :
    q ∈ floodStep m S ↔ q ∈ S ∨ (q.1 < m.rows ∧ q.2 < m.cols ∧ ∃ p ∈ S, Touch m p q) := by
  unfold floodStep
  simp only [Finset.mem_union, Finset.mem_filter, Finset.mem_product, Finset.mem_range]
  tauto

/-- Every pixel reached by the flood fill is connected to its start. -/
theorem floodIterate_sound (m : Mat Nat) (p : Nat × Nat) :
    ∀ n q, q ∈ (floodStep m)^[n] {p} → Connected m p q := by
  intro n
  induction n with
  | zero =>
    intro q hq
    simp only [Function.iterate_zero, id_eq, Finset.mem_singleton] at hq
    rw [hq]
    exact Connected.refl m p
  | succ n ih =>
    intro q hq
    rw [Function.iterate_succ_apply', mem_floodStep] at hq
    rcases hq with hq | ⟨_, _, r, hr, ht⟩
    · exact ih q hq
    · exact (ih r hr).trans ht.connected

theorem floodIterate_subset (m : Mat Nat) (p : Nat × Nat) (hp1 : p.1 < m.rows)
    (hp2 : p.2 < m.cols) :
    ∀ n, (floodStep m)^[n] {p} ⊆ Finset.range m.rows ×ˢ Finset.range m.cols := by
  intro n
  induction n with
  | zero =>
    intro q hq
    simp only [Function.iterate_zero, id_eq, Finset.mem_singleton] at hq
    rw [hq]
    simp [hp1, hp2]
  | succ n ih =>
    intro q hq
    rw [Function.iterate_succ_apply', mem_floodStep] at hq
    rcases hq with hq | ⟨h1, h2, _⟩
    · exact ih hq
    · simp [h1, h2]

theorem floodIterate_fixed (m : Mat Nat) (p : Nat × Nat) (k : Nat)
    (hk : floodStep m ((floodStep m)^[k] {p}) = (floodStep m)^[k] {p}) :
    ∀ n, k ≤ n → (floodStep m)^[n] {p} = (floodStep m)^[k] {p} := by
  intro n hn
  induction n with
  | zero =>
    have : k = 0 := by omega
    rw [this]
  | succ n ih =>
    by_cases hkn : k = n + 1
    · rw [hkn]
    · rw [Function.iterate_succ_apply', ih (by omega), hk]

/-- After as many rounds as the grid has cells the flood fill has stopped growing. -/
theorem floodFill_fixed (m : Mat Nat) (p : Nat × Nat) (hp1 : p.1 < m.rows)
    (hp2 : p.2 < m.cols) : floodStep m (floodFill m p) = floodFill m p := by
  have hgrow : ∀ n,
      (∃ k, k ≤ n ∧ floodStep m ((floodStep m)^[k] {p}) = (floodStep m)^[k] {p}) ∨
        n + 1 ≤ ((floodStep m)^[n] {p}).card := by
    intro n
    induction n with
    | zero =>
      right
      simp
    | succ n ih =>
      rcases ih with ⟨k, hk, hfix⟩ | hcard
      · exact Or.inl ⟨k, by omega, hfix⟩
      · by_cases hfix : floodStep m ((floodStep m)^[n] {p}) = (floodStep m)^[n] {p}
        · exact Or.inl ⟨n, by omega, hfix⟩
        · right
          rw [Function.iterate_succ_apply']
          have hss : (floodStep m)^[n] {p} ⊂ floodStep m ((floodStep m)^[n] {p}) :=
            Finset.ssubset_iff_subset_ne.2 ⟨subset_floodStep m _, fun e => hfix e.symm⟩
          have := Finset.card_lt_card hss
          omega
  rcases hgrow (m.rows * m.cols) with ⟨k, hk, hfix⟩ | hcard
  · unfold floodFill
    rw [floodIterate_fixed m p k hfix _ hk]
    exact hfix
  · have := Finset.card_le_card (floodIterate_subset m p hp1 hp2 (m.rows * m.cols))
    simp only [Finset.card_product, Finset.card_range] at this
    omega

/-- The flood fill from a pixel of the grid reaches exactly the pixels connected to it. -/
theorem mem_floodFill_iff (m : Mat Nat) (p q : Nat × Nat) (hp1 : p.1 < m.rows)
    (hp2 : p.2 < m.cols) : q ∈ floodFill m p ↔ Connected m p q := by
  constructor
  · exact floodIterate_sound m p _ q
  · intro hconn
    have hfix := floodFill_fixed m p hp1 hp2
    have hstart : p ∈ floodFill m p := by
      have : ∀ n, p ∈ (floodStep m)^[n] {p} := by
        intro n
        induction n with
        | zero => simp
        | succ n ih =>
          rw [Function.iterate_succ_apply']
          exact subset_floodStep m _ ih
      exact this _
    have hclosed : ∀ a b, Touch m a b → a ∈ floodFill m p → b ∈ floodFill m p := by
      intro a b hab ha
      rw [← hfix, mem_floodStep]
      have hb : m.fg b := by
        rcases hab with h | h
        · exact h.2.1
        · exact h.1
      exact Or.inr ⟨hb.1, hb.2.1, a, ha, hab⟩
    have hboth : ∀ a b, Connected m a b → (a ∈ floodFill m p ↔ b ∈ floodFill m p) := by
      intro a b hab
      induction hab with
      | rel a b h => exact ⟨hclosed a b (Or.inl h), hclosed b a (Or.inr h)⟩
      | refl a => exact Iff.rfl
      | symm a b _ ih => exact ih.symm
      | trans a b c _ _ ih1 ih2 => exact ih1.trans ih2
    exact (hboth p q hconn).1 hstart

/-! ## `extractIslands` -/

theorem forN_inv {σ : Type} (P : σ → Prop) (body : Nat → σ → σ)
    (h : ∀ k s, P s → P (body k s)) (n : Nat) (s : σ) (h0 : P s) : P (forN body n s) := by
  induction n with
  | zero => exact h0
  | succ n ih => exact h n _ ih

theorem forRaster_inv {σ : Type} (P : σ → Prop) (body : Nat → Nat → σ → σ)
    (h : ∀ i j s, P s → P (body i j s)) (rows cols : Nat) (s : σ) (h0 : P s) :
    P (forRaster rows cols body s) :=
  forN_inv P _ (fun i s hs => forN_inv P _ (fun j s hs => h i j s hs) cols s hs) rows s h0

theorem totalArea_mapIncrement (v : Nat) (M : List Island) :
    totalArea (mapIncrement v M) = totalArea M + 1 := by
  induction M with
  | nil => simp [mapIncrement, totalArea]
  | cons isl rest ih =>
    unfold totalArea at ih ⊢
    simp only [mapIncrement]
    split
    · simp only [List.map_cons, List.sum_cons]
      omega
    · split
      · simp only [List.map_cons, List.sum_cons, List.map_nil, List.sum_nil]
        omega
      · simp only [List.map_cons, List.sum_cons, ih]
        omega

theorem areaOf_mapIncrement (v : Nat) (M : List Island) (l : Nat) :
    areaOf (mapIncrement v M) l = areaOf M l + if l = v then 1 else 0 := by
  induction M with
  | nil =>
    by_cases h : v = l
    · subst h
      simp [mapIncrement, areaOf]
    · have h' : ¬ l = v := fun e => h e.symm
      simp [mapIncrement, areaOf, h, h']
  | cons isl rest ih =>
    unfold areaOf at ih ⊢
    simp only [mapIncrement]
    by_cases h1 : v = isl.index
    · simp only [h1, if_true]
      by_cases h2 : isl.index = l
      · simp [List.filter_cons, h2]
        omega
      · have h2' : ¬ l = isl.index := fun e => h2 e.symm
        simp [List.filter_cons, h2, h2']
    · simp only [h1, if_false]
      by_cases h3 : v < isl.index
      · simp only [h3, if_true]
        by_cases h4 : v = l
        · subst h4
          by_cases h2 : isl.index = v
          · exact absurd h2.symm h1
          · simp [List.filter_cons, h2]
            omega
        · have h4' : ¬ l = v := fun e => h4 e.symm
          simp [List.filter_cons, h4, h4']
      · simp only [h3, if_false]
        by_cases h2 : isl.index = l
        · simp only [List.filter_cons, h2, decide_True, if_true, List.map_cons, List.sum_cons]
          rw [ih]
          omega
        · simp only [List.filter_cons, h2, decide_False]
          simpa using ih

theorem mem_keys_mapIncrement (v : Nat) (M : List Island) (x : Nat) :
    x ∈ keys (mapIncrement v M) ↔ x = v ∨ x ∈ keys M := by
  induction M with
  | nil => simp [mapIncrement, keys]
  | cons isl rest ih =>
    unfold keys at ih ⊢
    simp only [mapIncrement]
    by_cases h1 : v = isl.index
    · simp only [h1, if_true, List.map_cons, List.mem_cons]
      tauto
    · simp only [h1, if_false]
      by_cases h3 : v < isl.index
      · simp only [h3, if_true, List.map_cons, List.mem_cons]
      · simp only [h3, if_false, List.map_cons, List.mem_cons, ih]
        tauto

theorem sorted_keys_mapIncrement (v : Nat) (M : List Island)
    (h : (keys M).Sorted (· < ·)) : (keys (mapIncrement v M)).Sorted (· < ·) := by
  induction M with
  | nil => simp [mapIncrement, keys]
  | cons isl rest ih =>
    have hrest : (keys rest).Sorted (· < ·) := by
      unfold keys at h ⊢
      exact (List.sorted_cons.1 h).2
    have hhead : ∀ x ∈ keys rest, isl.index < x := by
      unfold keys at h ⊢
      exact (List.sorted_cons.1 h).1
    simp only [mapIncrement]
    by_cases h1 : v = isl.index
    · simp only [h1, if_true]
      exact h
    · simp only [h1, if_false]
      by_cases h3 : v < isl.index
      · simp only [h3, if_true]
        unfold keys at h ⊢
        simp only [List.map_cons]
        refine List.sorted_cons.2 ⟨?_, h⟩
        intro x hx
        simp only [List.map_cons, List.mem_cons] at hx
        rcases hx with hx | hx
        · omega
        · have := (List.sorted_cons.1 h).1 x hx
          omega
      · simp only [h3, if_false]
        have := ih hrest
        unfold keys at this ⊢
        simp only [List.map_cons]
        refine List.sorted_cons.2 ⟨?_, this⟩
        intro x hx
        have hx' := (mem_keys_mapIncrement v rest x).1 hx
        rcases hx' with hx' | hx'
        · omega
        · exact hhead x hx'

theorem area_pos_mapIncrement (v : Nat) (M : List Island)
    (h : ∀ isl ∈ M, 0 < isl.area) : ∀ isl ∈ mapIncrement v M, 0 < isl.area := by
  induction M with
  | nil =>
    intro isl hisl
    simp only [mapIncrement, List.mem_singleton] at hisl
    subst hisl
    simp
  | cons hd rest ih =>
    intro isl hisl
    simp only [mapIncrement] at hisl
    by_cases h1 : v = hd.index
    · simp only [h1, if_true, List.mem_cons] at hisl
      rcases hisl with hisl | hisl
      · subst hisl
        simp
      · exact h isl (List.mem_cons_of_mem _ hisl)
    · simp only [h1, if_false] at hisl
      by_cases h3 : v < hd.index
      · simp only [h3, if_true, List.mem_cons] at hisl
        rcases hisl with hisl | hisl | hisl
        · subst hisl
          simp
        · subst hisl
          exact h _ (List.mem_cons_self _ _)
        · exact h isl (List.mem_cons_of_mem _ hisl)
      · simp only [h3, if_false, List.mem_cons] at hisl
        rcases hisl with hisl | hisl
        · subst hisl
          exact h _ (List.mem_cons_self _ _)
        · exact ih (fun x hx => h x (List.mem_cons_of_mem _ hx)) isl hisl

/-- The map built by `extractIslands` has strictly ascending keys and positive areas. -/
theorem islandMap_wf (source : Mat Nat) :
    (keys (islandMap source)).Sorted (· < ·) ∧ ∀ isl ∈ islandMap source, 0 < isl.area := by
  unfold islandMap
  apply forRaster_inv (fun M => (keys M).Sorted (· < ·) ∧ ∀ isl ∈ M, 0 < isl.area)
  · intro i j M hM
    by_cases h : source.at_ i j = 0
    · simpa [h] using hM
    · simp only [ne_eq, h, not_false_eq_true, if_true]
      exact ⟨sorted_keys_mapIncrement _ _ hM.1, area_pos_mapIncrement _ _ hM.2⟩
  · simp [keys]

theorem totalArea_islandMap (source : Mat Nat) :
    totalArea (islandMap source) = source.count (fun v => v ≠ 0) := by
  unfold islandMap
  rw [forRaster_sum totalArea (fun i j => if source.at_ i j ≠ 0 then 1 else 0)]
  · rw [Mat.count_eq_sum]
    simp [totalArea]
  · intro i j M
    by_cases h : source.at_ i j = 0
    · simp [h]
    · simp [h, totalArea_mapIncrement]

theorem areaOf_islandMap (source : Mat Nat) (l : Nat) :
    areaOf (islandMap source) l = source.count (fun v => v ≠ 0 ∧ v = l) := by
  unfold islandMap
  rw [forRaster_sum (fun M => areaOf M l)
    (fun i j => if source.at_ i j ≠ 0 ∧ source.at_ i j = l then 1 else 0)]
  · rw [Mat.count_eq_sum]
    simp [areaOf]
  · intro i j M
    by_cases h : source.at_ i j = 0
    · simp [h]
    · by_cases h2 : source.at_ i j = l
      · subst h2
        simp [h, areaOf_mapIncrement]
      · have h2' : ¬ l = source.at_ i j := fun e => h2 e.symm
        simp [h, h2, h2', areaOf_mapIncrement]

/-! ## `extractIslands`: the sorted result -/

/-- The contract of `std::sort`, first half: the output is a rearrangement of the input. -/
theorem stdSort_perm (islands : List Island) : (stdSort islands).Perm islands :=
  List.perm_insertionSort mayPrecede islands

/-- The contract of `std::sort`, second half: no element compares before an earlier one. -/
theorem stdSort_sorted (islands : List Island) : (stdSort islands).Pairwise mayPrecede :=
  List.sorted_insertionSort mayPrecede islands

theorem extractIslands_perm (source : Mat Nat) :
    (extractIslands source).Perm (islandMap source) :=
  stdSort_perm _

theorem mem_extractIslands (source : Mat Nat) (isl : Island) :
    isl ∈ extractIslands source ↔ isl ∈ islandMap source :=
  (extractIslands_perm source).mem_iff

theorem keys_extractIslands_perm (source : Mat Nat) :
    (keys (extractIslands source)).Perm (keys (islandMap source)) :=
  (extractIslands_perm source).map _

theorem totalArea_extractIslands (source : Mat Nat) :
    totalArea (extractIslands source) = source.count (fun v => v ≠ 0) := by
  rw [← totalArea_islandMap]
  unfold totalArea
  exact ((extractIslands_perm source).map _).sum_eq

theorem areaOf_pos_iff (M : List Island) (h : ∀ isl ∈ M, 0 < isl.area) (l : Nat) :
    0 < areaOf M l ↔ l ∈ keys M := by
  induction M with
  | nil => simp [areaOf, keys]
  | cons hd rest ih =>
    have ih' := ih (fun x hx => h x (List.mem_cons_of_mem _ hx))
    have hpos := h hd (List.mem_cons_self _ _)
    unfold areaOf keys at ih' ⊢
    by_cases h1 : hd.index = l
    · simp only [List.filter_cons, h1, decide_True, if_true, List.map_cons, List.sum_cons,
        List.mem_cons, true_or, iff_true]
      omega
    · have h1' : ¬ l = hd.index := fun e => h1 e.symm
      simp only [List.filter_cons, h1, decide_False, List.map_cons, List.mem_cons, h1',
        false_or]
      simpa using ih'

theorem areaOf_of_mem (M : List Island) (h : (keys M).Nodup) (isl : Island) (hm : isl ∈ M) :
    areaOf M isl.index = isl.area := by
  induction M with
  | nil => simp at hm
  | cons hd rest ih =>
    unfold keys at h ih
    simp only [List.map_cons, List.nodup_cons] at h
    unfold areaOf at ih ⊢
    simp only [List.mem_cons] at hm
    have hzero : ∀ x, x ∉ List.map Island.index rest →
        ((rest.filter fun i => i.index = x).map Island.area).sum = 0 := by
      intro x hx
      have : rest.filter (fun i => i.index = x) = [] := by
        rw [List.filter_eq_nil_iff]
        intro y hy
        simp only [decide_eq_true_eq]
        intro hyx
        exact hx (List.mem_map.2 ⟨y, hy, hyx⟩)
      rw [this]
      rfl
    rcases hm with hm | hm
    · subst hm
      simp only [List.filter_cons, decide_True, if_true, List.map_cons, List.sum_cons]
      rw [hzero _ h.1]
      rfl
    · have hne : hd.index ≠ isl.index := by
        intro e
        exact h.1 (e ▸ List.mem_map.2 ⟨isl, hm, rfl⟩)
      simp only [List.filter_cons, hne, decide_False]
      simpa using ih h.2 hm

/-- The keys of the map are the nonzero labels that occur in the grid. -/
theorem mem_keys_islandMap (source : Mat Nat) (l : Nat) :
    l ∈ keys (islandMap source) ↔
      l ≠ 0 ∧ ∃ i j, i < source.rows ∧ j < source.cols ∧ source.at_ i j = l := by
  rw [← areaOf_pos_iff _ (islandMap_wf source).2, areaOf_islandMap, Mat.count_pos_iff]
  constructor
  · rintro ⟨i, j, hi, hj, h0, hl⟩
    exact ⟨hl ▸ h0, i, j, hi, hj, hl⟩
  · rintro ⟨h0, i, j, hi, hj, hl⟩
    exact ⟨i, j, hi, hj, hl ▸ h0, hl⟩

theorem keys_islandMap_nodup (source : Mat Nat) : (keys (islandMap source)).Nodup :=
  (islandMap_wf source).1.nodup

/-- The area recorded for an island is the number of cells holding its label. -/
theorem area_of_mem_islandMap (source : Mat Nat) (isl : Island) (h : isl ∈ islandMap source) :
    isl.area = source.count (fun v => v = isl.index) := by
  have hkey : isl.index ∈ keys (islandMap source) := List.mem_map.2 ⟨isl, h, rfl⟩
  have h0 := ((mem_keys_islandMap source _).1 hkey).1
  rw [← areaOf_of_mem _ (keys_islandMap_nodup source) isl h, areaOf_islandMap]
  unfold Mat.count
  congr 1
  apply Finset.filter_congr
  intro c _
  constructor
  · exact fun hh => hh.2
  · exact fun hh => ⟨hh ▸ h0, hh⟩

/-! ## The example scenario -/

/-- Two touching pixels of the grid are related, in one direction or the other, by one of
the four causal offsets. -/
theorem adjacent8_link (m : Mat Nat) (p q : Nat × Nat) (hp1 : p.1 < m.rows)
    (hp2 : p.2 < m.cols) (hq1 : q.1 < m.rows) (hq2 : q.2 < m.cols) (h : Adjacent8 p q) :
    (∃ k, k < 4 ∧ q = nbr m p k) ∨ (∃ k, k < 4 ∧ p = nbr m q k) := by
  obtain ⟨i, j⟩ := p
  obtain ⟨a, b⟩ := q
  obtain ⟨hne, h1, h2, h3, h4⟩ := h
  simp only at hp1 hp2 hq1 hq2 h1 h2 h3 h4
  have hne' : ¬ (i = a ∧ j = b) := fun e => hne (Prod.ext e.1 e.2)
  simp only [nbr, nbrRow, nbrCol, clamp, Prod.mk.injEq]
  by_cases hrow : a < i
  · left
    by_cases hc0 : b = j + 1
    · exact ⟨0, by omega, by simp only [dx, dy]; omega⟩
    · by_cases hc1 : b = j
      · exact ⟨1, by omega, by simp only [dx, dy]; omega⟩
      · exact ⟨2, by omega, by simp only [dx, dy]; omega⟩
  · by_cases hrow' : i < a
    · right
      by_cases hc0 : j = b + 1
      · exact ⟨0, by omega, by simp only [dx, dy]; omega⟩
      · by_cases hc1 : j = b
        · exact ⟨1, by omega, by simp only [dx, dy]; omega⟩
        · exact ⟨2, by omega, by simp only [dx, dy]; omega⟩
    · by_cases hcol : b < j
      · left
        exact ⟨3, by omega, by simp only [dx, dy]; omega⟩
      · right
        exact ⟨3, by omega, by simp only [dx, dy]; omega⟩

theorem seedCount_le (m : Mat Nat) : seedCount m ≤ m.rows * m.cols := by
  unfold seedCount
  calc _ ≤ (Finset.range m.rows ×ˢ Finset.range m.cols).card := Finset.card_filter_le _ _
    _ = m.rows * m.cols := by simp

theorem eq_singleton_of_nodup {l : Nat} :
    ∀ ks : List Nat, ks.Nodup → (∀ x, x ∈ ks ↔ x = l) → ks = [l] := by
  intro ks hnd hmem
  match ks, hnd, hmem with
  | [], _, hmem => exact absurd ((hmem l).2 rfl) (List.not_mem_nil _)
  | [a], _, hmem =>
    have := (hmem a).1 (List.mem_singleton_self a)
    rw [this]
  | a :: b :: rest, hnd, hmem =>
    have ha := (hmem a).1 (List.mem_cons_self _ _)
    have hb := (hmem b).1 (List.mem_cons_of_mem _ (List.mem_cons_self _ _))
    simp only [List.nodup_cons, List.mem_cons] at hnd
    exact absurd (Or.inl (ha.trans hb.symm)) hnd.1

/-- In the scenario no pixel is brighter than 220. -/
theorem Scenario.count_above (g : Mat Nat) (h : Scenario g) (b : Nat) (hb : 220 < b) :
    g.count (fun v => v = b) = 0 := by
  unfold Mat.count
  rw [Finset.card_eq_zero]
  apply Finset.filter_false_of_mem
  intro c hc
  simp only [Finset.mem_product, Finset.mem_range, h.rows_eq, h.cols_eq] at hc
  have := h.values c.1 c.2 hc.1 hc.2
  omega

/-- In the scenario the scan stops right below the blob value, whatever target is passed,
as long as the cell past the histogram holds less than the constant target and is not
negative. -/
theorem Scenario.threshold_eq (g : Mat Nat) (h : Scenario g) (areaPercent stray : ℚ)
    (hs0 : 0 ≤ stray) (hs1 : stray < BINARIZATION_AREA_PERCENTAGE) :
    convertToBinary.threshold g areaPercent stray = 219 := by
  unfold convertToBinary.threshold
  have h255 : createHistogram g stray 255 = stray := by
    rw [createHistogram_apply, h.count_above g 255 (by omega)]
    simp [histogramInit, HISTOGRAM_SIZE]
  have hzero : ∀ b, 220 < b → b ≤ 220 + 34 → createHistogram g stray b = 0 := by
    intro b hb hb'
    rw [createHistogram_apply, h.count_above g b hb]
    have : b < HISTOGRAM_SIZE := by unfold HISTOGRAM_SIZE; omega
    simp [histogramInit, this]
  have h220 : createHistogram g stray 220 = 1 / 5 := by
    rw [createHistogram_apply, h.blob_size, h.rows_eq, h.cols_eq]
    norm_num [histogramInit, HISTOGRAM_SIZE]
  rw [thresholdLoop_step _ 254 0 (by norm_num [BINARIZATION_AREA_PERCENTAGE]), h255, zero_add,
    thresholdLoop_skip _ 220 stray hs1 34 hzero, thresholdLoop_step _ 219 stray hs1, h220,
    thresholdLoop_stop _ 218]
  unfold BINARIZATION_AREA_PERCENTAGE at hs1 ⊢
  rw [not_lt]
  linarith

/-- In the scenario the binary image is 255 exactly on the blob of value 220. -/
theorem Scenario.binary_at (g : Mat Nat) (h : Scenario g) (areaPercent stray : ℚ)
    (hs0 : 0 ≤ stray) (hs1 : stray < BINARIZATION_AREA_PERCENTAGE) (i j : Nat) :
    (convertToBinary g areaPercent stray).at_ i j =
      if i < 5 ∧ j < 5 ∧ g.at_ i j = 220 then 255 else 0 := by
  rw [convertToBinary_at, h.threshold_eq g areaPercent stray hs0 hs1, h.rows_eq, h.cols_eq]
  by_cases hi : i < 5
  · by_cases hj : j < 5
    · have := h.values i j hi hj
      by_cases hv : g.at_ i j = 220
      · simp [hi, hj, hv]
      · have : ¬ g.at_ i j > 219 := by omega
        simp [hi, hj, hv, this]
    · simp [hj]
  · simp [hi]

/-- Two grids of the same dimensions whose cells satisfy `p`, respectively `p'`, at the
same places have the same counts. -/
theorem Mat.count_congr (m m' : Mat Nat) (p p' : Nat → Prop) [DecidablePred p]
    [DecidablePred p'] (hr : m.rows = m'.rows) (hc : m.cols = m'.cols)
    (h : ∀ a b, a < m.rows → b < m.cols → (p (m.at_ a b) ↔ p' (m'.at_ a b))) :
    m.count p = m'.count p' := by
  unfold Mat.count
  rw [hr, hc]
  congr 1
  apply Finset.filter_congr
  intro c hcell
  simp only [Finset.mem_product, Finset.mem_range] at hcell
  exact h c.1 c.2 (hr ▸ hcell.1) (hc ▸ hcell.2)

/-- What the pipeline computes on a grid of the scenario (for any `areaFraction`, island
count 1, and the cell past the histogram holding a value in `[0, 0.04)`): threshold 219;
the binary image is the blob of value 220; one island, of area 5; the filtered image is
the blob again. -/
theorem Scenario.outcome (g : Mat Nat) (h : Scenario g) (areaFraction stray : ℚ)
    (hs0 : 0 ≤ stray) (hs1 : stray < BINARIZATION_AREA_PERCENTAGE) :
    convertToBinary.threshold g areaFraction stray = 219 ∧
    (∀ i j, i < 5 → j < 5 →
      ((convertToBinary g areaFraction stray).at_ i j = 255 ↔ g.at_ i j = 220) ∧
      ((convertToBinary g areaFraction stray).at_ i j ≠ 255 →
        (convertToBinary g areaFraction stray).at_ i j = 0)) ∧
    (convertToBinary g areaFraction stray).count (fun v => v ≠ 0) = 5 ∧
    ∃ L, createIslandMask (convertToBinary g areaFraction stray) = some L ∧
      (∃ l, extractIslands L = [⟨l, 5⟩]) ∧
      (∀ i j, i < 5 → j < 5 →
        ((filterImageByIslands L (extractIslands L) 1).at_ i j = 255 ↔ g.at_ i j = 220) ∧
        ((filterImageByIslands L (extractIslands L) 1).at_ i j ≠ 255 →
          (filterImageByIslands L (extractIslands L) 1).at_ i j = 0)) ∧
      (filterImageByIslands L (extractIslands L) 1).count (fun v => v ≠ 0) = 5 := by
  have hBat := h.binary_at g areaFraction stray hs0 hs1
  have hBr : (convertToBinary g areaFraction stray).rows = 5 := by
    rw [convertToBinary_rows, h.rows_eq]
  have hBc : (convertToBinary g areaFraction stray).cols = 5 := by
    rw [convertToBinary_cols, h.cols_eq]
  generalize convertToBinary g areaFraction stray = B at hBat hBr hBc
  have hBfg : ∀ p : Nat × Nat, B.fg p ↔ InBlob g p := by
    intro p
    unfold Mat.fg InBlob
    rw [hBr, hBc, h.rows_eq, h.cols_eq, hBat]
    by_cases h1 : p.1 < 5 <;> by_cases h2 : p.2 < 5 <;>
      by_cases h3 : g.at_ p.1 p.2 = 220 <;> simp [h1, h2, h3]
  have hBcount : B.count (fun v => v ≠ 0) = 5 := by
    rw [← h.blob_size]
    apply Mat.count_congr B g _ _ (hBr.trans h.rows_eq.symm) (hBc.trans h.cols_eq.symm)
    intro a b ha hb
    rw [hBat]
    rw [hBr] at ha
    rw [hBc] at hb
    by_cases h3 : g.at_ a b = 220 <;> simp [ha, hb, h3]
  refine ⟨h.threshold_eq g areaFraction stray hs0 hs1, ?_, hBcount, ?_⟩
  · intro i j hi hj
    rw [hBat]
    by_cases h3 : g.at_ i j = 220 <;> simp [hi, hj, h3]
  -- labelling
  have hcap : seedCount B < DSETS_SIZE := by
    have := seedCount_le B
    rw [hBr, hBc] at this
    unfold DSETS_SIZE
    omega
  obtain ⟨st, L, -, -, hL, hr, hc, hfg, hpart⟩ := createIslandMask_spec B hcap
  have hconn : ∀ p q, InBlob g p → InBlob g q → Connected B p q := by
    intro p q hp hq
    have := h.blob_connected p q hp hq
    clear hp hq
    induction this with
    | rel a b hab =>
      obtain ⟨ha, hb, hadj⟩ := hab
      have fa := (hBfg a).2 ha
      have fb := (hBfg b).2 hb
      rcases adjacent8_link B a b fa.1 fa.2.1 fb.1 fb.2.1 hadj with ⟨k, hk, e⟩ | ⟨k, hk, e⟩
      · exact Connected.of_link ⟨fa, fb, k, hk, e⟩
      · exact (Connected.of_link ⟨fb, fa, k, hk, e⟩).symm
    | refl a => exact Connected.refl _ _
    | symm a b _ ih => exact ih.symm
    | trans a b c _ _ ih1 ih2 => exact ih1.trans ih2
  obtain ⟨i0, j0, hi0, hj0, hv0⟩ :=
    (Mat.count_pos_iff g (fun v => v = 220)).1 (by rw [h.blob_size]; omega)
  have hp0 : InBlob g (i0, j0) := ⟨hi0, hj0, hv0⟩
  have hlabel : ∀ p : Nat × Nat, InBlob g p → L.at_ p.1 p.2 = L.at_ i0 j0 := by
    intro p hp
    exact (hpart p (i0, j0) ((hBfg p).2 hp) ((hBfg _).2 hp0)).2 (hconn p _ hp hp0)
  have hl0 : L.at_ i0 j0 ≠ 0 := (hfg (i0, j0)).2 ((hBfg _).2 hp0)
  have hLblob : ∀ a b, L.at_ a b = L.at_ i0 j0 ↔ InBlob g (a, b) := by
    intro a b
    constructor
    · intro e
      exact (hBfg (a, b)).1 ((hfg (a, b)).1 (by rw [e]; exact hl0))
    · intro hp
      exact hlabel (a, b) hp
  have hkeys : keys (extractIslands L) = [L.at_ i0 j0] := by
    apply eq_singleton_of_nodup _
      ((keys_extractIslands_perm L).nodup_iff.2 (keys_islandMap_nodup L))
    intro x
    rw [(keys_extractIslands_perm L).mem_iff, mem_keys_islandMap]
    constructor
    · rintro ⟨hx0, i, j, hi, hj, hx⟩
      rw [← hx]
      exact hlabel (i, j) ((hBfg (i, j)).1 ((hfg (i, j)).1 (by rw [hx]; exact hx0)))
    · intro hx
      rw [hx]
      exact ⟨hl0, i0, j0, by rw [hr, hBr, ← h.rows_eq]; exact hi0,
        by rw [hc, hBc, ← h.cols_eq]; exact hj0, rfl⟩
  have hLcount : L.count (fun v => v = L.at_ i0 j0) = 5 := by
    rw [← h.blob_size]
    apply Mat.count_congr L g _ _ ((hr.trans hBr).trans h.rows_eq.symm)
      ((hc.trans hBc).trans h.cols_eq.symm)
    intro a b ha hb
    rw [hLblob a b]
    unfold InBlob
    rw [hr, hBr] at ha
    rw [hc, hBc] at hb
    simp [h.rows_eq, h.cols_eq, ha, hb]
  obtain ⟨isl, hisl⟩ : ∃ isl, extractIslands L = [isl] := by
    unfold keys at hkeys
    match hE : extractIslands L with
    | [] => rw [hE] at hkeys; simp at hkeys
    | [isl] => exact ⟨isl, rfl⟩
    | a :: b :: rest => rw [hE] at hkeys; simp at hkeys
  have hidx : isl.index = L.at_ i0 j0 := by
    rw [hisl] at hkeys
    simpa [keys] using hkeys
  have harea : isl.area = 5 := by
    have hm : isl ∈ islandMap L := (mem_extractIslands L isl).1 (by rw [hisl]; simp)
    rw [area_of_mem_islandMap L isl hm, hidx, hLcount]
  have hislands : extractIslands L = [⟨L.at_ i0 j0, 5⟩] := by
    rw [hisl, ← hidx, ← harea]
  have hFat : ∀ i j, (filterImageByIslands L (extractIslands L) 1).at_ i j =
      if i < 5 ∧ j < 5 ∧ g.at_ i j = 220 then 255 else 0 := by
    intro i j
    rw [filterImageByIslands_at, hislands, hr, hc, hBr, hBc]
    have hb : filterBound [(⟨L.at_ i0 j0, 5⟩ : Island)] 1 = 1 := by
      unfold filterBound
      simp
    rw [hb]
    by_cases hi : i < 5
    · by_cases hj : j < 5
      · by_cases hv : g.at_ i j = 220
        · have e := (hLblob i j).2 ⟨by rw [h.rows_eq]; exact hi, by rw [h.cols_eq]; exact hj, hv⟩
          have : L.at_ i j ≠ 0 := by rw [e]; exact hl0
          simp [hi, hj, hv, hl0, matchesIsland, e]
        · have e : ¬ L.at_ i j = L.at_ i0 j0 := fun e => hv ((hLblob i j).1 e).2.2
          simp [hi, hj, hv, matchesIsland, e]
      · simp [hj]
    · simp [hi]
  refine ⟨L, hL, ⟨_, hislands⟩, ?_, ?_⟩
  · intro i j hi hj
    rw [hFat]
    by_cases h3 : g.at_ i j = 220 <;> simp [hi, hj, h3]
  · rw [← h.blob_size]
    apply Mat.count_congr _ g _ _
    · rw [filterImageByIslands_rows, hr, hBr, h.rows_eq]
    · rw [filterImageByIslands_cols, hc, hBc, h.cols_eq]
    · intro a b ha hb
      rw [filterImageByIslands_rows, hr, hBr] at ha
      rw [filterImageByIslands_cols, hc, hBc] at hb
      rw [hFat]
      by_cases h3 : g.at_ a b = 220 <;> simp [ha, hb, h3]

/-- The sample grid is a grid of the scenario. -/
theorem sampleScene_scenario : Scenario sampleScene := by
  have hblob : ∀ p : Nat × Nat, InBlob sampleScene p ↔ p.1 < 5 ∧ p.2 = 4 := by
    intro p
    unfold InBlob
    simp only [sampleScene]
    by_cases h4 : p.2 = 4
    · simp [h4]
    · simp only [h4, if_false, and_false, iff_false, not_and]
      intro _ _
      split <;> omega
  refine ⟨rfl, rfl, ?_, ?_, by decide, ?_, ?_⟩
  · intro i j _ _
    simp only [sampleScene]
    split_ifs <;> simp
  · left
    intro i j hi hj
    simp only [sampleScene]
    split_ifs with h1 h2 <;> constructor <;> intro hh <;> first | omega | contradiction
  · have hstep : ∀ i, i < 5 →
        Relation.EqvGen
          (fun a b => InBlob sampleScene a ∧ InBlob sampleScene b ∧ Adjacent8 a b) (0, 4) (i, 4) := by
      intro i
      induction i with
      | zero => intro _; exact Relation.EqvGen.refl _
      | succ i ih =>
        intro hi
        refine Relation.EqvGen.trans _ _ _ (ih (by omega)) (Relation.EqvGen.rel _ _ ?_)
        refine ⟨(hblob _).2 ⟨by simp only; omega, rfl⟩, (hblob _).2 ⟨hi, rfl⟩, ?_⟩
        unfold Adjacent8
        simp only [ne_eq, Prod.mk.injEq]
        omega
    intro p q hp hq
    obtain ⟨hp1, hp2⟩ := (hblob p).1 hp
    obtain ⟨hq1, hq2⟩ := (hblob q).1 hq
    have ep : p = (p.1, 4) := Prod.ext rfl hp2
    have eq : q = (q.1, 4) := Prod.ext rfl hq2
    rw [ep, eq]
    exact Relation.EqvGen.trans _ _ _ (Relation.EqvGen.symm _ _ (hstep p.1 hp1)) (hstep q.1 hq1)
  · intro p q hp1 hp2 hq1 hq2 hp hq
    have hq4 : q.2 = 4 := ((hblob q).1 ⟨hq1, hq2, hq⟩).2
    have hp4 : p.2 ≤ 2 := by
      simp only [sampleScene] at hp
      by_cases h4 : p.2 = 4
      · simp [h4] at hp
      · simp only [h4, if_false] at hp
        by_cases hd : p.1 = p.2 ∧ p.1 ≤ 2
        · omega
        · simp [hd] at hp
    unfold Adjacent8
    omega

/-! ## More on `convertToBinary` -/

/-- On the sample pair the scan stops at 253, whatever target is passed. -/
theorem samplePair_threshold (areaPercent : ℚ) :
    convertToBinary.threshold samplePair areaPercent 0 = 253 := by
  unfold convertToBinary.threshold
  have c255 : samplePair.count (fun v => v = 255) = 0 := by decide
  have c254 : samplePair.count (fun v => v = 254) = 1 := by decide
  have h255 : createHistogram samplePair 0 255 = 0 := by
    rw [createHistogram_apply, c255]
    simp [histogramInit, HISTOGRAM_SIZE]
  have h254 : createHistogram samplePair 0 254 = 1 / 2 := by
    rw [createHistogram_apply, c254]
    simp [histogramInit, HISTOGRAM_SIZE, samplePair]
  rw [thresholdLoop_step _ 254 0 (by norm_num [BINARIZATION_AREA_PERCENTAGE]), h255,
    thresholdLoop_step _ 253 _ (by norm_num [BINARIZATION_AREA_PERCENTAGE]), h254,
    thresholdLoop_stop _ 252 _ (by norm_num [BINARIZATION_AREA_PERCENTAGE])]

/-- The cell of index 255 after `createHistogram` on the sample white grid. -/
theorem sampleWhite_cell (stray : ℚ) : createHistogram sampleWhite stray 255 = stray + 1 := by
  have c255 : sampleWhite.count (fun v => v = 255) = 1 := by decide
  rw [createHistogram_apply, c255]
  simp [histogramInit, HISTOGRAM_SIZE, sampleWhite]

/-- The allocated bins after `createHistogram` on the sample white grid are empty. -/
theorem sampleWhite_bin (stray : ℚ) (b : Nat) (hb : b < 255) :
    createHistogram sampleWhite stray b = 0 := by
  rw [createHistogram_apply]
  have : sampleWhite.count (fun v => v = b) = 0 := by
    unfold Mat.count
    rw [Finset.card_eq_zero]
    apply Finset.filter_false_of_mem
    intro c _
    simp only [sampleWhite]
    omega
  have hb' : b < HISTOGRAM_SIZE := hb
  simp [this, histogramInit, hb']

/-! ## More on `createIslandMask` -/

theorem Mat.eq_of {α : Type} (m m' : Mat α) (hr : m.rows = m'.rows) (hc : m.cols = m'.cols)
    (h : ∀ a b, m.at_ a b = m'.at_ a b) : m = m' := by
  cases m
  cases m'
  simp only at hr hc h
  subst hr hc
  congr
  funext a b
  exact h a b

/-- On a root inside the table `dsParent` returns at once. -/
theorem dsParent_root (d : Nat → Nat) (r : Nat) (h0 : d r = 0) (hr : r < DSETS_SIZE) :
    dsParent d r = some r := by
  have hfuel : DSETS_SIZE = 2047 + 1 := rfl
  unfold dsParent
  rw [hfuel, dsParentFuel]
  simp [readSet, hr, h0]

/-- Within the label capacity, the grid returned by `createIslandMask` is zero exactly
where the input is, its nonzero cells hold roots of the final table, and resolving it a
second time returns it unchanged. -/
theorem createIslandMask_canonical (source : Mat Nat) (hseeds : seedCount source < DSETS_SIZE) :
    ∃ st L, labelPass source = some st ∧ createIslandMask source = some L ∧
      (∀ i j, i < source.rows → j < source.cols → (L.at_ i j = 0 ↔ source.at_ i j = 0)) ∧
      (∀ i j, L.at_ i j ≠ 0 → 0 < L.at_ i j ∧ st.dSets (L.at_ i j) = 0) ∧
      resolvePass source.rows source.cols st.dSets L = some L := by
  obtain ⟨st, L, hst, hinv, hL, hr, hc, hroot⟩ := createIslandMask_root source hseeds
  obtain ⟨st', L', hst', -, hL', -, -, hfg, -⟩ := createIslandMask_spec source hseeds
  rw [hL] at hL'
  cases hL'
  have hcap := hinv.cap hseeds
  have hzero : ∀ a b, st.dSets (L.at_ a b) = 0 := fun a b => (hroot a b).entry_zero
  have hlt : ∀ a b, L.at_ a b < DSETS_SIZE := by
    intro a b
    have := (hroot a b).root_lt hinv.entry_lt (hinv.label_lt a b)
    omega
  refine ⟨st, L, hst, hL, ?_, ?_, ?_⟩
  · intro i j hi hj
    have := hfg (i, j)
    simp only at this
    constructor
    · intro h0
      by_contra hne
      exact (this.2 ⟨hi, hj, hne⟩) h0
    · intro h0
      by_contra hne
      exact (this.1 hne).2.2 h0
  · intro i j hne
    exact ⟨Nat.pos_of_ne_zero hne, hzero i j⟩
  · obtain ⟨L2, hL2, hr2, hc2, hat2⟩ :=
      resolvePass_spec source.rows source.cols st.dSets L (fun a b => L.at_ a b)
        (fun a b _ _ => dsParent_root _ _ (hzero a b) (hlt a b))
    rw [hL2]
    congr 1
    apply Mat.eq_of _ _ hr2 hc2
    intro a b
    rw [hat2]
    split <;> rfl

/-- Two pixels that each start a new island do not touch: the one visited later would
have found the other among its causal neighbours. -/
theorem isSeed_not_adjacent (m : Mat Nat) (p q : Nat × Nat) (hp : isSeed m p)
    (hq : isSeed m q) : ¬ Adjacent8 p q := by
  intro hadj
  have key : ∀ a b : Nat × Nat, isSeed m a → isSeed m b → a ≠ b →
      ∀ k, k < 4 → b = nbr m a k → False := by
    intro a b ha hb hne k hk e
    rcases nbr_cases m a k hk ha.1.1 ha.1.2.1 with hcase | hcase | hcase
    · exact hne (e.trans hcase).symm
    · exact ha.2 k hk ⟨e ▸ hb.1, hcase⟩
    · rw [← e] at hcase
      exact hb.2 3 (by omega) ⟨hcase.2 ▸ ha.1, hcase.2 ▸ hcase.1⟩
  rcases adjacent8_link m p q hp.1.1 hp.1.2.1 hq.1.1 hq.1.2.1 hadj with ⟨k, hk, e⟩ | ⟨k, hk, e⟩
  · exact key p q hp hq hadj.1 k hk e
  · exact key q p hq hp (Ne.symm hadj.1) k hk e

/-- The number of fresh labels is at most `⌈rows / 2⌉ * ⌈cols / 2⌉`: every `2 × 2` block of
the grid holds at most one pixel that starts a new island. -/
theorem seedCount_le_blocks (m : Mat Nat) :
    seedCount m ≤ ((m.rows + 1) / 2) * ((m.cols + 1) / 2) := by
  unfold seedCount
  have hmaps : ∀ p ∈ (Finset.range m.rows ×ˢ Finset.range m.cols).filter (fun p => isSeed m p),
      (fun p : Nat × Nat => (p.1 / 2, p.2 / 2)) p ∈
        Finset.range ((m.rows + 1) / 2) ×ˢ Finset.range ((m.cols + 1) / 2) := by
    intro p hp
    simp only [Finset.mem_filter, Finset.mem_product, Finset.mem_range] at hp ⊢
    omega
  have hinj : Set.InjOn (fun p : Nat × Nat => (p.1 / 2, p.2 / 2))
      ((Finset.range m.rows ×ˢ Finset.range m.cols).filter (fun p => isSeed m p) :
        Set (Nat × Nat)) := by
    intro p hp q hq hpq
    simp only [Finset.coe_filter, Set.mem_setOf_eq] at hp hq
    simp only [Prod.mk.injEq] at hpq
    by_contra hne
    apply isSeed_not_adjacent m p q hp.2 hq.2
    refine ⟨hne, ?_, ?_, ?_, ?_⟩ <;> omega
  have := Finset.card_le_card_of_injOn _ hmaps hinj
  simpa using this

/-! ## The forest invariant at every point of the labelling pass -/

theorem Inv.table {source : Mat Nat} {st : LabelState} (h : Inv source st) :
    TableInv st.dSets st.lastSet :=
  ⟨h.lastSet_pos, h.entry_lt, h.entry_zero, h.entry_fresh, h.forest⟩

/-- The labels met on the way to the root are pairwise distinct. -/
theorem RootIn.iterate_injective {d : Nat → Nat} {n x r : Nat} (h : RootIn d n x r) :
    ∀ a b, a ≤ n → b ≤ n → d^[a] x = d^[b] x → a = b := by
  intro a b ha hb hab
  have h1 := h.iterate a ha
  have h2 := h.iterate b hb
  rw [hab] at h1
  have := (h1.in_unique h2).1
  omega

theorem TableInv.table_dsParent_ok {d : Nat → Nat} {N : Nat} (h : TableInv d N)
    (hcap : N ≤ DSETS_SIZE) {x : Nat} (hx : x < N) :
    ∃ r, dsParent d x = some r ∧ RootOf d x r := by
  obtain ⟨r, n, hn⟩ := h.forest x
  have hd : ∀ y, d y < DSETS_SIZE := fun y => lt_of_lt_of_le (h.entry_lt y) hcap
  refine ⟨r, ?_, ⟨n, hn⟩⟩
  unfold dsParent
  apply dsParentFuel_of_rootIn hd hn
  · by_cases hx0 : x = 0
    · subst hx0
      have := (hn.in_unique (RootIn.root h.entry_zero)).1
      simp [DSETS_SIZE, this]
    · have := hn.length_lt h.entry_lt hx hx0
      omega
  · omega

/-- Within the table capacity the maintained facts make the table a forest. -/
theorem TableInv.toForest {d : Nat → Nat} {N : Nat} (h : TableInv d N)
    (hcap : N ≤ DSETS_SIZE) : Forest d N := by
  refine ⟨h.entry_zero, ?_, ?_, ?_⟩
  · intro x hx
    have hx0 : x ≠ 0 := by
      intro e
      rw [e] at hx
      exact hx h.entry_zero
    have hxN : x < N := by
      by_contra hge
      exact hx (h.entry_fresh x (by omega))
    refine ⟨Nat.pos_of_ne_zero hx0, hxN, Nat.pos_of_ne_zero hx, h.entry_lt x, ?_⟩
    intro e
    obtain ⟨r, n, hn⟩ := h.forest x
    cases hn with
    | root h0 => exact hx h0
    | step _ hrest =>
      rw [e] at hrest
      have := ((RootIn.step hx (e.symm ▸ hrest)).in_unique hrest).1
      omega
  · intro x _
    obtain ⟨r, n, hn⟩ := h.forest x
    exact ⟨n, r, hn, hn.iterate_injective⟩
  · intro x hx
    obtain ⟨r, hr, hroot⟩ := h.table_dsParent_ok hcap hx
    exact ⟨r, hr, hroot.entry_zero⟩

/-- Rewriting the entry of a root to a different root keeps the maintained facts. -/
theorem TableInv.table_merge {d : Nat → Nat} {N : Nat} (h : TableInv d N) {pL pR : Nat}
    (hL : d pL = 0) (hR : d pR = 0) (hL0 : pL ≠ 0) (hR0 : pR ≠ 0) (hLN : pL < N)
    (hRN : pR < N) (hne : pL ≠ pR) : TableInv (Function.update d pL pR) N := by
  refine ⟨h.lastSet_pos, ?_, ?_, ?_, ?_⟩
  · intro x
    by_cases hx : x = pL
    · subst hx
      simpa using hRN
    · simp only [Function.update_noteq hx]
      exact h.entry_lt x
  · simp only [Function.update_noteq (Ne.symm hL0)]
    exact h.entry_zero
  · intro x hx
    have : x ≠ pL := by omega
    simp only [Function.update_noteq this]
    exact h.entry_fresh x hx
  · intro x
    obtain ⟨r, hr⟩ := h.forest x
    exact ⟨_, hr.merge hL hR hR0 hne⟩

theorem stateAt_end (source : Mat Nat) : stateAt source source.rows 0 0 = labelPass source := by
  unfold stateAt labelPass
  cases h : forRasterM source.rows source.cols (labelPixel source)
      { dSets := fun _ => 0, lastSet := 1, result := Mat.zeros source.rows source.cols } <;>
    simp [forNM]

/-- Within the label capacity the pass reaches every one of its points, and the state
facts hold there with `lastSet` inside the table. -/
theorem stateAt_inv (source : Mat Nat) (hseeds : seedCount source < DSETS_SIZE) (i j k : Nat)
    (hpoint : PassPoint source i j k) :
    ∃ st, stateAt source i j k = some st ∧ Inv source st ∧ st.lastSet ≤ DSETS_SIZE := by
  have hi : i ≤ source.rows := by
    rcases hpoint with h | h <;> omega
  obtain ⟨t1, ht1, hinv1⟩ :=
    forNM_inv (fun i t => InvAt source (i, 0) t)
      (fun i => forNM (fun j => labelPixel source i j) source.cols) i
      { dSets := fun _ => 0, lastSet := 1, result := Mat.zeros source.rows source.cols }
      (InvAt.init source)
      (fun a ha t ht => by
        obtain ⟨t', ht', hinv⟩ :=
          forNM_inv (fun j t => InvAt source (a, j) t) (fun j => labelPixel source a j)
            source.cols t ht
            (fun b hb u hu => labelPixel_inv source hseeds (a, b) (by simp only; omega) hb u hu)
        exact ⟨t', ht', hinv.next_row⟩)
  have hrows : forRasterM i source.cols (labelPixel source)
      { dSets := fun _ => 0, lastSet := 1, result := Mat.zeros source.rows source.cols } =
      some t1 := ht1
  unfold stateAt
  rw [hrows]
  rcases hpoint with ⟨hi', hj, hk⟩ | ⟨_, hj, hk⟩
  · obtain ⟨t2, ht2, hinv2⟩ :=
      forNM_inv (fun j t => InvAt source (i, j) t) (fun j => labelPixel source i j) j t1 hinv1
        (fun b hb u hu => labelPixel_inv source hseeds (i, b) hi' (by simp only; omega) u hu)
    have hcols : forNM (labelPixel source i) j t1 = some t2 := ht2
    simp only [Option.some_bind, hcols]
    rcases hk with hk | ⟨hk, hj', hfg⟩
    · subst hk
      exact ⟨t2, rfl, hinv2.toInv, hinv2.cap hseeds⟩
    · have hcap2 := hinv2.cap hseeds
      obtain ⟨t3, ht3, hin, hlast⟩ :=
        forNM_inv (fun k t => InvIn source (i, j) k t ∧ t.lastSet = t2.lastSet)
          (visitNeighbour source i j) k t2 ⟨hinv2.enter, rfl⟩
          (fun a ha t ht => by
            obtain ⟨t', ht', hin'⟩ :=
              visitNeighbour_inv source (i, j) a (by omega) t ⟨hi', hj', hfg⟩
                (ht.2 ▸ hcap2) ht.1
            refine ⟨t', ht', hin', ?_⟩
            have e1 := hin'.count
            have e2 := ht.1.count
            omega)
      exact ⟨t3, ht3, hin.toInv, hlast ▸ hcap2⟩
  · subst hj hk
    exact ⟨t1, rfl, hinv1.toInv, hinv1.cap hseeds⟩

/-- In a table that satisfies the maintained facts within capacity, `dsMerge` of two
allocated labels with different roots rewrites the entry of one root to the other root,
and the result is again a forest. -/
theorem TableInv.dsMerge_ok {d : Nat → Nat} {N : Nat} (h : TableInv d N)
    (hcap : N ≤ DSETS_SIZE) (left right : Nat) (hl0 : 0 < left) (hlN : left < N)
    (hr0 : 0 < right) (hrN : right < N) (hne : dsParent d left ≠ dsParent d right) :
    ∃ pL pR, dsParent d left = some pL ∧ dsParent d right = some pR ∧ d pL = 0 ∧ d pR = 0 ∧
      pL ≠ pR ∧ dsMerge d left right = some (Function.update d pL pR) ∧
      Forest (Function.update d pL pR) N := by
  obtain ⟨pL, hpL, hrootL⟩ := h.table_dsParent_ok hcap hlN
  obtain ⟨pR, hpR, hrootR⟩ := h.table_dsParent_ok hcap hrN
  have hLN : pL < N := hrootL.root_lt h.entry_lt hlN
  have hRN : pR < N := hrootR.root_lt h.entry_lt hrN
  have hL0 : pL ≠ 0 := hrootL.root_ne_zero (by omega)
  have hR0 : pR ≠ 0 := hrootR.root_ne_zero (by omega)
  have hLR : pL ≠ pR := by
    intro e
    apply hne
    rw [hpL, hpR, e]
  have hLcap : pL < DSETS_SIZE := by omega
  refine ⟨pL, pR, hpL, hpR, hrootL.entry_zero, hrootR.entry_zero, hLR, ?_, ?_⟩
  · simp [dsMerge, hpL, hpR, writeSet, hLcap]
  · exact (h.table_merge hrootL.entry_zero hrootR.entry_zero hL0 hR0 hLN hRN hLR).toForest hcap

/-! ## Clamped and unclamped neighbours -/

theorem visitNeighbour_eq_visitWith (source : Mat Nat) (i j k : Nat) (st : LabelState) :
    visitNeighbour source i j k st =
      visitWith i j (st.result.at_ (nbrRow source.rows i k) (nbrCol source.cols j k)) st :=
  rfl

theorem visitWith_zero (i j : Nat) (st : LabelState) : visitWith i j 0 st = some st := by
  simp [visitWith]

/-- A neighbour visit changes no cell of `result` other than `(i, j)`. -/
theorem visitWith_result (i j l : Nat) (st st' : LabelState) (h : visitWith i j l st = some st')
    (a b : Nat) (hab : ¬ (a = i ∧ b = j)) : st'.result.at_ a b = st.result.at_ a b := by
  unfold visitWith at h
  by_cases hl : l = 0
  · simp only [hl, ne_eq, not_true_eq_false, if_false, Option.some.injEq] at h
    rw [← h]
  · simp only [ne_eq, hl, not_false_eq_true, if_true] at h
    by_cases hcur : st.result.at_ i j = 0
    · simp only [hcur, if_true] at h
      cases hp : dsParent st.dSets l with
      | none => simp [hp] at h
      | some p =>
        simp only [hp, Option.some_bind, Option.some.injEq] at h
        rw [← h]
        simp [Mat.set, hab]
    · simp only [hcur, if_false] at h
      cases hv : dsParent st.dSets (st.result.at_ i j) with
      | none => simp [hv] at h
      | some pV =>
        cases hn : dsParent st.dSets l with
        | none => simp [hv, hn] at h
        | some pN =>
          simp only [hv, hn, Option.some_bind] at h
          by_cases hroots : pV = pN
          · simp only [hroots, ne_eq, not_true_eq_false, if_false, Option.some.injEq] at h
            rw [← h]
          · simp only [ne_eq, hroots, not_false_eq_true, if_true] at h
            cases hm : dsMerge st.dSets (st.result.at_ i j) l with
            | none => simp [hm] at h
            | some d' =>
              simp only [hm, Option.some_bind, Option.some.injEq] at h
              rw [← h]

/-- Visiting the pixel's own cell changes nothing. -/
theorem visitWith_self (i j : Nat) (st st' : LabelState)
    (h : visitWith i j (st.result.at_ i j) st = some st') : st' = st := by
  unfold visitWith at h
  by_cases hcur : st.result.at_ i j = 0
  · simp only [hcur, ne_eq, not_true_eq_false, if_false, Option.some.injEq] at h
    exact h.symm
  · simp only [ne_eq, hcur, not_false_eq_true, if_true, if_false] at h
    cases hv : dsParent st.dSets (st.result.at_ i j) with
    | none => simp [hv] at h
    | some pV =>
      simp only [hv, Option.some_bind, ne_eq, not_true_eq_false, if_false,
        Option.some.injEq] at h
      exact h.symm

/-- Visiting the same neighbour label a second time changes nothing. -/
theorem visitWith_idem (i j l : Nat) (st st1 st2 : LabelState)
    (h1 : visitWith i j l st = some st1) (h2 : visitWith i j l st1 = some st2) : st2 = st1 := by
  by_cases hl : l = 0
  · subst hl
    rw [visitWith_zero] at h2
    exact (Option.some.inj h2).symm
  unfold visitWith at h1 h2
  simp only [ne_eq, hl, not_false_eq_true, if_true] at h1 h2
  by_cases hcur : st.result.at_ i j = 0
  · simp only [hcur, if_true] at h1
    cases hp : dsParent st.dSets l with
    | none => simp [hp] at h1
    | some p =>
      simp only [hp, Option.some_bind, Option.some.injEq] at h1
      obtain ⟨hroot, -⟩ := dsParentFuel_sound _ _ _ _ hp
      have hp0 : p ≠ 0 := hroot.root_ne_zero hl
      subst h1
      simp only [Mat.set_at_self, hp0, if_false, hp, Option.some_bind] at h2
      cases hv : dsParent st.dSets p with
      | none => simp [hv] at h2
      | some pV =>
        obtain ⟨hrootV, -⟩ := dsParentFuel_sound _ _ _ _ hv
        have e : pV = p := hrootV.unique (RootOf.of_entry_zero hroot.entry_zero)
        simp only [hv, Option.some_bind, e, ne_eq, not_true_eq_false, if_false,
          Option.some.injEq] at h2
        exact h2.symm
  · simp only [hcur, if_false] at h1
    cases hv : dsParent st.dSets (st.result.at_ i j) with
    | none => simp [hv] at h1
    | some pV =>
      cases hn : dsParent st.dSets l with
      | none => simp [hv, hn] at h1
      | some pN =>
        simp only [hv, hn, Option.some_bind] at h1
        obtain ⟨hrootV, hVcap⟩ := dsParentFuel_sound _ _ _ _ hv
        obtain ⟨hrootN, -⟩ := dsParentFuel_sound _ _ _ _ hn
        by_cases hroots : pV = pN
        · simp only [hroots, ne_eq, not_true_eq_false, if_false, Option.some.injEq] at h1
          subst h1
          simp only [hcur, if_false, hv, hn, Option.some_bind, hroots, ne_eq,
            not_true_eq_false, Option.some.injEq] at h2
          exact h2.symm
        · simp only [ne_eq, hroots, not_false_eq_true, if_true, dsMerge, hv, hn,
            Option.some_bind, writeSet, hVcap, Option.some.injEq] at h1
          subst h1
          simp only [hcur, if_false] at h2
          have hN0 : pN ≠ 0 := hrootN.root_ne_zero hl
          have mV := hrootV.merge hrootV.entry_zero hrootN.entry_zero hN0 hroots
          have mN := hrootN.merge hrootV.entry_zero hrootN.entry_zero hN0 hroots
          simp only [if_true] at mV
          simp only [Ne.symm hroots, if_false] at mN
          cases hv' : dsParent (Function.update st.dSets pV pN) (st.result.at_ i j) with
          | none => simp [hv'] at h2
          | some a =>
            cases hn' : dsParent (Function.update st.dSets pV pN) l with
            | none => simp [hv', hn'] at h2
            | some b =>
              obtain ⟨ra, -⟩ := dsParentFuel_sound _ _ _ _ hv'
              obtain ⟨rb, -⟩ := dsParentFuel_sound _ _ _ _ hn'
              have ea : a = pN := ra.unique mV
              have eb : b = pN := rb.unique mN
              simp only [hv', hn', Option.some_bind, ea, eb, ne_eq, not_true_eq_false,
                if_false, Option.some.injEq] at h2
              exact h2.symm

theorem nbrRow_up (rows i k : Nat) (hk : k < 3) (hi : i < rows) : nbrRow rows i k = i - 1 := by
  unfold nbrRow clamp
  interval_cases k <;> simp only [dy] <;> omega

theorem nbrRow_three (rows i : Nat) (hi : i < rows) : nbrRow rows i 3 = i := by
  unfold nbrRow clamp
  simp only [dy]
  omega

theorem nbrCol_zero (cols j : Nat) (hj : j < cols) :
    nbrCol cols j 0 = if j + 1 < cols then j + 1 else j := by
  unfold nbrCol clamp
  simp only [dx]
  split <;> omega

theorem nbrCol_one (cols j : Nat) (hj : j < cols) : nbrCol cols j 1 = j := by
  unfold nbrCol clamp
  simp only [dx]
  omega

theorem nbrCol_left (cols j k : Nat) (hk : k = 2 ∨ k = 3) (hj : j < cols) :
    nbrCol cols j k = j - 1 := by
  unfold nbrCol clamp
  rcases hk with hk | hk <;> subst hk <;> simp only [dx] <;> omega

/-- Inside the grid the unclamped read is the clamped read; outside it the unclamped visit
does nothing. -/
theorem visitNeighbourUnclamped_eq (source : Mat Nat) (i j k : Nat) (st : LabelState) :
    visitNeighbourUnclamped source i j k st =
      if inGrid source.rows source.cols i j k then visitNeighbour source i j k st
      else some st := by
  unfold visitNeighbourUnclamped unclampedLabel
  by_cases hg : inGrid source.rows source.cols i j k
  · simp only [hg, if_true]
    rw [visitNeighbour_eq_visitWith]
    have hr : nbrRow source.rows i k = ((i : Int) + dy k).toNat := by
      unfold inGrid at hg
      unfold nbrRow clamp
      omega
    have hc : nbrCol source.cols j k = ((j : Int) + dx k).toNat := by
      unfold inGrid at hg
      unfold nbrCol clamp
      omega
    rw [hr, hc]
  · simp only [hg, if_false]
    exact visitWith_zero i j st

theorem visitWith_cell_idem (i j a b : Nat) (hab : ¬ (a = i ∧ b = j)) (s s1 s2 : LabelState)
    (h1 : visitWith i j (s.result.at_ a b) s = some s1)
    (h2 : visitWith i j (s1.result.at_ a b) s1 = some s2) : s2 = s1 := by
  rw [visitWith_result i j _ s s1 h1 a b hab] at h2
  exact visitWith_idem i j _ s s1 s2 h1 h2

theorem forNM_four {σ : Type} (body : Nat → σ → Option σ) (s : σ) :
    forNM body 4 s = (((body 0 s).bind (body 1)).bind (body 2)).bind (body 3) := by
  simp [forNM]

theorem bind_chain_four {σ : Type} (f0 f1 f2 f3 : σ → Option σ) (s t1 t2 t3 t4 : σ)
    (h0 : f0 s = some t1) (h1 : f1 t1 = some t2) (h2 : f2 t2 = some t3)
    (h3 : f3 t3 = some t4) : (((f0 s).bind f1).bind f2).bind f3 = some t4 := by
  simp [h0, h1, h2, h3]

/-- At a pixel of the grid, with every cell not yet visited still unlabelled, the
neighbour loop with unclamped neighbours ends in the state of the loop of the code. -/
theorem neighbourLoop_unclamped (source : Mat Nat) (i j : Nat) (hi : i < source.rows)
    (hj : j < source.cols) (st st' : LabelState)
    (hW : ∀ a b, ¬ Before (a, b) (i, j) → st.result.at_ a b = 0)
    (h : forNM (visitNeighbour source i j) 4 st = some st') :
    forNM (visitNeighbourUnclamped source i j) 4 st = some st' := by
  rw [forNM_four] at h ⊢
  obtain ⟨s3, h, h3⟩ := Option.bind_eq_some.1 h
  obtain ⟨s2, h, h2⟩ := Option.bind_eq_some.1 h
  obtain ⟨s1, h0, h1⟩ := Option.bind_eq_some.1 h
  have c0 : ∀ s, visitNeighbour source i j 0 s =
      visitWith i j (s.result.at_ (i - 1) (if j + 1 < source.cols then j + 1 else j)) s := by
    intro s
    rw [visitNeighbour_eq_visitWith, nbrRow_up _ _ _ (by omega) hi, nbrCol_zero _ _ hj]
  have c1 : ∀ s, visitNeighbour source i j 1 s = visitWith i j (s.result.at_ (i - 1) j) s := by
    intro s
    rw [visitNeighbour_eq_visitWith, nbrRow_up _ _ _ (by omega) hi, nbrCol_one _ _ hj]
  have c2 : ∀ s, visitNeighbour source i j 2 s =
      visitWith i j (s.result.at_ (i - 1) (j - 1)) s := by
    intro s
    rw [visitNeighbour_eq_visitWith, nbrRow_up _ _ _ (by omega) hi,
      nbrCol_left _ _ _ (Or.inl rfl) hj]
  have c3 : ∀ s, visitNeighbour source i j 3 s = visitWith i j (s.result.at_ i (j - 1)) s := by
    intro s
    rw [visitNeighbour_eq_visitWith, nbrRow_three _ _ hi, nbrCol_left _ _ _ (Or.inr rfl) hj]
  rw [c0] at h0
  rw [c1] at h1
  rw [c2] at h2
  rw [c3] at h3
  have g0 : inGrid source.rows source.cols i j 0 ↔ (0 < i ∧ j + 1 < source.cols) := by
    unfold inGrid
    simp only [dx, dy]
    omega
  have g1 : inGrid source.rows source.cols i j 1 ↔ 0 < i := by
    unfold inGrid
    simp only [dx, dy]
    omega
  have g2 : inGrid source.rows source.cols i j 2 ↔ (0 < i ∧ 0 < j) := by
    unfold inGrid
    simp only [dx, dy]
    omega
  have g3 : inGrid source.rows source.cols i j 3 ↔ 0 < j := by
    unfold inGrid
    simp only [dx, dy]
    omega
  have uOut : ∀ k s, ¬ inGrid source.rows source.cols i j k →
      visitNeighbourUnclamped source i j k s = some s := by
    intro k s hg
    rw [visitNeighbourUnclamped_eq, if_neg hg]
  have uIn : ∀ k s, inGrid source.rows source.cols i j k →
      visitNeighbourUnclamped source i j k s = visitNeighbour source i j k s := by
    intro k s hg
    rw [visitNeighbourUnclamped_eq, if_pos hg]
  have hbef : ∀ a b, ¬ Before (a, b) (i, j) ↔ (i < a ∨ (i = a ∧ j ≤ b)) := by
    intro a b
    unfold Before
    simp only
    omega
  by_cases hi0 : i = 0
  · -- first row: the clamped neighbours above lie in the row itself
    have e1 : s1 = st := by
      have hz : st.result.at_ (i - 1) (if j + 1 < source.cols then j + 1 else j) = 0 := by
        apply hW
        rw [hbef]
        split <;> omega
      rw [hz, visitWith_zero] at h0
      exact (Option.some.inj h0).symm
    subst e1
    have e2 : s2 = s1 := by
      have hz : s1.result.at_ (i - 1) j = 0 := hW (i - 1) j (by rw [hbef]; omega)
      rw [hz, visitWith_zero] at h1
      exact (Option.some.inj h1).symm
    subst e2
    have hrow : i - 1 = i := by omega
    rw [hrow] at h2
    by_cases hj0 : j = 0
    · have hcol : j - 1 = j := by omega
      rw [hcol] at h2 h3
      have e3 : s3 = s2 := visitWith_self i j s2 s3 h2
      subst e3
      have e4 : st' = s3 := visitWith_self i j s3 st' h3
      subst e4
      exact bind_chain_four _ _ _ _ _ st' st' st' st'
        (uOut 0 _ (by rw [g0]; omega)) (uOut 1 _ (by rw [g1]; omega))
        (uOut 2 _ (by rw [g2]; omega)) (uOut 3 _ (by rw [g3]; omega))
    · have e4 : st' = s3 :=
        visitWith_cell_idem i j i (j - 1) (by omega) s2 s3 st' h2 h3
      subst e4
      exact bind_chain_four _ _ _ _ _ s2 s2 s2 st'
        (uOut 0 _ (by rw [g0]; omega)) (uOut 1 _ (by rw [g1]; omega))
        (uOut 2 _ (by rw [g2]; omega))
        (by rw [uIn 3 _ (by rw [g3]; omega), c3]; exact h2)
  · have hi1 : 0 < i := Nat.pos_of_ne_zero hi0
    have hup : ∀ b, ¬ (i - 1 = i ∧ b = j) := by
      intro b
      omega
    by_cases hjc : j + 1 < source.cols
    · rw [if_pos hjc] at h0
      have u0 : visitNeighbourUnclamped source i j 0 st = some s1 := by
        rw [uIn 0 _ (by rw [g0]; omega), c0, if_pos hjc]
        exact h0
      have u1 : visitNeighbourUnclamped source i j 1 s1 = some s2 := by
        rw [uIn 1 _ (by rw [g1]; omega), c1]
        exact h1
      by_cases hj0 : j = 0
      · have hcol : j - 1 = j := by omega
        rw [hcol] at h2 h3
        have e3 : s3 = s2 := visitWith_cell_idem i j (i - 1) j (hup j) s1 s2 s3 h1 h2
        subst e3
        have e4 : st' = s3 := visitWith_self i j s3 st' h3
        subst e4
        exact bind_chain_four _ _ _ _ _ s1 st' st' st' u0 u1
          (uOut 2 _ (by rw [g2]; omega)) (uOut 3 _ (by rw [g3]; omega))
      · exact bind_chain_four _ _ _ _ _ s1 s2 s3 st' u0 u1
          (by rw [uIn 2 _ (by rw [g2]; omega), c2]; exact h2)
          (by rw [uIn 3 _ (by rw [g3]; omega), c3]; exact h3)
    · rw [if_neg hjc] at h0
      have e2 : s2 = s1 := visitWith_cell_idem i j (i - 1) j (hup j) st s1 s2 h0 h1
      subst e2
      have u0 : visitNeighbourUnclamped source i j 0 st = some st :=
        uOut 0 _ (by rw [g0]; omega)
      have u1 : visitNeighbourUnclamped source i j 1 st = some s2 := by
        rw [uIn 1 _ (by rw [g1]; omega), c1]
        exact h0
      by_cases hj0 : j = 0
      · have hcol : j - 1 = j := by omega
        rw [hcol] at h2 h3
        have e3 : s3 = s2 := visitWith_cell_idem i j (i - 1) j (hup j) st s2 s3 h0 h2
        subst e3
        have e4 : st' = s3 := visitWith_self i j s3 st' h3
        subst e4
        exact bind_chain_four _ _ _ _ _ st st' st' st' u0 u1
          (uOut 2 _ (by rw [g2]; omega)) (uOut 3 _ (by rw [g3]; omega))
      · exact bind_chain_four _ _ _ _ _ st s2 s3 st' u0 u1
          (by rw [uIn 2 _ (by rw [g2]; omega), c2]; exact h2)
          (by rw [uIn 3 _ (by rw [g3]; omega), c3]; exact h3)

/-- Two loops whose bodies agree wherever the first one succeeds, on the states that
satisfy an invariant the first one maintains, end in the same state. -/
theorem forNM_sim {σ : Type} (P : Nat → σ → Prop) (c u : Nat → σ → Option σ) (n : Nat) (s : σ)
    (h0 : P 0 s)
    (hstep : ∀ k, k < n → ∀ t t', P k t → c k t = some t' → u k t = some t' ∧ P (k + 1) t') :
    ∀ s', forNM c n s = some s' → forNM u n s = some s' ∧ P n s' := by
  induction n with
  | zero =>
    intro s' h
    simp only [forNM, Option.some.injEq] at h
    subst h
    exact ⟨rfl, h0⟩
  | succ n ih =>
    intro s' h
    simp only [forNM] at h ⊢
    obtain ⟨t, ht, hbody⟩ := Option.bind_eq_some.1 h
    obtain ⟨hu, hP⟩ := ih (fun k hk => hstep k (by omega)) t ht
    obtain ⟨hu', hP'⟩ := hstep n (by omega) t s' hP hbody
    exact ⟨by rw [hu]; exact hu', hP'⟩

theorem forNM_visit_result (source : Mat Nat) (i j : Nat) (a b : Nat) (hab : ¬ (a = i ∧ b = j)) :
    ∀ n st st', forNM (visitNeighbour source i j) n st = some st' →
      st'.result.at_ a b = st.result.at_ a b := by
  intro n
  induction n with
  | zero =>
    intro st st' h
    simp only [forNM, Option.some.injEq] at h
    rw [h]
  | succ n ih =>
    intro st st' h
    simp only [forNM] at h
    obtain ⟨t, ht, hbody⟩ := Option.bind_eq_some.1 h
    rw [visitNeighbour_eq_visitWith] at hbody
    rw [visitWith_result i j _ t st' hbody a b hab, ih st t ht]

/-- The body of the raster loops changes no cell of `result` other than `(i, j)`. -/
theorem labelPixel_result (source : Mat Nat) (i j : Nat) (st st' : LabelState)
    (h : labelPixel source i j st = some st') (a b : Nat) (hab : ¬ (a = i ∧ b = j)) :
    st'.result.at_ a b = st.result.at_ a b := by
  unfold labelPixel at h
  by_cases hc : source.at_ i j = 0
  · simp only [hc, ne_eq, not_true_eq_false, if_false, Option.some.injEq] at h
    rw [h]
  · simp only [ne_eq, hc, not_false_eq_true, if_true, Option.map_eq_some'] at h
    obtain ⟨t, ht, hbegin⟩ := h
    rw [← hbegin, ← forNM_visit_result source i j a b hab 4 st t ht]
    unfold beginIsland
    split
    · simp [Mat.set, hab]
    · rfl

/-- At a pixel of the grid, with every cell not yet visited still unlabelled, the body of
the raster loops with unclamped neighbours ends in the state of the body of the code. -/
theorem labelPixel_unclamped (source : Mat Nat) (i j : Nat) (hi : i < source.rows)
    (hj : j < source.cols) (st st' : LabelState)
    (hW : ∀ a b, ¬ Before (a, b) (i, j) → st.result.at_ a b = 0)
    (h : labelPixel source i j st = some st') :
    labelPixelUnclamped source i j st = some st' := by
  unfold labelPixel at h
  unfold labelPixelUnclamped
  by_cases hc : source.at_ i j = 0
  · simpa [hc] using h
  · simp only [ne_eq, hc, not_false_eq_true, if_true, Option.map_eq_some'] at h ⊢
    obtain ⟨t, ht, hbegin⟩ := h
    exact ⟨t, neighbourLoop_unclamped source i j hi hj st t hW ht, hbegin⟩

/-- Whenever the labelling pass of the code succeeds, the pass with unclamped neighbours
ends in the same state. -/
theorem labelPass_unclamped (source : Mat Nat) (st : LabelState)
    (h : labelPass source = some st) : labelPassUnclamped source = some st := by
  unfold labelPass forRasterM at h
  unfold labelPassUnclamped forRasterM
  refine (forNM_sim (fun i t => ∀ a b, ¬ Before (a, b) (i, 0) → t.result.at_ a b = 0)
    _ _ source.rows _ (fun _ _ _ => rfl) ?_ st h).1
  intro i hi t t' hP hrow
  obtain ⟨hu, hW⟩ :=
    forNM_sim (fun j u => ∀ a b, ¬ Before (a, b) (i, j) → u.result.at_ a b = 0)
      (fun j => labelPixel source i j) (fun j => labelPixelUnclamped source i j)
      source.cols t hP
      (fun j hj u u' hWu hpix => by
        refine ⟨labelPixel_unclamped source i j hi hj u u' hWu hpix, ?_⟩
        intro a b hnb
        have hab : ¬ (a = i ∧ b = j) := by
          unfold Before at hnb
          simp only at hnb
          omega
        rw [labelPixel_result source i j u u' hpix a b hab]
        apply hWu
        unfold Before at hnb ⊢
        simp only at hnb ⊢
        omega)
      t' hrow
  refine ⟨hu, ?_⟩
  intro a b hnb
  apply hW
  unfold Before at hnb ⊢
  simp only at hnb ⊢
  omega

/-- Whenever `createIslandMask` returns a grid, the algorithm with unclamped neighbours
returns the same grid. -/
theorem createIslandMask_unclamped (source : Mat Nat) (L : Mat Nat)
    (h : createIslandMask source = some L) : createIslandMaskUnclamped source = some L := by
  unfold createIslandMask at h
  obtain ⟨st, hst, hres⟩ := Option.bind_eq_some.1 h
  unfold createIslandMaskUnclamped
  rw [labelPass_unclamped source st hst]
  exact hres

/-! ## Properties of the pipeline -/

/-- C1, label partition correctness.  For every grid whose labelling allocates fewer than
2048 fresh labels (`seedCount`, which is what `lastSet - 1` ends at), `createIslandMask`
returns a grid in which two foreground pixels carry the same resolved label if and only
if a chain of foreground pixels joins them, consecutive pixels being related in one
direction or the other by one of the four clamped causal offsets; equivalently, if and
only if the brute-force flood fill started at one of them reaches the other. -/
theorem label_partition_correct (source : Mat Nat) (hcap : seedCount source < DSETS_SIZE) :
    ∃ st L, labelPass source = some st ∧ st.lastSet = seedCount source + 1 ∧
      createIslandMask source = some L ∧
      ∀ p q : Nat × Nat, source.fg p → source.fg q →
        (L.at_ p.1 p.2 = L.at_ q.1 q.2 ↔ Connected source p q) ∧
        (L.at_ p.1 p.2 = L.at_ q.1 q.2 ↔ q ∈ floodFill source p) := by
  obtain ⟨st, L, hst, hlast, hL, -, -, -, hpart⟩ := createIslandMask_spec source hcap
  refine ⟨st, L, hst, hlast, hL, ?_⟩
  intro p q hp hq
  refine ⟨hpart p q hp hq, ?_⟩
  rw [mem_floodFill_iff source p q hp.1 hp.2.1]
  exact hpart p q hp hq

/-- An instance on the sample binary grid, which allocates three labels. -/
theorem label_partition_correct_witness :
    seedCount sampleBinary < DSETS_SIZE ∧
      ∃ st L, labelPass sampleBinary = some st ∧ st.lastSet = seedCount sampleBinary + 1 ∧
        createIslandMask sampleBinary = some L ∧
        ∀ p q : Nat × Nat, sampleBinary.fg p → sampleBinary.fg q →
          (L.at_ p.1 p.2 = L.at_ q.1 q.2 ↔ Connected sampleBinary p q) ∧
          (L.at_ p.1 p.2 = L.at_ q.1 q.2 ↔ q ∈ floodFill sampleBinary p) :=
  ⟨by decide, label_partition_correct sampleBinary (by decide)⟩

/-- C2, area conservation.  For every grid within the label capacity, the areas of the
islands of `extractIslands (createIslandMask b)` add up to the number of nonzero pixels
of `b`. -/
theorem area_conservation (source : Mat Nat) (hcap : seedCount source < DSETS_SIZE) :
    ∃ L, createIslandMask source = some L ∧
      totalArea (extractIslands L) = source.count (fun v => v ≠ 0) := by
  obtain ⟨st, L, -, -, hL, hr, hc, hfg, -⟩ := createIslandMask_spec source hcap
  refine ⟨L, hL, ?_⟩
  rw [totalArea_extractIslands]
  apply Mat.count_ne_zero_congr L source hr hc
  intro a b ha hb
  rw [hfg (a, b)]
  constructor
  · exact fun h => h.2.2
  · exact fun h => ⟨hr ▸ ha, hc ▸ hb, h⟩

/-- An instance on the sample binary grid. -/
theorem area_conservation_witness :
    seedCount sampleBinary < DSETS_SIZE ∧
      ∃ L, createIslandMask sampleBinary = some L ∧
        totalArea (extractIslands L) = sampleBinary.count (fun v => v ≠ 0) :=
  ⟨by decide, area_conservation sampleBinary (by decide)⟩

/-- C3, filter containment.  The output of `filterImageByIslands` has the dimensions of
the label grid; a pixel of it is 255 if and only if its label is nonzero and is the
`index` of one of the first `min(k, islands.size())` islands, and is 0 otherwise. -/
theorem filter_containment (islandMask : Mat Nat) (islands : List Island) (k : Int)
    (i j : Nat) (hi : i < islandMask.rows) (hj : j < islandMask.cols) :
    (filterImageByIslands islandMask islands k).rows = islandMask.rows ∧
    (filterImageByIslands islandMask islands k).cols = islandMask.cols ∧
    ((filterImageByIslands islandMask islands k).at_ i j = 255 ↔
      islandMask.at_ i j ≠ 0 ∧
        ∃ (n : Nat) (isl : Island), (n : Int) < min (k : Int) (islands.length : Int) ∧
          islands[n]? = some isl ∧ isl.index = islandMask.at_ i j) ∧
    ((filterImageByIslands islandMask islands k).at_ i j ≠ 255 →
      (filterImageByIslands islandMask islands k).at_ i j = 0) := by
  refine ⟨filterImageByIslands_rows _ _ _, filterImageByIslands_cols _ _ _, ?_, ?_⟩
  · rw [filterImageByIslands_at]
    simp only [hi, hj, true_and]
    have hbound : ∀ n : Nat, n < filterBound islands k ↔
        (n : Int) < min (k : Int) (islands.length : Int) := by
      intro n
      unfold filterBound
      omega
    constructor
    · intro h
      split at h
      · rename_i hcond
        obtain ⟨n, isl, hn, hget, hidx⟩ := (matchesIsland_iff _ _ _).1 hcond.2
        exact ⟨hcond.1, n, isl, (hbound n).1 hn, hget, hidx⟩
      · omega
    · rintro ⟨h0, n, isl, hn, hget, hidx⟩
      have : matchesIsland (islandMask.at_ i j) islands (filterBound islands k) = true :=
        (matchesIsland_iff _ _ _).2 ⟨n, isl, (hbound n).2 hn, hget, hidx⟩
      simp [h0, this]
  · rw [filterImageByIslands_at]
    intro h
    split
    · rename_i hcond
      simp [hcond] at h
    · rfl

/-- An instance on the sample label grid, keeping the first of two islands, at pixel
`(0, 1)`. -/
theorem filter_containment_witness :
    (0 < sampleLabels.rows ∧ 1 < sampleLabels.cols) ∧
    ((filterImageByIslands sampleLabels [⟨1, 3⟩, ⟨2, 1⟩] 1).rows = sampleLabels.rows ∧
    (filterImageByIslands sampleLabels [⟨1, 3⟩, ⟨2, 1⟩] 1).cols = sampleLabels.cols ∧
    ((filterImageByIslands sampleLabels [⟨1, 3⟩, ⟨2, 1⟩] 1).at_ 0 1 = 255 ↔
      sampleLabels.at_ 0 1 ≠ 0 ∧
        ∃ (n : Nat) (isl : Island), (n : Int) < min (1 : Int) (([⟨1, 3⟩, ⟨2, 1⟩] : List Island).length : Int) ∧
          ([⟨1, 3⟩, ⟨2, 1⟩] : List Island)[n]? = some isl ∧ isl.index = sampleLabels.at_ 0 1) ∧
    ((filterImageByIslands sampleLabels [⟨1, 3⟩, ⟨2, 1⟩] 1).at_ 0 1 ≠ 255 →
      (filterImageByIslands sampleLabels [⟨1, 3⟩, ⟨2, 1⟩] 1).at_ 0 1 = 0)) :=
  ⟨⟨by decide, by decide⟩,
    filter_containment sampleLabels [⟨1, 3⟩, ⟨2, 1⟩] 1 0 1 (by decide) (by decide)⟩

/-- C4, ranking.  `extractIslands` returns its islands by descending area: for positions
`i < j` of the result, the area at `i` is at least the area at `j`. -/
theorem extractIslands_descending (source : Mat Nat) (i j : Nat) (hij : i < j)
    (hj : j < (extractIslands source).length) :
    (extractIslands source)[j].area ≤ (extractIslands source)[i].area := by
  have hsorted := stdSort_sorted (islandMap source)
  have := List.pairwise_iff_getElem.1 hsorted i j (by unfold extractIslands at hj; omega)
    (by unfold extractIslands at hj; exact hj) hij
  unfold mayPrecede areaGreater at this
  unfold extractIslands
  omega

/-- An instance on the sample label grid, at positions 0 and 1 of the result. -/
theorem extractIslands_descending_witness :
    ∃ (h : 0 < 1 ∧ 1 < (extractIslands sampleLabels).length),
      (extractIslands sampleLabels)[1].area ≤ (extractIslands sampleLabels)[0].area :=
  ⟨by decide, extractIslands_descending sampleLabels 0 1 (by decide) (by decide)⟩

/-- C5, one island per label.  The result of `extractIslands` has no two islands with the
same label, its labels are exactly the nonzero values that occur in the grid, and the area
of each island is the number of cells of the grid holding its label. -/
theorem extractIslands_one_per_label (source : Mat Nat) :
    (keys (extractIslands source)).Nodup ∧
    (∀ l, l ∈ keys (extractIslands source) ↔
      l ≠ 0 ∧ ∃ i j, i < source.rows ∧ j < source.cols ∧ source.at_ i j = l) ∧
    ∀ isl ∈ extractIslands source, isl.area = source.count (fun v => v = isl.index) := by
  refine ⟨?_, ?_, ?_⟩
  · exact (keys_extractIslands_perm source).nodup_iff.2 (keys_islandMap_nodup source)
  · intro l
    rw [(keys_extractIslands_perm source).mem_iff]
    exact mem_keys_islandMap source l
  · intro isl hisl
    exact area_of_mem_islandMap source isl ((mem_extractIslands source isl).1 hisl)

/-- C6, threshold selection: the code at the input `samplePair` (intensities 254 and 253),
`areaPercent = 1`, with the cell past the histogram reading 0.  The scan stops at
threshold 253 because it compares the accumulated mass with the constant 0.04; the
fraction of pixels brighter than 253 is 1/2, below the requested 1, and the threshold
is not 0. -/
theorem threshold_selection_eval :
    convertToBinary.threshold samplePair 1 0 = 253 ∧
      (samplePair.count (fun v => v > 253) : ℚ) /
        ((samplePair.rows * samplePair.cols : Nat) : ℚ) < 1 := by
  constructor
  · unfold convertToBinary.threshold
    have c255 : samplePair.count (fun v => v = 255) = 0 := by decide
    have c254 : samplePair.count (fun v => v = 254) = 1 := by decide
    have h255 : createHistogram samplePair 0 255 = 0 := by
      rw [createHistogram_apply, c255]
      simp [histogramInit, HISTOGRAM_SIZE]
    have h254 : createHistogram samplePair 0 254 = 1 / 2 := by
      rw [createHistogram_apply, c254]
      simp [histogramInit, HISTOGRAM_SIZE, samplePair]
    rw [thresholdLoop_step _ 254 0 (by norm_num [BINARIZATION_AREA_PERCENTAGE]), h255,
      thresholdLoop_step _ 253 _ (by norm_num [BINARIZATION_AREA_PERCENTAGE]), h254,
      thresholdLoop_stop _ 252 _ (by norm_num [BINARIZATION_AREA_PERCENTAGE])]
  · have : samplePair.count (fun v => v > 253) = 1 := by decide
    rw [this]
    norm_num [samplePair]

/-- C7, zero-intensity exclusion.  Whatever `areaFraction` is passed, and whatever the
cell past the histogram holds, a pixel of intensity 0 is 0 in the output of
`convertToBinary`: the comparison `0 > threshold` is false for every threshold. -/
theorem zero_intensity_excluded (source : Mat Nat) (areaFraction stray : ℚ) (i j : Nat)
    (h0 : source.at_ i j = 0) : (convertToBinary source areaFraction stray).at_ i j = 0 := by
  rw [convertToBinary_at, h0]
  simp

/-- An instance on the all-zero `2 × 2` grid, at pixel `(1, 0)`. -/
theorem zero_intensity_excluded_witness :
    (Mat.zeros 2 2).at_ 1 0 = 0 ∧ (convertToBinary (Mat.zeros 2 2) 1 0).at_ 1 0 = 0 :=
  ⟨rfl, zero_intensity_excluded (Mat.zeros 2 2) 1 0 1 0 rfl⟩

/-- C8, keeping more islands than exist.  For every grid within the label capacity, with
`L = createIslandMask b` and `I = extractIslands L`, and every `k` not below the number of
islands, `filterImageByIslands L I k` (a total function: no error) is 255 exactly at the
pixels whose label is nonzero, which are exactly the nonzero pixels of `b`, and 0
elsewhere. -/
theorem keep_all_islands (source : Mat Nat) (hcap : seedCount source < DSETS_SIZE) (k : Int)
    (hk : ∀ L, createIslandMask source = some L → ((extractIslands L).length : Int) ≤ k) :
    ∃ L, createIslandMask source = some L ∧
      ∀ i j, i < source.rows → j < source.cols →
        ((filterImageByIslands L (extractIslands L) k).at_ i j = 255 ↔ L.at_ i j ≠ 0) ∧
        (L.at_ i j ≠ 0 ↔ source.at_ i j ≠ 0) ∧
        ((filterImageByIslands L (extractIslands L) k).at_ i j ≠ 255 →
          (filterImageByIslands L (extractIslands L) k).at_ i j = 0) := by
  obtain ⟨st, L, -, -, hL, hr, hc, hfg, -⟩ := createIslandMask_spec source hcap
  have hlen := hk L hL
  refine ⟨L, hL, ?_⟩
  intro i j hi hj
  have hbound : filterBound (extractIslands L) k = (extractIslands L).length := by
    unfold filterBound
    omega
  have hmatch : L.at_ i j ≠ 0 →
      matchesIsland (L.at_ i j) (extractIslands L) (filterBound (extractIslands L) k) = true := by
    intro h0
    have hkey : L.at_ i j ∈ keys (extractIslands L) := by
      rw [(keys_extractIslands_perm L).mem_iff, mem_keys_islandMap]
      exact ⟨h0, i, j, hr ▸ hi, hc ▸ hj, rfl⟩
    obtain ⟨isl, hisl, hidx⟩ := List.mem_map.1 hkey
    obtain ⟨n, hn, hget⟩ := List.getElem_of_mem hisl
    rw [matchesIsland_iff]
    refine ⟨n, isl, by omega, ?_, hidx⟩
    rw [List.getElem?_eq_getElem hn, hget]
  refine ⟨?_, ?_, ?_⟩
  · rw [filterImageByIslands_at]
    constructor
    · intro h
      split at h
      · rename_i hcond
        exact hcond.2.2.1
      · omega
    · intro h0
      simp [hr, hc, hi, hj, h0, hmatch h0]
  · rw [hfg (i, j)]
    constructor
    · exact fun h => h.2.2
    · exact fun h => ⟨hi, hj, h⟩
  · rw [filterImageByIslands_at]
    intro h
    split
    · rename_i hcond
      simp [hcond] at h
    · rfl

/-- An instance on the sample binary grid, which has three islands, with `k = 3`. -/
theorem keep_all_islands_witness :
    (seedCount sampleBinary < DSETS_SIZE ∧
      ∀ L, createIslandMask sampleBinary = some L → ((extractIslands L).length : Int) ≤ 3) ∧
    ∃ L, createIslandMask sampleBinary = some L ∧
      ∀ i j, i < sampleBinary.rows → j < sampleBinary.cols →
        ((filterImageByIslands L (extractIslands L) 3).at_ i j = 255 ↔ L.at_ i j ≠ 0) ∧
        (L.at_ i j ≠ 0 ↔ sampleBinary.at_ i j ≠ 0) ∧
        ((filterImageByIslands L (extractIslands L) 3).at_ i j ≠ 255 →
          (filterImageByIslands L (extractIslands L) 3).at_ i j = 0) := by
  have hlen : (createIslandMask sampleBinary).map (fun L => (extractIslands L).length) =
      some 3 := by decide
  have hk : ∀ L, createIslandMask sampleBinary = some L →
      ((extractIslands L).length : Int) ≤ 3 := by
    intro L hL
    rw [hL] at hlen
    simp only [Option.map_some', Option.some.injEq] at hlen
    omega
  exact ⟨⟨by decide, hk⟩, keep_all_islands sampleBinary (by decide) 3 hk⟩

/-- C9, histogram normalization: the code at the input `sampleWhite` (one pixel of
intensity 255).  The pixel's mass is written at index 255, past the 255 allocated bins
`0 .. 254`, so the bins of the histogram sum to 0, not to 1. -/
theorem histogram_sum_eval (stray : ℚ) :
    histogramSum (createHistogram sampleWhite stray) = 0 := by
  unfold histogramSum
  apply Finset.sum_eq_zero
  intro b hb
  simp only [Finset.mem_range] at hb
  rw [createHistogram_apply]
  have : sampleWhite.count (fun v => v = b) = 0 := by
    unfold Mat.count
    rw [Finset.card_eq_zero]
    apply Finset.filter_false_of_mem
    intro c _
    simp only [sampleWhite]
    unfold HISTOGRAM_SIZE at hb
    omega
  simp [this, histogramInit, hb]

/-- C10, the example scenario, as the code runs it.  For every `5 × 5` grid that is 0
except for a 3-pixel corner diagonal of value 200 and a separate connected 5-pixel blob of
value 220, the pipeline with `areaFraction = 0.2` and `islandCount = 1` (the cell past
the histogram holding a value in `[0, 0.04)`) stops the scan at threshold 219, so the
binary grid has 5 foreground pixels, exactly the blob; there is exactly one island, of
area 5; and the filtered grid has 5 foreground pixels, exactly the blob. -/
theorem example_scenario_amended (g : Mat Nat) (h : Scenario g) (stray : ℚ)
    (hs0 : 0 ≤ stray) (hs1 : stray < BINARIZATION_AREA_PERCENTAGE) :
    convertToBinary.threshold g (1 / 5) stray = 219 ∧
    (∀ i j, i < 5 → j < 5 →
      ((convertToBinary g (1 / 5) stray).at_ i j = 255 ↔ g.at_ i j = 220) ∧
      ((convertToBinary g (1 / 5) stray).at_ i j ≠ 255 →
        (convertToBinary g (1 / 5) stray).at_ i j = 0)) ∧
    (convertToBinary g (1 / 5) stray).count (fun v => v ≠ 0) = 5 ∧
    ∃ L, createIslandMask (convertToBinary g (1 / 5) stray) = some L ∧
      (∃ l, extractIslands L = [⟨l, 5⟩]) ∧
      (∀ i j, i < 5 → j < 5 →
        ((filterImageByIslands L (extractIslands L) 1).at_ i j = 255 ↔ g.at_ i j = 220) ∧
        ((filterImageByIslands L (extractIslands L) 1).at_ i j ≠ 255 →
          (filterImageByIslands L (extractIslands L) 1).at_ i j = 0)) ∧
      (filterImageByIslands L (extractIslands L) 1).count (fun v => v ≠ 0) = 5 :=
  h.outcome g (1 / 5) stray hs0 hs1

/-- An instance on the sample grid of the scenario, the cell past the histogram reading 0. -/
theorem example_scenario_amended_witness :
    (Scenario sampleScene ∧ (0 : ℚ) ≤ 0 ∧ (0 : ℚ) < BINARIZATION_AREA_PERCENTAGE) ∧
    (convertToBinary.threshold sampleScene (1 / 5) 0 = 219 ∧
    (∀ i j, i < 5 → j < 5 →
      ((convertToBinary sampleScene (1 / 5) 0).at_ i j = 255 ↔ sampleScene.at_ i j = 220) ∧
      ((convertToBinary sampleScene (1 / 5) 0).at_ i j ≠ 255 →
        (convertToBinary sampleScene (1 / 5) 0).at_ i j = 0)) ∧
    (convertToBinary sampleScene (1 / 5) 0).count (fun v => v ≠ 0) = 5 ∧
    ∃ L, createIslandMask (convertToBinary sampleScene (1 / 5) 0) = some L ∧
      (∃ l, extractIslands L = [⟨l, 5⟩]) ∧
      (∀ i j, i < 5 → j < 5 →
        ((filterImageByIslands L (extractIslands L) 1).at_ i j = 255 ↔
          sampleScene.at_ i j = 220) ∧
        ((filterImageByIslands L (extractIslands L) 1).at_ i j ≠ 255 →
          (filterImageByIslands L (extractIslands L) 1).at_ i j = 0)) ∧
      (filterImageByIslands L (extractIslands L) 1).count (fun v => v ≠ 0) = 5) :=
  ⟨⟨sampleScene_scenario, le_refl 0, by norm_num [BINARIZATION_AREA_PERCENTAGE]⟩,
    example_scenario_amended sampleScene sampleScene_scenario 0 (le_refl 0)
      (by norm_num [BINARIZATION_AREA_PERCENTAGE])⟩

/-- C10 as stated fails on the sample grid of the scenario (with `areaFraction = 0.2`,
`islandCount = 1` and the cell past the histogram reading 0): the threshold is 219, not at
most 199; the binary grid has 5 foreground pixels, not 8; and there is one island, not
two. -/
theorem example_scenario_counterexample :
    Scenario sampleScene ∧
    ¬ (convertToBinary.threshold sampleScene (1 / 5) 0 ≤ 199) ∧
    ¬ ((convertToBinary sampleScene (1 / 5) 0).count (fun v => v ≠ 0) = 8) ∧
    ¬ (∃ L, createIslandMask (convertToBinary sampleScene (1 / 5) 0) = some L ∧
        (extractIslands L).map Island.area = [5, 3]) := by
  obtain ⟨ht, -, hcount, L, hL, ⟨l, hisl⟩, -, -⟩ :=
    sampleScene_scenario.outcome sampleScene (1 / 5) 0 (le_refl 0)
      (by norm_num [BINARIZATION_AREA_PERCENTAGE])
  refine ⟨sampleScene_scenario, ?_, ?_, ?_⟩
  · rw [ht]
    omega
  · rw [hcount]
    omega
  · rintro ⟨L', hL', harea⟩
    rw [hL] at hL'
    cases hL'
    rw [hisl] at harea
    simp at harea

/-- C11, threshold monotonicity.  For every grid and targets `p1 ≤ p2` in `(0, 1]` (the
cell past the histogram holding the same value in both runs), the threshold derived for
`p2` is not greater than the one derived for `p1`, and the binary grid for `p2` has no
fewer foreground pixels than the one for `p1`.  In the code the two runs coincide: the
scan does not read the target it is passed. -/
theorem threshold_monotone (source : Mat Nat) (p1 p2 stray : ℚ) (h0 : 0 < p1) (h12 : p1 ≤ p2)
    (h1 : p2 ≤ 1) :
    convertToBinary.threshold source p2 stray ≤ convertToBinary.threshold source p1 stray ∧
    (convertToBinary source p1 stray).count (fun v => v ≠ 0) ≤
      (convertToBinary source p2 stray).count (fun v => v ≠ 0) :=
  ⟨le_refl _, le_refl _⟩

/-- An instance on the sample pair with targets 1/4 and 1/2. -/
theorem threshold_monotone_witness :
    ((0 : ℚ) < 1 / 4 ∧ (1 / 4 : ℚ) ≤ 1 / 2 ∧ (1 / 2 : ℚ) ≤ 1) ∧
    (convertToBinary.threshold samplePair (1 / 2) 0 ≤
      convertToBinary.threshold samplePair (1 / 4) 0 ∧
    (convertToBinary samplePair (1 / 4) 0).count (fun v => v ≠ 0) ≤
      (convertToBinary samplePair (1 / 2) 0).count (fun v => v ≠ 0)) :=
  ⟨⟨by norm_num, by norm_num, by norm_num⟩,
    threshold_monotone samplePair (1 / 4) (1 / 2) 0 (by norm_num) (by norm_num) (by norm_num)⟩

/-- C12, degenerate target: the code at the input `samplePair` with `areaPercent = 1` (the
cell past the histogram reading 0).  The threshold is 253, not 0, and the pixel `(0, 1)`,
of intensity 253, is background. -/
theorem degenerate_target_eval :
    convertToBinary.threshold samplePair 1 0 = 253 ∧
    samplePair.at_ 0 1 = 253 ∧ (convertToBinary samplePair 1 0).at_ 0 1 = 0 := by
  refine ⟨samplePair_threshold 1, rfl, ?_⟩
  rw [convertToBinary_at, samplePair_threshold 1]
  simp [samplePair]

/-- C13, border clamping, as the code runs it.  Clamping is not observable: for every grid
within the label capacity, `createIslandMask`, which clamps out-of-range neighbour
coordinates to the grid edge, returns the same label grid as the same algorithm with
out-of-range neighbours treated as background.  A clamped neighbour is the pixel itself,
a pixel not yet visited, or a pixel that the loop also reads unclamped. -/
theorem clamping_not_observable (source : Mat Nat) (hcap : seedCount source < DSETS_SIZE) :
    ∃ L, createIslandMask source = some L ∧ createIslandMaskUnclamped source = some L := by
  obtain ⟨st, L, -, -, hL, -, -, -, -⟩ := createIslandMask_spec source hcap
  exact ⟨L, hL, createIslandMask_unclamped source L hL⟩

/-- An instance on the sample binary grid, which has foreground pixels on all four
edges. -/
theorem clamping_not_observable_witness :
    seedCount sampleBinary < DSETS_SIZE ∧
    ∃ L, createIslandMask sampleBinary = some L ∧
      createIslandMaskUnclamped sampleBinary = some L :=
  ⟨by decide, clamping_not_observable sampleBinary (by decide)⟩

/-- C13 as stated fails: there is no grid on which `createIslandMask` and the algorithm
with unclamped neighbours both return a label grid and the two grids differ. -/
theorem clamping_observable_counterexample :
    ¬ ∃ (source L L' : Mat Nat), createIslandMask source = some L ∧
      createIslandMaskUnclamped source = some L' ∧ L ≠ L' := by
  rintro ⟨source, L, L', hL, hL', hne⟩
  rw [createIslandMask_unclamped source L hL] at hL'
  exact hne (Option.some.inj hL')

/-- C14, non-positive island count, as the code runs it.  `filterImageByIslands` has no
failure path: for every `k ≤ 0` it returns a mask of the dimensions of the label grid
whose every pixel is 0. -/
theorem filter_nonpositive_count (islandMask : Mat Nat) (islands : List Island) (k : Int)
    (hk : k ≤ 0) :
    (filterImageByIslands islandMask islands k).rows = islandMask.rows ∧
    (filterImageByIslands islandMask islands k).cols = islandMask.cols ∧
    ∀ i j, (filterImageByIslands islandMask islands k).at_ i j = 0 := by
  refine ⟨filterImageByIslands_rows _ _ _, filterImageByIslands_cols _ _ _, ?_⟩
  intro i j
  rw [filterImageByIslands_at]
  have hb : filterBound islands k = 0 := by
    unfold filterBound
    omega
  have hm : matchesIsland (islandMask.at_ i j) islands 0 = false := by
    cases islands <;> rfl
  simp [hb, hm]

/-- An instance on the sample label grid with `k = -1`. -/
theorem filter_nonpositive_count_witness :
    ((-1 : Int) ≤ 0) ∧
    ((filterImageByIslands sampleLabels [⟨1, 3⟩, ⟨2, 1⟩] (-1)).rows = sampleLabels.rows ∧
    (filterImageByIslands sampleLabels [⟨1, 3⟩, ⟨2, 1⟩] (-1)).cols = sampleLabels.cols ∧
    ∀ i j, (filterImageByIslands sampleLabels [⟨1, 3⟩, ⟨2, 1⟩] (-1)).at_ i j = 0) :=
  ⟨by decide, filter_nonpositive_count sampleLabels [⟨1, 3⟩, ⟨2, 1⟩] (-1) (by decide)⟩

/-- C14 as stated fails on the sample label grid with `k = 0`: the call does not fail, it
returns the `2 × 3` mask whose pixels are all 0. -/
theorem filter_nonpositive_count_counterexample :
    ∃ mask, filterImageByIslands sampleLabels [⟨1, 3⟩, ⟨2, 1⟩] 0 = mask ∧
      mask.rows = 2 ∧ mask.cols = 3 ∧ ∀ i j, mask.at_ i j = 0 := by
  refine ⟨_, rfl, filterImageByIslands_rows _ _ _, filterImageByIslands_cols _ _ _, ?_⟩
  intro i j
  rw [filterImageByIslands_at]
  have hb : filterBound [(⟨1, 3⟩ : Island), ⟨2, 1⟩] 0 = 0 := by decide
  simp [hb, matchesIsland]

/-- C15, disjoint-set invariant.  For every grid within the label capacity, at every
point of the raster pass (`stateAt`, whose last point is the end of `labelPass`) the
parent table is a forest over the labels allocated so far (`Forest`: slot 0 is 0, nonzero
entries are allocated labels different from their child, parent chains do not repeat a
label and end at an entry 0, `dsParent` returns), and `dsMerge` of two allocated labels
with different roots rewrites the entry of a root to the other root and leaves a
forest. -/
theorem disjoint_set_invariant (source : Mat Nat) (hcap : seedCount source < DSETS_SIZE)
    (i j k : Nat) (hpoint : PassPoint source i j k) :
    stateAt source source.rows 0 0 = labelPass source ∧
    ∃ st, stateAt source i j k = some st ∧ Forest st.dSets st.lastSet ∧
      ∀ left right, 0 < left → left < st.lastSet → 0 < right → right < st.lastSet →
        dsParent st.dSets left ≠ dsParent st.dSets right →
        ∃ pL pR, dsParent st.dSets left = some pL ∧ dsParent st.dSets right = some pR ∧
          st.dSets pL = 0 ∧ st.dSets pR = 0 ∧ pL ≠ pR ∧
          dsMerge st.dSets left right = some (Function.update st.dSets pL pR) ∧
          Forest (Function.update st.dSets pL pR) st.lastSet := by
  refine ⟨stateAt_end source, ?_⟩
  obtain ⟨st, hst, hinv, hlast⟩ := stateAt_inv source hcap i j k hpoint
  refine ⟨st, hst, hinv.table.toForest hlast, ?_⟩
  intro left right hl0 hlN hr0 hrN hne
  exact hinv.table.dsMerge_ok hlast left right hl0 hlN hr0 hrN hne

/-- An instance on the sample binary grid, inside the visit of pixel `(1, 3)` after two of
its neighbours have been examined. -/
theorem disjoint_set_invariant_witness :
    (seedCount sampleBinary < DSETS_SIZE ∧ PassPoint sampleBinary 1 3 2) ∧
    (stateAt sampleBinary sampleBinary.rows 0 0 = labelPass sampleBinary ∧
    ∃ st, stateAt sampleBinary 1 3 2 = some st ∧ Forest st.dSets st.lastSet ∧
      ∀ left right, 0 < left → left < st.lastSet → 0 < right → right < st.lastSet →
        dsParent st.dSets left ≠ dsParent st.dSets right →
        ∃ pL pR, dsParent st.dSets left = some pL ∧ dsParent st.dSets right = some pR ∧
          st.dSets pL = 0 ∧ st.dSets pR = 0 ∧ pL ≠ pR ∧
          dsMerge st.dSets left right = some (Function.update st.dSets pL pR) ∧
          Forest (Function.update st.dSets pL pR) st.lastSet) :=
  ⟨⟨by decide, by decide⟩, disjoint_set_invariant sampleBinary (by decide) 1 3 2 (by decide)⟩

/-- C16, canonical resolved labels.  For every grid within the label capacity, a cell of
the grid returned by `createIslandMask` is 0 if and only if the binary pixel is 0, every
nonzero cell holds a positive label whose parent entry is 0 (a disjoint-set root), and
applying the resolution pass a second time changes nothing. -/
theorem resolved_labels_canonical (source : Mat Nat) (hcap : seedCount source < DSETS_SIZE) :
    ∃ st L, labelPass source = some st ∧ createIslandMask source = some L ∧
      (∀ i j, i < source.rows → j < source.cols → (L.at_ i j = 0 ↔ source.at_ i j = 0)) ∧
      (∀ i j, L.at_ i j ≠ 0 → 0 < L.at_ i j ∧ st.dSets (L.at_ i j) = 0) ∧
      resolvePass source.rows source.cols st.dSets L = some L :=
  createIslandMask_canonical source hcap

/-- An instance on the sample binary grid. -/
theorem resolved_labels_canonical_witness :
    seedCount sampleBinary < DSETS_SIZE ∧
    ∃ st L, labelPass sampleBinary = some st ∧ createIslandMask sampleBinary = some L ∧
      (∀ i j, i < sampleBinary.rows → j < sampleBinary.cols →
        (L.at_ i j = 0 ↔ sampleBinary.at_ i j = 0)) ∧
      (∀ i j, L.at_ i j ≠ 0 → 0 < L.at_ i j ∧ st.dSets (L.at_ i j) = 0) ∧
      resolvePass sampleBinary.rows sampleBinary.cols st.dSets L = some L :=
  ⟨by decide, resolved_labels_canonical sampleBinary (by decide)⟩

/-- C17, histogram indexing: the code at the input `sampleWhite`.  The histogram has 255
bins, so index 255 is outside it; `createHistogram` writes at index 255 (the intensity of
the pixel), and the scan of `convertToBinary` reads index 255 first, for every grid. -/
theorem histogram_index_eval :
    ¬ (255 < HISTOGRAM_SIZE) ∧ 255 ∈ histogramWrites sampleWhite ∧
    (∀ (source : Mat Nat) (stray : ℚ),
      255 ∈ thresholdReads (createHistogram source stray) 255 0) ∧
    (∀ stray : ℚ, createHistogram sampleWhite stray 255 = stray + 1) := by
  refine ⟨by decide, by decide, ?_, sampleWhite_cell⟩
  intro source stray
  have h0 : (0 : ℚ) < BINARIZATION_AREA_PERCENTAGE := by
    norm_num [BINARIZATION_AREA_PERCENTAGE]
  rw [thresholdReads_step _ 254 0 h0]
  exact List.mem_cons_self _ _

/-- C18, label-capacity bound.  For every grid the number of fresh labels allocated by
`createIslandMask` is at most `⌈rows / 2⌉ * ⌈cols / 2⌉`, because pixels that start a new
island never touch; hence, when that product is at most 2047, the labelling allocates
labels below 2048 only and every access to the 2048-slot table is in bounds: the run,
whose table accesses are all checked, succeeds. -/
theorem label_capacity_bound (source : Mat Nat) :
    seedCount source ≤ ((source.rows + 1) / 2) * ((source.cols + 1) / 2) ∧
    (∀ p q : Nat × Nat, isSeed source p → isSeed source q → ¬ Adjacent8 p q) ∧
    (((source.rows + 1) / 2) * ((source.cols + 1) / 2) ≤ 2047 →
      ∃ st L, labelPass source = some st ∧ st.lastSet = seedCount source + 1 ∧
        st.lastSet ≤ DSETS_SIZE ∧ createIslandMask source = some L) := by
  refine ⟨seedCount_le_blocks source, isSeed_not_adjacent source, ?_⟩
  intro hdim
  have hcap : seedCount source < DSETS_SIZE := by
    have := seedCount_le_blocks source
    unfold DSETS_SIZE
    omega
  obtain ⟨st, L, hst, hlast, hL, -, -, -, -⟩ := createIslandMask_spec source hcap
  exact ⟨st, L, hst, hlast, by omega, hL⟩

/-- An instance on the sample binary grid, a `3 × 4` grid: at most `2 * 2` fresh labels. -/
theorem label_capacity_bound_witness :
    (((sampleBinary.rows + 1) / 2) * ((sampleBinary.cols + 1) / 2) ≤ 2047) ∧
    seedCount sampleBinary ≤ 4 ∧
    ∃ st L, labelPass sampleBinary = some st ∧ st.lastSet = seedCount sampleBinary + 1 ∧
      st.lastSet ≤ DSETS_SIZE ∧ createIslandMask sampleBinary = some L :=
  ⟨by decide, (label_capacity_bound sampleBinary).1,
    (label_capacity_bound sampleBinary).2.2 (by decide)⟩

/-- C19, full 8-connectivity.  For every grid within the label capacity, two foreground
pixels that touch horizontally, vertically or diagonally receive the same resolved label
from `createIslandMask`. -/
theorem eight_connectivity (source : Mat Nat) (hcap : seedCount source < DSETS_SIZE) :
    ∃ L, createIslandMask source = some L ∧
      ∀ p q : Nat × Nat, source.fg p → source.fg q → Adjacent8 p q →
        L.at_ p.1 p.2 = L.at_ q.1 q.2 := by
  obtain ⟨st, L, -, -, hL, -, -, -, hpart⟩ := createIslandMask_spec source hcap
  refine ⟨L, hL, ?_⟩
  intro p q hp hq hadj
  rw [hpart p q hp hq]
  rcases adjacent8_link source p q hp.1 hp.2.1 hq.1 hq.2.1 hadj with ⟨k, hk, e⟩ | ⟨k, hk, e⟩
  · exact Connected.of_link ⟨hp, hq, k, hk, e⟩
  · exact (Connected.of_link ⟨hq, hp, k, hk, e⟩).symm

/-- An instance on the sample binary grid, where `(1, 3)` and `(2, 2)` touch diagonally. -/
theorem eight_connectivity_witness :
    seedCount sampleBinary < DSETS_SIZE ∧
    ∃ L, createIslandMask sampleBinary = some L ∧
      ∀ p q : Nat × Nat, sampleBinary.fg p → sampleBinary.fg q → Adjacent8 p q →
        L.at_ p.1 p.2 = L.at_ q.1 q.2 :=
  ⟨by decide, eight_connectivity sampleBinary (by decide)⟩

/-- C20, the unused parameter.  `convertToBinary` returns the same binary grid for every
two values of `areaPercent` (the cell past the histogram holding the same value): the
threshold is derived from the constant `BINARIZATION_AREA_PERCENTAGE`. -/
theorem convertToBinary_ignores_areaPercent (source : Mat Nat) (p1 p2 stray : ℚ) :
    convertToBinary source p1 stray = convertToBinary source p2 stray ∧
    convertToBinary.threshold source p1 stray =
      thresholdLoop (createHistogram source stray) 255 0 ∧
    BINARIZATION_AREA_PERCENTAGE = 4 / 100 :=
  ⟨rfl, rfl, rfl⟩

end IslandSeg

